import Mathlib

/-!
ChunkFS and UnChunkFS

A shallow embedding of `chunkfs.c` and `unchunkfs.c`.

Conventions of the embedding.

* A byte is a natural number; a C string is the list of its bytes before the
  terminating NUL, so `"/00"` is `[47, 48, 48]`.
* `size_t` and `uint64_t` values and the `off_t` values that are never negative
  (sizes fixed at mount, chunk indices, request offsets) are natural numbers;
  where the C code computes in `uint64_t` the result is reduced modulo `2 ^ 64`,
  and the `off_t` values that come out of a subtraction are computed in `Int`.
* A function that returns a negative errno returns `Res.err (-errno)`; a call of
  `die` (which exits the process) is `Res.die`.
* System calls are parameters of the embedding: the result of `fstat`, `stat`,
  `open`, `pread`, `close` and `fchdir` is supplied by the environment.
-/

namespace Chunkfs

/-! ## Constants of the C environment (Linux, `_FILE_OFFSET_BITS 64`) -/

def ENOENT : Int := 2
def EIO : Int := 5
def ENOTDIR : Int := 20
def EISDIR : Int := 21
def EROFS : Int := 30

def S_IFMT : Nat := 0o170000
def S_IFDIR : Nat := 0o040000
def S_IFREG : Nat := 0o100000
def S_IRUSR : Nat := 0o400
def S_IXUSR : Nat := 0o100
def S_IRGRP : Nat := 0o040
def S_IXGRP : Nat := 0o010
def S_IROTH : Nat := 0o004
def S_IXOTH : Nat := 0o001

def O_ACCMODE : Nat := 3
def O_RDONLY : Nat := 0

def INT_MAX : Nat := 2 ^ 31 - 1
def SSIZE_MAX : Nat := 2 ^ 63 - 1

/-- Largest value of the signed 64-bit `off_t`, what `ANYSINT_MAX(off_t)` of
`utils.h` evaluates to. -/
def OFF_T_MAX : Nat := 2 ^ 63 - 1

/-- Outcome of a filesystem operation or of the mount sequence. -/
inductive Res (α : Type) where
  | ok (v : α)
  | err (code : Int)
  | die
  deriving DecidableEq, Repr

/-- Result of a `pread` call: `-1` with an errno, or the bytes delivered. -/
inductive PreadRes where
  | error (errno : Int)
  | data (bytes : List Nat)
  deriving DecidableEq, Repr

/-- Result of a `stat` call on a chunk file. -/
inductive StatRes where
  | enoent
  | error (errno : Int)
  | size (st_size : Nat)
  deriving DecidableEq, Repr

/-- The ASCII code of the lowercase hexadecimal digit `d` (`d < 16`), as the
`x` conversion of `printf` writes it. -/
def hexChar (d : Nat) : Nat := if d < 10 then 48 + d else 87 + d

/-- The `w` low-order hexadecimal digits of `n`, most significant first. -/
def hexFixed : Nat → Nat → List Nat
  | 0, _ => []
  | w + 1, n => hexFixed w (n / 16) ++ [hexChar (n % 16)]

/-- Number of hexadecimal digits of `n` (one for `0`). -/
def hexLen : Nat → Nat → Nat
  | 0, _ => 1
  | fuel + 1, n => if n < 16 then 1 else hexLen fuel (n / 16) + 1

/-- Conversion `%0<w>x` of `printf`: the hexadecimal digits of `n`, padded with
zeros on the left to at least `w` characters. -/
def printfHex (w n : Nat) : List Nat := hexFixed (max w (hexLen n n)) n

/-- Bytes of a string literal. -/
def bytes (s : String) : List Nat := s.toList.map Char.toNat

/-- The fields of `struct stat` that the filesystems set. -/
structure stat where
  st_mode : Nat
  st_nlink : Nat
  st_size : Int
  st_blocks : Nat
  deriving DecidableEq, Repr

/-- `S_ISDIR(mode)`. -/
def S_ISDIR (mode : Nat) : Bool := mode &&& S_IFMT = S_IFDIR

/-- Complement of a 32-bit `mode_t` value. -/
def mode_not (v : Nat) : Nat := 0xFFFFFFFF ^^^ v

/-- The mode and link-count rewriting shared by both `getattr` functions:
`buf` is what `fstat` delivered, `mode` the type of the node, `nlink` the link
count of a directory and `size` the size of a file. -/
def fill_stat (buf : stat) (mode nlink : Nat) (size : Int) : stat :=
  let st_mode := (buf.st_mode &&& mode_not (S_IFMT ||| S_IXUSR ||| S_IXGRP ||| S_IXOTH))
    ||| (mode &&& S_IFMT)
  if S_ISDIR mode then
    let st_mode := st_mode
      ||| (if st_mode &&& S_IRUSR ≠ 0 then S_IXUSR else 0)
      ||| (if st_mode &&& S_IRGRP ≠ 0 then S_IXGRP else 0)
      ||| (if st_mode &&& S_IROTH ≠ 0 then S_IXOTH else 0)
    { st_mode := st_mode, st_nlink := nlink, st_size := 0, st_blocks := 0 }
  else
    { st_mode := st_mode, st_nlink := 1, st_size := size, st_blocks := 0 }

/-! ## unchunkfs.c -/

namespace UnChunkFS

/-- Store the bytes `src` into `buf` from index `pos` on. -/
def writeAt (buf : List Nat) (pos : Nat) : List Nat → List Nat
  | [] => buf
  | b :: bs => writeAt (buf.set pos b) (pos + 1) bs

/-- `memmove(buf+dst, buf+src, 2)`: both source bytes are read before either
destination byte is written. -/
def memmove2 (buf : List Nat) (dst src : Nat) : List Nat :=
  let b0 := buf.getD src 0
  let b1 := buf.getD (src + 1) 0
  (buf.set dst b0).set (dst + 1) b1

/-- The loop `for(int x=0;x<7;x++)` of `gen_chunk_name`, run for `n` more
iterations from `x`. -/
def gen_chunk_name_loop : Nat → Nat → List Nat → List Nat
  | 0, _, buf => buf
  | n + 1, x, buf =>
    let buf := memmove2 buf (x * 3) (7 + x * 2)
    let buf := buf.set (x * 3 + 2) 47
    gen_chunk_name_loop n (x + 1) buf

/-- `gen_chunk_name(buf, num)` of `unchunkfs.c`, as the new content of the
24-byte buffer `buf`. `num` is converted to `intmax_t` and printed by `%016jx`
as an unsigned 64-bit value, followed by the terminating NUL. -/
def gen_chunk_name (buf : List Nat) (num : Nat) : List Nat :=
  let buf := writeAt buf 7 (printfHex 16 (num % 2 ^ 64) ++ [0])
  gen_chunk_name_loop 7 0 buf

/-- The C string held in a buffer: its bytes before the first NUL. -/
def cstr (buf : List Nat) : List Nat := buf.takeWhile (fun b => b ≠ 0)

/-- The name `gen_chunk_name` leaves in a fresh `char chunk_name[24]`. -/
def chunk_name (num : Nat) : List Nat :=
  cstr (gen_chunk_name (List.replicate 24 0) num)

/-- The system calls `unchunkfs.c` makes against the chunk directory, by the
name of the chunk file: `fchdir` is whether `fchdir(chunkdir_fd)` succeeds,
`openOk` whether `open(name,O_RDONLY)` does, `pread name n pos` the outcome of
`pread` on that file, `closeOk` whether `close` succeeds. -/
structure ChunkDir where
  fchdir : Bool
  stat : List Nat → StatRes
  openOk : List Nat → Bool
  pread : List Nat → Nat → Nat → PreadRes
  closeOk : List Nat → Bool

/-- The globals of `unchunkfs.c` fixed at mount. -/
structure Mount where
  chunk_size : Nat
  image_size : Nat
  deriving DecidableEq, Repr

/-- `ensure_chunkdir_is_cwd`, given the static flag `done`: whether it succeeds
and the new value of the flag. -/
def ensure_chunkdir_is_cwd (d : ChunkDir) (done : Bool) : Bool × Bool :=
  if ¬ done then
    if ¬ d.fchdir then (false, done)
    else (true, true)
  else (true, done)

/-- `resolve_path` of `unchunkfs.c`: the mode of the node. -/
def resolve_path (path : List Nat) : Res Nat :=
  if path = [47] then Res.ok S_IFDIR
  else if path = [47, 105, 109, 97, 103, 101] then Res.ok S_IFREG
  else Res.err (-ENOENT)

/-- `unchunkfs_getattr`; `fstat` is the outcome of `fstat(chunkdir_fd,buf)`. -/
def unchunkfs_getattr (m : Mount) (fstat : Except Int stat) (path : List Nat) : Res stat :=
  match resolve_path path with
  | Res.err r => Res.err r
  | Res.die => Res.die
  | Res.ok mode =>
    match fstat with
    | Except.error errno => Res.err (-errno)
    | Except.ok buf => Res.ok (fill_stat buf mode 2 m.image_size)

/-- `unchunkfs_readdir`: the names handed to `filler`. -/
def unchunkfs_readdir (path : List Nat) : Res (List (List Nat)) :=
  match resolve_path path with
  | Res.err r => Res.err r
  | Res.die => Res.die
  | Res.ok mode =>
    if ¬ S_ISDIR mode then Res.err (-ENOTDIR)
    else Res.ok [[46], [46, 46], [105, 109, 97, 103, 101]]

/-- `unchunkfs_open`. -/
def unchunkfs_open (path : List Nat) (flags : Nat) : Res Unit :=
  match resolve_path path with
  | Res.err r => Res.err r
  | Res.die => Res.die
  | Res.ok _ =>
    if flags &&& O_ACCMODE ≠ O_RDONLY then Res.err (-EROFS)
    else Res.ok ()

/-- The loop `for(bufpos=0;bufpos<count;)` of `unchunkfs_read`; the result is
the return value and the bytes stored in `buf[0, bufpos)`, `none` when `fuel`
iterations were not enough. -/
def unchunkfs_read_loop (d : ChunkDir) (chunk_size offset count : Nat) :
    Nat → Nat → List Nat → Option (Res (Nat × List Nat))
  | fuel, bufpos, buf =>
    if bufpos < count then
      match fuel with
      | 0 => none
      | fuel + 1 =>
        let chunk_num := (offset + bufpos) / chunk_size
        let chunk_offset := (offset + bufpos) % chunk_size
        let name := chunk_name chunk_num
        if ¬ d.openOk name then some (Res.err (- EIO))
        else
          match d.pread name (count - bufpos) chunk_offset with
          | PreadRes.error errno =>
            if ¬ d.closeOk name then some Res.die
            else some (Res.err (-errno))
          | PreadRes.data bs =>
            let got := bs.take (count - bufpos)
            let r2 := got.length
            if ¬ d.closeOk name then some Res.die
            else if r2 = 0 then some (Res.err (- EIO))
            else unchunkfs_read_loop d chunk_size offset count fuel (bufpos + r2) (buf ++ got)
    else some (Res.ok (bufpos, buf))

/-- `unchunkfs_read`, called with the static flag `done` of
`ensure_chunkdir_is_cwd`. Every iteration of the loop that does not return
advances `bufpos` by at least one, so `count` iterations are allowed for. -/
def unchunkfs_read (m : Mount) (d : ChunkDir) (done : Bool) (path : List Nat)
    (count offset : Nat) : Option (Res (Nat × List Nat)) :=
  if ¬ (ensure_chunkdir_is_cwd d done).1 then some (Res.err (- EIO))
  else
    match resolve_path path with
    | Res.err r => some (Res.err r)
    | Res.die => some Res.die
    | Res.ok mode =>
      if S_ISDIR mode then some (Res.err (-EISDIR))
      else if count > INT_MAX then some Res.die
      else if count > SSIZE_MAX then some Res.die
      else
        let count := (min (count : Int) (max ((m.image_size : Int) - offset) 0)).toNat
        unchunkfs_read_loop d m.chunk_size offset count count 0 []

/-- State of the discovery loop of `main`. -/
structure Probe where
  chunk_size : Nat
  last_chunk : Nat
  last_chunk_size : Nat
  deriving DecidableEq, Repr

/-- The loop `for(int x=64;x--;)` of `main`, with `n` the value of `x` before
the test: the body runs for `x = n-1` down to `0`. -/
def probe_loop (d : ChunkDir) : Nat → Probe → Res Probe
  | 0, s => Res.ok s
  | x + 1, s =>
    let new_last_chunk := s.last_chunk ||| (if x < 63 then 1 <<< x else 0)
    match d.stat (chunk_name new_last_chunk) with
    | StatRes.enoent => probe_loop d x s
    | StatRes.error _ => Res.die
    | StatRes.size st_size =>
      if st_size < 1 then Res.die
      else
        probe_loop d x
          { chunk_size := if s.chunk_size = 0 then st_size else s.chunk_size,
            last_chunk := new_last_chunk,
            last_chunk_size := st_size }

/-- Reduction of an integer to the signed 64-bit range of `off_t`. -/
def wrap_off_t (v : Int) : Int := (v + 2 ^ 63) % 2 ^ 64 - 2 ^ 63

/-- Lines 221-225 of `main`: the size of the image from the result of the
discovery loop, every `off_t` operation reduced to 64 bits. The result is the
final `chunk_size` and `image_size`. -/
def image_size_of (chunk_size last_chunk last_chunk_size : Int) : Res (Int × Int) :=
  let chunk_size := if chunk_size < 1 then 1 else chunk_size
  if last_chunk > Int.tdiv (OFF_T_MAX : Int) chunk_size then Res.die
  else
    let image_size := wrap_off_t (last_chunk * chunk_size)
    if last_chunk_size > wrap_off_t ((OFF_T_MAX : Int) - image_size) then Res.die
    else
      let image_size := wrap_off_t (image_size + last_chunk_size)
      Res.ok (chunk_size, image_size)

/-- The mount-time discovery of `main` (from `last_chunk=0` on), started with
the static `chunk_size` equal to zero. The sizes the loop works with are never
negative, so that both results are natural numbers when the mount goes on. -/
def discover (d : ChunkDir) : Res Mount :=
  match probe_loop d 64 { chunk_size := 0, last_chunk := 0, last_chunk_size := 0 } with
  | Res.err r => Res.err r
  | Res.die => Res.die
  | Res.ok s =>
    match image_size_of s.chunk_size s.last_chunk s.last_chunk_size with
    | Res.err r => Res.err r
    | Res.die => Res.die
    | Res.ok (chunk_size, image_size) =>
      Res.ok { chunk_size := chunk_size.toNat, image_size := image_size.toNat }

end UnChunkFS

/-! ## chunkfs.c -/

namespace ChunkFS


/-- The `struct chunk_stat` of `chunkfs.c`; `size` is only assigned for files. -/
structure chunk_stat where
  level : Nat
  mode : Nat
  chunk : Nat
  offset : Nat
  size : Option Int
  deriving DecidableEq, Repr

/-- The globals of `chunkfs.c` fixed at mount. -/
structure Mount where
  chunk_size : Nat
  image_size : Nat
  image_chunks : Nat
  deriving DecidableEq, Repr

/-- The computation of `image_chunks` in `main` of `chunkfs.c`. -/
def mount (chunk_size image_size : Nat) : Mount :=
  let image_chunks := image_size / chunk_size
  let image_chunks := if image_size % chunk_size ≠ 0 then image_chunks + 1 else image_chunks
  { chunk_size := chunk_size, image_size := image_size, image_chunks := image_chunks }

/-- The loop `for(int x=0;x<l;x++)` of `resolve_path` over the remaining
characters, `none` when it returns `-ENOENT`. -/
def resolve_loop : List Nat → Nat → Nat → Option Nat
  | [], _, r => some r
  | tmp :: rest, x, r =>
    if x % 3 ≠ 0 then
      if 48 ≤ tmp ∧ tmp ≤ 57 then
        resolve_loop rest (x + 1)
          (r ||| ((tmp - 48) <<< ((8 * 2 - x / 3 * 2 - x % 3) * 4)) % 2 ^ 64)
      else if 97 ≤ tmp ∧ tmp ≤ 102 then
        resolve_loop rest (x + 1)
          (r ||| ((tmp - (97 - 10)) <<< ((8 * 2 - x / 3 * 2 - x % 3) * 4)) % 2 ^ 64)
      else none
    else if tmp ≠ 47 then none
    else resolve_loop rest (x + 1) r

/-- The tail of `resolve_path` from `st->level=l/3` on. -/
def resolve_fill (m : Mount) (l r : Nat) : chunk_stat :=
  let level := l / 3
  let chunk := r
  let offset := chunk * m.chunk_size
  if level < 8 then
    { level := level, mode := S_IFDIR, chunk := chunk, offset := offset, size := none }
  else
    { level := level, mode := S_IFREG, chunk := chunk, offset := offset,
      size := some (min ((m.image_size : Int) - offset) m.chunk_size) }

/-- `resolve_path` of `chunkfs.c`. -/
def resolve_path (m : Mount) (path : List Nat) : Res chunk_stat :=
  let l := path.length
  if l < 3 ∨ l > 8 * 3 ∨ l % 3 ≠ 0 then
    if path ≠ [47] then Res.err (-ENOENT)
    else Res.ok (resolve_fill m l 0)
  else
    match resolve_loop path 0 0 with
    | none => Res.err (-ENOENT)
    | some r =>
      if r ≥ m.image_chunks then Res.err (-ENOENT)
      else Res.ok (resolve_fill m l r)

/-- `chunkfs_getattr`; `fstat` is the outcome of `fstat(image_fd,buf)`, an errno
or the attributes of the image. -/
def chunkfs_getattr (m : Mount) (fstat : Except Int stat) (path : List Nat) : Res stat :=
  match resolve_path m path with
  | Res.err r => Res.err r
  | Res.die => Res.die
  | Res.ok st =>
    match fstat with
    | Except.error errno => Res.err (-errno)
    | Except.ok buf => Res.ok (fill_stat buf st.mode (256 + 2) (st.size.getD 0))

/-- The listing loop of `chunkfs_readdir`, run for at most `n` more iterations
from `x`; `out` collects the names handed to `filler`. -/
def readdir_loop (m : Mount) (st : chunk_stat) (chunks_per_entry : Nat) :
    Nat → Nat → List (List Nat) → List (List Nat)
  | 0, _, out => out
  | n + 1, x, out =>
    if x < 256 ∧ (st.chunk + x * chunks_per_entry) % 2 ^ 64 < m.image_chunks then
      readdir_loop m st chunks_per_entry n (x + 1) (out ++ [printfHex 2 x])
    else out

/-- `chunkfs_readdir`: the names handed to `filler`, in order. The loop runs at
most 256 times because of its guard `x<256`. -/
def chunkfs_readdir (m : Mount) (path : List Nat) : Res (List (List Nat)) :=
  match resolve_path m path with
  | Res.err r => Res.err r
  | Res.die => Res.die
  | Res.ok st =>
    if ¬ S_ISDIR st.mode then Res.err (-ENOTDIR)
    else
      let chunks_per_entry := (1 <<< ((8 - 1 - st.level) * 8)) % 2 ^ 64
      Res.ok (readdir_loop m st chunks_per_entry 256 0 [[46], [46, 46]])

/-- `chunkfs_open`. -/
def chunkfs_open (m : Mount) (path : List Nat) (flags : Nat) : Res Unit :=
  match resolve_path m path with
  | Res.err r => Res.err r
  | Res.die => Res.die
  | Res.ok _ =>
    if flags &&& O_ACCMODE ≠ O_RDONLY then Res.err (-EROFS)
    else Res.ok ()

/-- The loop `for(bufpos=0;bufpos<count;)` of `chunkfs_read`. `pread n pos` is
the outcome of `pread(image_fd, _, n, pos)`; at most `n` of the bytes it
delivers are taken. The result is the return value and the bytes stored in
`buf[0, bufpos)`; `none` when `fuel` iterations were not enough. -/
def chunkfs_read_loop (pread : Nat → Nat → PreadRes) (base count : Nat) :
    Nat → Nat → List Nat → Option (Res (Nat × List Nat))
  | fuel, bufpos, buf =>
    if bufpos < count then
      match fuel with
      | 0 => none
      | fuel + 1 =>
        match pread (count - bufpos) (base + bufpos) with
        | PreadRes.error errno => some (Res.err (-errno))
        | PreadRes.data bs =>
          let got := bs.take (count - bufpos)
          let r2 := got.length
          if r2 = 0 then some (Res.err (- EIO))
          else chunkfs_read_loop pread base count fuel (bufpos + r2) (buf ++ got)
    else some (Res.ok (bufpos, buf))

/-- `chunkfs_read`: every iteration of its loop advances `bufpos` by at least
one, so `count` iterations are allowed for. -/
def chunkfs_read (m : Mount) (pread : Nat → Nat → PreadRes) (path : List Nat)
    (count offset : Nat) : Option (Res (Nat × List Nat)) :=
  match resolve_path m path with
  | Res.err r => some (Res.err r)
  | Res.die => some Res.die
  | Res.ok st =>
    if S_ISDIR st.mode then some (Res.err (-EISDIR))
    else if count > INT_MAX then some Res.die
    else if count > SSIZE_MAX then some Res.die
    else
      let count := (min (count : Int) (max (st.size.getD 0 - offset) 0)).toNat
      chunkfs_read_loop pread (st.offset + offset) count count 0 []

end ChunkFS

/-! ## Definitions that follow the specification -/

/-- Spec: the lowercase hexadecimal digit of value `d`, read off the digit
string `0123456789abcdef`. -/
def spec_digit (d : Nat) : Nat :=
  [48, 49, 50, 51, 52, 53, 54, 55, 56, 57, 97, 98, 99, 100, 101, 102].getD d 0

/-- Spec: the 16 zero-padded lowercase hexadecimal digits of `num`, most
significant first. -/
def spec_hex16 (num : Nat) : List Nat :=
  (List.range 16).map (fun k => spec_digit (num / 16 ^ (15 - k) % 16))

/-- Spec: cut a digit string into groups of two. -/
def spec_pairs : List Nat → List (List Nat)
  | a :: b :: rest => [a, b] :: spec_pairs rest
  | _ => []

/-- Spec: `encode`, the eight two-digit groups of the index joined by `/`. -/
def spec_encode (num : Nat) : List Nat :=
  List.intercalate [47] (spec_pairs (spec_hex16 num))

/-- Spec: a lowercase hexadecimal digit, `0`-`9` or `a`-`f`. -/
def is_hex (c : Nat) : Prop := (48 ≤ c ∧ c ≤ 57) ∨ (97 ≤ c ∧ c ≤ 102)

instance (c : Nat) : Decidable (is_hex c) := by unfold is_hex; infer_instance

/-- Spec: the value of a hexadecimal digit. -/
def hex_val (c : Nat) : Nat := if c ≤ 57 then c - 48 else c - 87

/-- Spec: a well-formed path has length `3 * L` for some `L` in `1..8`, a `/` at
every position divisible by 3 and a lowercase hexadecimal digit elsewhere. -/
def well_formed (p : List Nat) : Prop :=
  (∃ L, 1 ≤ L ∧ L ≤ 8 ∧ p.length = 3 * L) ∧
  ∀ i, i < p.length → if i % 3 = 0 then p.getD i 0 = 47 else is_hex (p.getD i 0)

/-- Spec: the index a path denotes from group `k` on, its groups taken as the
high-order bytes of a 64-bit number: group `k` (counted from `0`) has weight
`256 ^ (7 - k)`. -/
def spec_index_from : List Nat → Nat → Nat
  | _ :: hi :: lo :: rest, k =>
    (16 * hex_val hi + hex_val lo) * 256 ^ (7 - k) + spec_index_from rest (k + 1)
  | _, _ => 0

/-- Spec: the index a path denotes (its prefix base index). -/
def spec_index (p : List Nat) : Nat := spec_index_from p 0

/-- Group-wise form of well-formedness, without the bound on the length. -/
def wf_groups : List Nat → Bool
  | [] => true
  | s :: hi :: lo :: rest => decide (s = 47 ∧ is_hex hi ∧ is_hex lo) && wf_groups rest
  | _ => false

/-- Spec: the two-character lowercase hexadecimal name of the child `x`. -/
def spec_hex2 (x : Nat) : List Nat := [spec_digit (x / 16), spec_digit (x % 16)]

/-- Spec: the bytes `[pos, pos + n)` of a byte sequence. -/
def slice (image : List Nat) (pos n : Nat) : List Nat := (image.drop pos).take n

/-- Spec: a `pread` on a file holding `content` delivers between one byte and
the requested number of the bytes available at the requested position. -/
def pread_delivers (content : List Nat) (pread : Nat → Nat → PreadRes) : Prop :=
  ∀ n pos, 1 ≤ n → pos < content.length →
    ∃ k, 1 ≤ k ∧ k ≤ n ∧ k ≤ content.length - pos ∧
      pread n pos = PreadRes.data (slice content pos k)

/-- Spec: brute-force linear probing, the last index of the run of existing
chunk files `i, i+1, ..` that starts at `i`, looking at `fuel` indices at most;
`none` when chunk `i` itself is missing. -/
def spec_linear_probe (d : UnChunkFS.ChunkDir) : Nat → Nat → Option Nat
  | 0, _ => none
  | fuel + 1, i =>
    match d.stat (UnChunkFS.chunk_name i) with
    | StatRes.size _ =>
      match spec_linear_probe d fuel (i + 1) with
      | some last => some last
      | none => some i
    | _ => none

/-- Spec: the chunk files that exist are exactly those of indices `0..N`, chunk
`i` holding `sizes i >= 1` bytes. -/
def chunks_exist_upto (d : UnChunkFS.ChunkDir) (N : Nat) (sizes : Nat → Nat) : Prop :=
  (∀ i, i < 2 ^ 64 → d.stat (UnChunkFS.chunk_name i) =
    if i ≤ N then StatRes.size (sizes i) else StatRes.enoent) ∧
  ∀ i, i ≤ N → 1 ≤ sizes i

/-- Spec: no chunk file exists. -/
def no_chunk_exists (d : UnChunkFS.ChunkDir) : Prop :=
  ∀ i, i < 2 ^ 64 → d.stat (UnChunkFS.chunk_name i) = StatRes.enoent

/-- A `pread` that always delivers all the requested bytes that are available in
a file holding `content`. -/
def full_pread (content : List Nat) (n pos : Nat) : PreadRes :=
  PreadRes.data (slice content pos n)

/-- The chunk directory an UnChunkFS mount sees when it is pointed at a ChunkFS
mount `m` of `image`: every system call on a chunk name is answered by the
ChunkFS operation on `/` followed by that name. -/
def chunkfs_dir (m : ChunkFS.Mount) (image : List Nat) : UnChunkFS.ChunkDir where
  fchdir := true
  stat := fun name =>
    match ChunkFS.chunkfs_getattr m (Except.ok ⟨0o100444, 1, image.length, 0⟩) (47 :: name) with
    | Res.ok sb => StatRes.size sb.st_size.toNat
    | Res.err code => if code = -ENOENT then StatRes.enoent else StatRes.error (-code)
    | Res.die => StatRes.error EIO
  openOk := fun name =>
    match ChunkFS.chunkfs_open m (47 :: name) O_RDONLY with
    | Res.ok _ => true
    | _ => false
  pread := fun name n pos =>
    match ChunkFS.chunkfs_read m (full_pread image) (47 :: name) (min n INT_MAX) pos with
    | some (Res.ok (_, bs)) => PreadRes.data bs
    | some (Res.err code) => PreadRes.error (-code)
    | _ => PreadRes.error EIO
  closeOk := fun _ => true

/-- Spec: the size of chunk `i` of an image of `image_size` bytes, the length of
`[i*chunk_size, min((i+1)*chunk_size, image_size))`. -/
def spec_chunk_len (chunk_size image_size i : Nat) : Nat :=
  min ((i + 1) * chunk_size) image_size - i * chunk_size

/-- Spec: what `stat` finds for a chunk name in the tree a ChunkFS mount exposes:
the chunk exists when ChunkFS `resolve_path` accepts `/` followed by the name as
a file, and its size is the size ChunkFS reports for it. -/
def stat_of_chunkfs (m : ChunkFS.Mount) (name : List Nat) : StatRes :=
  match ChunkFS.resolve_path m (47 :: name) with
  | Res.ok st =>
    if S_ISDIR st.mode = false then StatRes.size (st.size.getD 0).toNat else StatRes.enoent
  | _ => StatRes.enoent

/-- Spec: the chunk directory `d` holds the files `files`, by chunk index:
`fchdir` into it succeeds, an existing chunk file can be examined, opened, read
and closed, and `stat` and `open` fail on a missing one. -/
def dir_holds (d : UnChunkFS.ChunkDir) (files : Nat → Option (List Nat)) : Prop :=
  d.fchdir = true ∧
  ∀ i, i < 2 ^ 64 →
    match files i with
    | some content =>
      d.stat (UnChunkFS.chunk_name i) = StatRes.size content.length ∧
      d.openOk (UnChunkFS.chunk_name i) = true ∧
      d.closeOk (UnChunkFS.chunk_name i) = true ∧
      pread_delivers content (d.pread (UnChunkFS.chunk_name i))
    | none =>
      d.stat (UnChunkFS.chunk_name i) = StatRes.enoent ∧
      d.openOk (UnChunkFS.chunk_name i) = false

/-- Spec: the chunk files of `image` for a chunk size: chunk `i < image_chunks`
holds the bytes `[i*chunk_size, min((i+1)*chunk_size, image_size))`, and there is
no other chunk file. -/
def chunks_of (image : List Nat) (chunk_size : Nat) (i : Nat) : Option (List Nat) :=
  if i < (ChunkFS.mount chunk_size image.length).image_chunks then
    some (slice image (i * chunk_size) (spec_chunk_len chunk_size image.length i))
  else none

/-- Spec: the hexadecimal digits of a path in order, the separators dropped. -/
def spec_digits_of : List Nat → List Nat
  | _ :: hi :: lo :: rest => hi :: lo :: spec_digits_of rest
  | _ => []

/-- Spec: the number in which the digit at nibble position `i` (0 = first of
16) contributes `digit * 2 ^ ((15 - i) * 4)`, for the digits from position `i`
on. -/
def spec_nibble_sum : List Nat → Nat → Nat
  | [], _ => 0
  | c :: cs, i => hex_val c * 2 ^ ((15 - i) * 4) + spec_nibble_sum cs (i + 1)

/-- Spec: `n` groups `/00`. -/
def spec_zero_groups : Nat → List Nat
  | 0 => []
  | n + 1 => 47 :: 48 :: 48 :: spec_zero_groups n

/-- Spec: the path of the child `name` of the directory `dir`. -/
def child_path (dir name : List Nat) : List Nat :=
  if dir = [47] then 47 :: name else dir ++ 47 :: name

namespace ChunkFS

/-- The loop of `chunkfs_read` together with the `pread` calls it issues on the
backing image, in order, each as (bytes requested, position). -/
def chunkfs_read_loop_calls (pread : Nat → Nat → PreadRes) (base count : Nat) :
    Nat → Nat → List Nat → List (Nat × Nat) →
      Option (Res (Nat × List Nat) × List (Nat × Nat))
  | fuel, bufpos, buf, calls =>
    if bufpos < count then
      match fuel with
      | 0 => none
      | fuel + 1 =>
        let calls := calls ++ [(count - bufpos, base + bufpos)]
        match pread (count - bufpos) (base + bufpos) with
        | PreadRes.error errno => some (Res.err (-errno), calls)
        | PreadRes.data bs =>
          let got := bs.take (count - bufpos)
          let r2 := got.length
          if r2 = 0 then some (Res.err (- EIO), calls)
          else chunkfs_read_loop_calls pread base count fuel (bufpos + r2) (buf ++ got) calls
    else some (Res.ok (bufpos, buf), calls)

/-- `chunkfs_read` together with the `pread` calls it issues on the backing
image. -/
def chunkfs_read_calls (m : Mount) (pread : Nat → Nat → PreadRes) (path : List Nat)
    (count offset : Nat) : Option (Res (Nat × List Nat) × List (Nat × Nat)) :=
  match resolve_path m path with
  | Res.err r => some (Res.err r, [])
  | Res.die => some (Res.die, [])
  | Res.ok st =>
    if S_ISDIR st.mode then some (Res.err (-EISDIR), [])
    else if count > INT_MAX then some (Res.die, [])
    else if count > SSIZE_MAX then some (Res.die, [])
    else
      let count := (min (count : Int) (max (st.size.getD 0 - offset) 0)).toNat
      chunkfs_read_loop_calls pread (st.offset + offset) count count 0 [] []

end ChunkFS

namespace UnChunkFS

/-- A system call `unchunkfs_read` makes on a chunk file. -/
inductive Call where
  | openChunk (name : List Nat)
  | preadChunk (name : List Nat) (n pos : Nat)
  deriving DecidableEq, Repr

/-- The loop of `unchunkfs_read` together with the `open` and `pread` calls it
makes on chunk files, in order. -/
def unchunkfs_read_loop_calls (d : ChunkDir) (chunk_size offset count : Nat) :
    Nat → Nat → List Nat → List Call → Option (Res (Nat × List Nat) × List Call)
  | fuel, bufpos, buf, calls =>
    if bufpos < count then
      match fuel with
      | 0 => none
      | fuel + 1 =>
        let chunk_num := (offset + bufpos) / chunk_size
        let chunk_offset := (offset + bufpos) % chunk_size
        let name := chunk_name chunk_num
        let calls := calls ++ [Call.openChunk name]
        if ¬ d.openOk name then some (Res.err (- EIO), calls)
        else
          let calls := calls ++ [Call.preadChunk name (count - bufpos) chunk_offset]
          match d.pread name (count - bufpos) chunk_offset with
          | PreadRes.error errno =>
            if ¬ d.closeOk name then some (Res.die, calls)
            else some (Res.err (-errno), calls)
          | PreadRes.data bs =>
            let got := bs.take (count - bufpos)
            let r2 := got.length
            if ¬ d.closeOk name then some (Res.die, calls)
            else if r2 = 0 then some (Res.err (- EIO), calls)
            else
              unchunkfs_read_loop_calls d chunk_size offset count fuel (bufpos + r2)
                (buf ++ got) calls
    else some (Res.ok (bufpos, buf), calls)

/-- `unchunkfs_read` together with the `open` and `pread` calls it makes on
chunk files. -/
def unchunkfs_read_calls (m : Mount) (d : ChunkDir) (done : Bool) (path : List Nat)
    (count offset : Nat) : Option (Res (Nat × List Nat) × List Call) :=
  if ¬ (ensure_chunkdir_is_cwd d done).1 then some (Res.err (- EIO), [])
  else
    match resolve_path path with
    | Res.err r => some (Res.err r, [])
    | Res.die => some (Res.die, [])
    | Res.ok mode =>
      if S_ISDIR mode then some (Res.err (-EISDIR), [])
      else if count > INT_MAX then some (Res.die, [])
      else if count > SSIZE_MAX then some (Res.die, [])
      else
        let count := (min (count : Int) (max ((m.image_size : Int) - offset) 0)).toNat
        unchunkfs_read_loop_calls d m.chunk_size offset count count 0 [] []

end UnChunkFS

/-- The chunk file among `files`, taken as the chunks `i`, `i+1`, .., that has
the name `name`. -/
def lookup_chunk (name : List Nat) : List (List Nat) → Nat → Option (List Nat)
  | [], _ => none
  | c :: cs, i =>
    if UnChunkFS.chunk_name i = name then some c else lookup_chunk name cs (i + 1)

/-- A chunk directory that holds `files` as the chunks `0`, `1`, .. and nothing
else, on which every system call on an existing file succeeds and `pread`
delivers all the requested bytes that are available. -/
def files_dir (files : List (List Nat)) : UnChunkFS.ChunkDir where
  fchdir := true
  stat := fun name =>
    match lookup_chunk name files 0 with
    | some c => StatRes.size c.length
    | none => StatRes.enoent
  openOk := fun name => (lookup_chunk name files 0).isSome
  pread := fun name n pos =>
    match lookup_chunk name files 0 with
    | some c => full_pread c n pos
    | none => PreadRes.error 9
  closeOk := fun _ => true

/-- Spec: the chunk files `0..N`, chunk `i` holding `files i`, and no other
chunk file. -/
def chunks_upto (files : Nat → List Nat) (N : Nat) (i : Nat) : Option (List Nat) :=
  if i ≤ N then some (files i) else none

/-- Spec: the concatenation of the chunk files `0..N` in index order. -/
def concat_chunks (files : Nat → List Nat) (N : Nat) : List Nat :=
  ((List.range (N + 1)).map files).flatten

/-- Spec: the names of the chunk files a sequence of calls opens, in order. -/
def opened_chunks : List UnChunkFS.Call → List (List Nat)
  | [] => []
  | UnChunkFS.Call.openChunk name :: cs => name :: opened_chunks cs
  | UnChunkFS.Call.preadChunk _ _ _ :: cs => opened_chunks cs

/-- Spec: the chunk file and the offset in it of every `pread` of a sequence of
calls, in order. -/
def pread_offsets : List UnChunkFS.Call → List (List Nat × Nat)
  | [] => []
  | UnChunkFS.Call.openChunk _ :: cs => pread_offsets cs
  | UnChunkFS.Call.preadChunk name _ pos :: cs => (name, pos) :: pread_offsets cs

/-- Spec: the calls of a read of `n` bytes at `offset` that visits the `k` chunks
from index `i` on, one `open` and one `pread` each: the chunk is read from the
position `max(offset, i*chunk_size)` of the image, for all the bytes of the read
that are left. -/
def spec_visits (chunk_size offset n : Nat) : Nat → Nat → List UnChunkFS.Call
  | _, 0 => []
  | i, k + 1 =>
    UnChunkFS.Call.openChunk (UnChunkFS.chunk_name i) ::
      UnChunkFS.Call.preadChunk (UnChunkFS.chunk_name i)
        (offset + n - max offset (i * chunk_size)) (max offset (i * chunk_size) - i * chunk_size) ::
      spec_visits chunk_size offset n (i + 1) k

/-! ## Proofs -/

/-! ### The path codec -/

theorem hexLen_le (fuel : Nat) : ∀ (w n : Nat), 0 < w → n < 16 ^ w → hexLen fuel n ≤ w := by
  induction fuel with
  | zero => intro w n hw _; simp [hexLen]; omega
  | succ f ih =>
    intro w n hw hn
    unfold hexLen
    split
    · omega
    · rename_i h
      obtain ⟨w, rfl⟩ : ∃ v, w = v + 1 := ⟨w - 1, by omega⟩
      have hw0 : 0 < w := by
        rcases Nat.eq_zero_or_pos w with h0 | h0
        · subst h0; simp at hn; omega
        · exact h0
      have : n / 16 < 16 ^ w := by
        rw [Nat.div_lt_iff_lt_mul (by norm_num)]
        rw [pow_succ] at hn; exact hn
      have := ih w (n / 16) hw0 this
      omega

theorem printfHex_16 (n : Nat) (h : n < 2 ^ 64) : printfHex 16 n = hexFixed 16 n := by
  unfold printfHex
  have := hexLen_le n 16 n (by norm_num) (by norm_num at h ⊢; exact h)
  rw [max_eq_left this]



theorem gen_chunk_name_shuffle
    (b0 b1 b2 b3 b4 b5 b6 b7 b8 b9 b10 b11 b12 b13 b14 b15 b16 b17 b18 b19 b20 b21 b22 b23 : Nat)
    (d0 d1 d2 d3 d4 d5 d6 d7 d8 d9 d10 d11 d12 d13 d14 d15 : Nat) :
    UnChunkFS.gen_chunk_name_loop 7 0
      (UnChunkFS.writeAt [b0, b1, b2, b3, b4, b5, b6, b7, b8, b9, b10, b11, b12, b13, b14, b15,
        b16, b17, b18, b19, b20, b21, b22, b23] 7
        ([d0, d1, d2, d3, d4, d5, d6, d7, d8, d9, d10, d11, d12, d13, d14, d15] ++ [0]))
    = [d0, d1, 47, d2, d3, 47, d4, d5, 47, d6, d7, 47, d8, d9, 47, d10, d11, 47, d12, d13, 47,
        d14, d15, 0] := by
  simp only [UnChunkFS.writeAt, List.cons_append, List.nil_append, List.set_cons_succ, List.set_cons_zero]
  simp only [UnChunkFS.gen_chunk_name_loop, UnChunkFS.memmove2]
  simp

theorem or_nibble (a v s : Nat) (hv : v < 16) (hs : s + 4 ≤ 64) :
    (a * 2 ^ (s + 4)) ||| ((v <<< s) % 2 ^ 64) = a * 2 ^ (s + 4) + v * 2 ^ s := by
  have h1 : v * 2 ^ s < 2 ^ (s + 4) := by
    rw [pow_add]; 
    have : 0 < 2 ^ s := Nat.two_pow_pos s
    nlinarith
  have h2 : 2 ^ (s + 4) ≤ 2 ^ 64 := Nat.pow_le_pow_right (by norm_num) hs
  rw [Nat.shiftLeft_eq, Nat.mod_eq_of_lt (lt_of_lt_of_le h1 h2), Nat.mul_comm a,
    ← Nat.mul_add_lt_is_or h1]

theorem hex_val_lt (c : Nat) (h : is_hex c) : hex_val c < 16 := by
  unfold is_hex at h; unfold hex_val; split <;> omega

theorem resolve_loop_digit (c : Nat) (rest : List Nat) (x r : Nat) (hx : x % 3 ≠ 0) :
    ChunkFS.resolve_loop (c :: rest) x r =
      if is_hex c then
        ChunkFS.resolve_loop rest (x + 1)
          (r ||| ((hex_val c) <<< ((8 * 2 - x / 3 * 2 - x % 3) * 4)) % 2 ^ 64)
      else none := by
  rw [ChunkFS.resolve_loop, if_pos hx]
  unfold is_hex hex_val
  by_cases h1 : 48 ≤ c ∧ c ≤ 57
  · simp [h1]
  · by_cases h2 : 97 ≤ c ∧ c ≤ 102
    · have : ¬ c ≤ 57 := by omega
      simp [h1, h2, this]
    · simp [h1, h2]

theorem resolve_loop_sep (c : Nat) (rest : List Nat) (x r : Nat) (hx : x % 3 = 0) :
    ChunkFS.resolve_loop (c :: rest) x r =
      if c = 47 then ChunkFS.resolve_loop rest (x + 1) r else none := by
  rw [ChunkFS.resolve_loop]
  by_cases h : c = 47 <;> simp [hx, h]

theorem resolve_loop_group (k : Nat) (hk : k < 8) (s hi lo : Nat) (rest : List Nat) (q : Nat) :
    ChunkFS.resolve_loop (s :: hi :: lo :: rest) (3 * k) (q * 256 ^ (8 - k)) =
      if s = 47 ∧ is_hex hi ∧ is_hex lo then
        ChunkFS.resolve_loop rest (3 * (k + 1))
          ((256 * q + (16 * hex_val hi + hex_val lo)) * 256 ^ (7 - k))
      else none := by
  rw [resolve_loop_sep _ _ _ _ (by omega)]
  by_cases hs : s = 47
  swap
  · simp [hs]
  rw [resolve_loop_digit _ _ _ _ (by omega)]
  by_cases hhi : is_hex hi
  swap
  · simp [hs, hhi]
  rw [resolve_loop_digit _ _ _ _ (by omega)]
  by_cases hlo : is_hex lo
  swap
  · simp [hs, hhi, hlo]
  simp only [hs, hhi, hlo, and_self, if_true]
  have e1 : (8 * 2 - (3 * k + 1) / 3 * 2 - (3 * k + 1) % 3) * 4 = (60 - 8 * k) := by omega
  have e2 : (8 * 2 - (3 * k + 1 + 1) / 3 * 2 - (3 * k + 1 + 1) % 3) * 4 = (56 - 8 * k) := by omega
  rw [e1, e2]
  have hh := hex_val_lt hi hhi
  have hl := hex_val_lt lo hlo
  congr 1
  obtain ⟨j, hj⟩ : ∃ j, j = 7 - k := ⟨_, rfl⟩
  have e3 : 8 - k = j + 1 := by omega
  have e4 : 60 - 8 * k = 8 * j + 4 := by omega
  have e5 : 56 - 8 * k = 8 * j := by omega
  rw [e3, e4, e5, ← hj]
  have p1 : 256 ^ (j + 1) = 2 ^ (8 * j + 4 + 4) := by
    rw [show (256 : Nat) = 2 ^ 8 by norm_num, ← pow_mul]; ring_nf
  have p2 : 256 ^ j = 2 ^ (8 * j) := by
    rw [show (256 : Nat) = 2 ^ 8 by norm_num, ← pow_mul]
  rw [p1, p2, or_nibble q _ (8 * j + 4) hh (by omega)]
  have p3 : q * 2 ^ (8 * j + 4 + 4) + hex_val hi * 2 ^ (8 * j + 4)
      = (16 * q + hex_val hi) * 2 ^ (8 * j + 4) := by ring
  rw [p3, or_nibble (16 * q + hex_val hi) _ (8 * j) hl (by omega)]
  ring

theorem resolve_loop_groups (p : List Nat) : ∀ (n k q : Nat), p.length = 3 * n → k + n ≤ 8 →
    ChunkFS.resolve_loop p (3 * k) (q * 256 ^ (8 - k)) =
      if wf_groups p then some (q * 256 ^ (8 - k) + spec_index_from p k) else none := by
  intro n
  induction n generalizing p with
  | zero =>
    intro k q hp _
    have : p = [] := List.length_eq_zero.mp (by simpa using hp)
    subst this
    simp [ChunkFS.resolve_loop, wf_groups, spec_index_from]
  | succ n ih =>
    intro k q hp hk
    rcases p with _ | ⟨s, _ | ⟨hi, _ | ⟨lo, rest⟩⟩⟩
    · simp at hp
    · simp at hp; omega
    · simp at hp; omega
    have hrest : rest.length = 3 * n := by simp at hp; omega
    rw [resolve_loop_group k (by omega)]
    by_cases hc : s = 47 ∧ is_hex hi ∧ is_hex lo
    · rw [if_pos hc]
      have e : 7 - k = 8 - (k + 1) := by omega
      rw [e, ih rest (k + 1) _ hrest (by omega)]
      simp only [wf_groups, hc, spec_index_from, decide_True, Bool.true_and, and_self]
      have e2 : 8 - k = (8 - (k + 1)) + 1 := by omega
      rw [e]
      by_cases hw : wf_groups rest = true
      · simp only [hw, if_true]
        congr 1
        rw [e2, pow_succ]
        ring
      · simp [hw]
    · rw [if_neg hc]
      simp [wf_groups, hc]


theorem hexChar_eq_spec_digit (d : Nat) (h : d < 16) : hexChar d = spec_digit d := by
  interval_cases d <;> rfl

theorem spec_digit_is_hex (d : Nat) (h : d < 16) : is_hex (spec_digit d) := by
  interval_cases d <;> decide

theorem hex_val_spec_digit (d : Nat) (h : d < 16) : hex_val (spec_digit d) = d := by
  interval_cases d <;> rfl

theorem spec_digit_ne_zero (d : Nat) (h : d < 16) : spec_digit d ≠ 0 := by
  interval_cases d <;> decide

theorem hexFixed_16 (n : Nat) : hexFixed 16 n =
    [spec_digit (n / 16 ^ 15 % 16), spec_digit (n / 16 ^ 14 % 16), spec_digit (n / 16 ^ 13 % 16),
     spec_digit (n / 16 ^ 12 % 16), spec_digit (n / 16 ^ 11 % 16), spec_digit (n / 16 ^ 10 % 16),
     spec_digit (n / 16 ^ 9 % 16), spec_digit (n / 16 ^ 8 % 16), spec_digit (n / 16 ^ 7 % 16),
     spec_digit (n / 16 ^ 6 % 16), spec_digit (n / 16 ^ 5 % 16), spec_digit (n / 16 ^ 4 % 16),
     spec_digit (n / 16 ^ 3 % 16), spec_digit (n / 16 ^ 2 % 16), spec_digit (n / 16 ^ 1 % 16),
     spec_digit (n / 16 ^ 0 % 16)] := by
  simp only [hexFixed, List.nil_append, List.cons_append, Nat.div_div_eq_div_mul]
  simp only [← hexChar_eq_spec_digit _ (Nat.mod_lt _ (by norm_num : 0 < 16))]
  norm_num

theorem spec_encode_eq (n : Nat) : spec_encode n =
    [spec_digit (n / 16 ^ 15 % 16), spec_digit (n / 16 ^ 14 % 16), 47, spec_digit (n / 16 ^ 13 % 16),
     spec_digit (n / 16 ^ 12 % 16), 47, spec_digit (n / 16 ^ 11 % 16), spec_digit (n / 16 ^ 10 % 16), 47,
     spec_digit (n / 16 ^ 9 % 16), spec_digit (n / 16 ^ 8 % 16), 47, spec_digit (n / 16 ^ 7 % 16),
     spec_digit (n / 16 ^ 6 % 16), 47, spec_digit (n / 16 ^ 5 % 16), spec_digit (n / 16 ^ 4 % 16), 47,
     spec_digit (n / 16 ^ 3 % 16), spec_digit (n / 16 ^ 2 % 16), 47, spec_digit (n / 16 ^ 1 % 16),
     spec_digit (n / 16 ^ 0 % 16)] := rfl

theorem gen_chunk_name_eq (buf : List Nat) (h : buf.length = 24) (num : Nat)
    (hnum : num < 2 ^ 64) :
    UnChunkFS.gen_chunk_name buf num = spec_encode num ++ [0] := by
  iterate 24
    rcases buf with _ | ⟨_, buf⟩
    · simp at h
  rcases buf with _ | ⟨_, buf⟩
  swap
  · simp at h
  unfold UnChunkFS.gen_chunk_name
  rw [Nat.mod_eq_of_lt hnum, printfHex_16 num hnum, hexFixed_16, spec_encode_eq]
  exact gen_chunk_name_shuffle _ _ _ _ _ _ _ _ _ _ _ _ _ _ _ _ _ _ _ _ _ _ _ _ _ _ _ _ _ _ _ _
    _ _ _ _ _ _ _ _

theorem spec_encode_length (n : Nat) : (spec_encode n).length = 23 := by
  rw [spec_encode_eq]; rfl

theorem chunk_name_eq (num : Nat) (hnum : num < 2 ^ 64) :
    UnChunkFS.chunk_name num = spec_encode num := by
  unfold UnChunkFS.chunk_name
  rw [gen_chunk_name_eq _ (by simp) num hnum, spec_encode_eq]
  have hd : ∀ x, spec_digit (x % 16) ≠ 0 := fun x =>
    spec_digit_ne_zero _ (Nat.mod_lt _ (by norm_num))
  simp [UnChunkFS.cstr, List.takeWhile, hd]

theorem wf_groups_encode (n : Nat) : wf_groups (47 :: spec_encode n) = true := by
  rw [spec_encode_eq]
  have hd : ∀ x, is_hex (spec_digit (x % 16)) := fun x =>
    spec_digit_is_hex _ (Nat.mod_lt _ (by norm_num))
  simp [wf_groups, hd]

theorem hex_digits_sum (n : Nat) (h : n < 2 ^ 64) :
    (16 * (n / 16 ^ 15 % 16) + n / 16 ^ 14 % 16) * 256 ^ 7 +
    ((16 * (n / 16 ^ 13 % 16) + n / 16 ^ 12 % 16) * 256 ^ 6 +
    ((16 * (n / 16 ^ 11 % 16) + n / 16 ^ 10 % 16) * 256 ^ 5 +
    ((16 * (n / 16 ^ 9 % 16) + n / 16 ^ 8 % 16) * 256 ^ 4 +
    ((16 * (n / 16 ^ 7 % 16) + n / 16 ^ 6 % 16) * 256 ^ 3 +
    ((16 * (n / 16 ^ 5 % 16) + n / 16 ^ 4 % 16) * 256 ^ 2 +
    ((16 * (n / 16 ^ 3 % 16) + n / 16 ^ 2 % 16) * 256 ^ 1 +
    ((16 * (n / 16 ^ 1 % 16) + n / 16 ^ 0 % 16) * 256 ^ 0 + 0))))))) = n := by
  have e : ∀ k, n / 16 ^ k = 16 * (n / 16 ^ (k + 1)) + n / 16 ^ k % 16 := by
    intro k; rw [pow_succ, ← Nat.div_div_eq_div_mul]; omega
  have e0 := e 0; have e1 := e 1; have e2 := e 2; have e3 := e 3
  have e4 := e 4; have e5 := e 5; have e6 := e 6; have e7 := e 7
  have e8 := e 8; have e9 := e 9; have e10 := e 10; have e11 := e 11
  have e12 := e 12; have e13 := e 13; have e14 := e 14; have e15 := e 15
  have e16 : n / 16 ^ 16 = 0 := Nat.div_eq_of_lt (by norm_num at h ⊢; exact h)
  have z : n / 16 ^ 0 = n := by simp
  simp only [Nat.reduceAdd] at e0 e1 e2 e3 e4 e5 e6 e7 e8 e9 e10 e11 e12 e13 e14 e15
  generalize n / 16 ^ 16 = q16 at *
  generalize n / 16 ^ 15 = q15 at *
  generalize n / 16 ^ 14 = q14 at *
  generalize n / 16 ^ 13 = q13 at *
  generalize n / 16 ^ 12 = q12 at *
  generalize n / 16 ^ 11 = q11 at *
  generalize n / 16 ^ 10 = q10 at *
  generalize n / 16 ^ 9 = q9 at *
  generalize n / 16 ^ 8 = q8 at *
  generalize n / 16 ^ 7 = q7 at *
  generalize n / 16 ^ 6 = q6 at *
  generalize n / 16 ^ 5 = q5 at *
  generalize n / 16 ^ 4 = q4 at *
  generalize n / 16 ^ 3 = q3 at *
  generalize n / 16 ^ 2 = q2 at *
  generalize n / 16 ^ 1 = q1 at *
  generalize n / 16 ^ 0 = q0 at *
  generalize q15 % 16 = r15 at *
  generalize q14 % 16 = r14 at *
  generalize q13 % 16 = r13 at *
  generalize q12 % 16 = r12 at *
  generalize q11 % 16 = r11 at *
  generalize q10 % 16 = r10 at *
  generalize q9 % 16 = r9 at *
  generalize q8 % 16 = r8 at *
  generalize q7 % 16 = r7 at *
  generalize q6 % 16 = r6 at *
  generalize q5 % 16 = r5 at *
  generalize q4 % 16 = r4 at *
  generalize q3 % 16 = r3 at *
  generalize q2 % 16 = r2 at *
  generalize q1 % 16 = r1 at *
  generalize q0 % 16 = r0 at *
  subst e16 z e0
  omega

theorem spec_index_encode (n : Nat) (h : n < 2 ^ 64) : spec_index (47 :: spec_encode n) = n := by
  rw [spec_encode_eq]
  have hd : ∀ x, hex_val (spec_digit (x % 16)) = x % 16 := fun x =>
    hex_val_spec_digit _ (Nat.mod_lt _ (by norm_num))
  simp only [spec_index, spec_index_from, hd]
  exact hex_digits_sum n h

theorem wf_groups_iff (n : Nat) : ∀ p : List Nat, p.length = 3 * n →
    (wf_groups p = true ↔
      ∀ i, i < p.length → if i % 3 = 0 then p.getD i 0 = 47 else is_hex (p.getD i 0)) := by
  induction n with
  | zero =>
    intro p hp
    have : p = [] := List.length_eq_zero.mp (by simpa using hp)
    subst this
    simp [wf_groups]
  | succ n ih =>
    intro p hp
    rcases p with _ | ⟨s, _ | ⟨hi, _ | ⟨lo, rest⟩⟩⟩
    · simp at hp
    · simp at hp; omega
    · simp at hp; omega
    have hrest : rest.length = 3 * n := by simp at hp; omega
    simp only [wf_groups, Bool.and_eq_true, decide_eq_true_eq, ih rest hrest]
    constructor
    · rintro ⟨⟨h1, h2, h3⟩, h4⟩ i hi
      rcases i with _ | _ | _ | j
      · simpa using h1
      · simpa using h2
      · simpa using h3
      · have := h4 j (by simp at hi; omega)
        have e : (j + 1 + 1 + 1) % 3 = j % 3 := by omega
        simpa [e] using this
    · intro h
      refine ⟨⟨?_, ?_, ?_⟩, ?_⟩
      · simpa using h 0 (by simp)
      · simpa using h 1 (by simp)
      · simpa using h 2 (by simp)
      · intro j hj
        have := h (j + 3) (by simp; omega)
        have e : (j + 3) % 3 = j % 3 := by omega
        simpa [e] using this

theorem well_formed_iff (p : List Nat) :
    well_formed p ↔ (∃ L, 1 ≤ L ∧ L ≤ 8 ∧ p.length = 3 * L) ∧ wf_groups p = true := by
  unfold well_formed
  constructor
  · rintro ⟨⟨L, h1, h2, h3⟩, h⟩
    exact ⟨⟨L, h1, h2, h3⟩, (wf_groups_iff L p h3).mpr h⟩
  · rintro ⟨⟨L, h1, h2, h3⟩, h⟩
    exact ⟨⟨L, h1, h2, h3⟩, (wf_groups_iff L p h3).mp h⟩

/-- `resolve_path` on a path of `L` groups, `1 ≤ L ≤ 8`. -/
theorem resolve_path_groups (m : ChunkFS.Mount) (p : List Nat) (L : Nat) (h1 : 1 ≤ L)
    (h8 : L ≤ 8) (hp : p.length = 3 * L) :
    ChunkFS.resolve_path m p =
      if wf_groups p = true ∧ spec_index p < m.image_chunks then
        Res.ok (ChunkFS.resolve_fill m p.length (spec_index p))
      else Res.err (-ENOENT) := by
  unfold ChunkFS.resolve_path
  have hl : ¬ (p.length < 3 ∨ p.length > 8 * 3 ∨ p.length % 3 ≠ 0) := by omega
  simp only [hl, if_false]
  have := resolve_loop_groups p L 0 0 hp (by omega)
  simp only [Nat.mul_zero, Nat.zero_mul, Nat.zero_add] at this
  rw [this]
  by_cases hw : wf_groups p = true
  · simp only [hw, if_true, true_and, spec_index]
    by_cases hr : spec_index_from p 0 < m.image_chunks
    · simp [hr]
    · simp [hr]
  · simp [hw]

/-- `resolve_path` on a path whose length is not `3 * L` with `1 ≤ L ≤ 8`. -/
theorem resolve_path_other (m : ChunkFS.Mount) (p : List Nat)
    (hp : ¬ ∃ L, 1 ≤ L ∧ L ≤ 8 ∧ p.length = 3 * L) :
    ChunkFS.resolve_path m p =
      if p = [47] then Res.ok (ChunkFS.resolve_fill m 1 0) else Res.err (-ENOENT) := by
  unfold ChunkFS.resolve_path
  have hl : p.length < 3 ∨ p.length > 8 * 3 ∨ p.length % 3 ≠ 0 := by
    by_contra hc
    exact hp ⟨p.length / 3, by omega, by omega, by omega⟩
  simp only [hl, if_true]
  by_cases h : p = [47]
  · subst h; simp
  · simp [h]

/-! ### The chunk count -/

theorem mount_fields (cs is : Nat) :
    (ChunkFS.mount cs is).chunk_size = cs ∧ (ChunkFS.mount cs is).image_size = is := ⟨rfl, rfl⟩

/-- Every chunk index below `image_chunks` starts inside the image, and
`image_chunks` chunks cover it. -/
theorem mount_chunks_bounds (cs is : Nat) (hcs : 1 ≤ cs) :
    is ≤ (ChunkFS.mount cs is).image_chunks * cs ∧
    ∀ i, i < (ChunkFS.mount cs is).image_chunks → i * cs < is := by
  have hdm := Nat.div_add_mod is cs
  have hlt := Nat.mod_lt is (show 0 < cs by omega)
  simp only [ChunkFS.mount]
  by_cases hr : is % cs = 0
  · simp only [hr, ne_eq, not_true_eq_false, if_false]
    constructor
    · rw [Nat.mul_comm]; omega
    · intro i hi
      have := Nat.mul_le_mul_right cs (show i + 1 ≤ is / cs by omega)
      rw [Nat.mul_comm (is / cs)] at this
      rw [Nat.add_mul] at this
      omega
  · simp only [hr, ne_eq, not_false_eq_true, if_true]
    constructor
    · rw [Nat.add_mul, Nat.mul_comm]; omega
    · intro i hi
      have := Nat.mul_le_mul_right cs (show i ≤ is / cs by omega)
      rw [Nat.mul_comm (is / cs)] at this
      omega

theorem mount_chunks_le (cs is : Nat) (hcs : 1 ≤ cs) :
    (ChunkFS.mount cs is).image_chunks ≤ is := by
  have h := (mount_chunks_bounds cs is hcs).2
  by_contra hc
  have h1 := h is (by omega)
  have : is * 1 ≤ is * cs := Nat.mul_le_mul_left is hcs
  omega

/-- C1: for `chunk_size >= 1`, an `off_t` image size and `i < image_chunks`,
the name `gen_chunk_name` writes for `i` has 23 characters and `resolve_path`
of ChunkFS accepts `/` followed by it with level 8, chunk `i` and the mode of a
regular file. -/
theorem C1_decode_encode (chunk_size image_size i : Nat) (hcs : 1 ≤ chunk_size)
    (his : image_size ≤ OFF_T_MAX)
    (hi : i < (ChunkFS.mount chunk_size image_size).image_chunks) :
    (UnChunkFS.chunk_name i).length = 23 ∧
    ∃ st, ChunkFS.resolve_path (ChunkFS.mount chunk_size image_size)
        (47 :: UnChunkFS.chunk_name i) = Res.ok st ∧
      st.level = 8 ∧ st.chunk = i ∧ st.mode = S_IFREG := by
  have hle := mount_chunks_le chunk_size image_size hcs
  have hi64 : i < 2 ^ 64 := by unfold OFF_T_MAX at his; omega
  rw [chunk_name_eq i hi64]
  refine ⟨spec_encode_length i, ?_⟩
  have hlen : (47 :: spec_encode i).length = 3 * 8 := by simp [spec_encode_length]
  rw [resolve_path_groups _ _ 8 (by norm_num) (by norm_num) hlen, wf_groups_encode,
    spec_index_encode i hi64, if_pos ⟨rfl, hi⟩]
  refine ⟨_, rfl, ?_, ?_, ?_⟩ <;> simp [ChunkFS.resolve_fill, hlen]

theorem C1_decode_encode_witness :
    (UnChunkFS.chunk_name 2).length = 23 ∧
    ∃ st, ChunkFS.resolve_path (ChunkFS.mount 4 10) (47 :: UnChunkFS.chunk_name 2) = Res.ok st ∧
      st.level = 8 ∧ st.chunk = 2 ∧ st.mode = S_IFREG :=
  C1_decode_encode 4 10 2 (by decide) (by decide) (by decide)

/-- C6: for a path other than the root, `resolve_path` returns `-ENOENT`
exactly when the path is not well formed or the index it denotes is not below
`image_chunks`, and a well-formed path in range is accepted. -/
theorem C6_enoent_iff (m : ChunkFS.Mount) (p : List Nat) (hroot : p ≠ [47]) :
    (ChunkFS.resolve_path m p = Res.err (-ENOENT) ↔
      (¬ well_formed p ∨ ¬ spec_index p < m.image_chunks)) ∧
    (well_formed p → spec_index p < m.image_chunks →
      ∃ st, ChunkFS.resolve_path m p = Res.ok st) := by
  by_cases hL : ∃ L, 1 ≤ L ∧ L ≤ 8 ∧ p.length = 3 * L
  · obtain ⟨L, h1, h8, hp⟩ := hL
    rw [resolve_path_groups m p L h1 h8 hp, well_formed_iff]
    by_cases hc : wf_groups p = true ∧ spec_index p < m.image_chunks
    · rw [if_pos hc]
      refine ⟨?_, fun _ _ => ⟨_, rfl⟩⟩
      constructor
      · intro h; cases h
      · rintro (h | h)
        · exact absurd ⟨⟨L, h1, h8, hp⟩, hc.1⟩ h
        · exact absurd hc.2 h
    · rw [if_neg hc]
      refine ⟨?_, ?_⟩
      · constructor
        · intro _
          by_cases hw : wf_groups p = true
          · right; exact fun h => hc ⟨hw, h⟩
          · left; exact fun h => hw h.2
        · intro _; rfl
      · intro hw hr
        exact absurd ⟨hw.2, hr⟩ hc
  · rw [resolve_path_other m p hL, if_neg hroot]
    refine ⟨?_, ?_⟩
    · constructor
      · intro _; left; exact fun h => hL h.1
      · intro _; rfl
    · intro hw; exact absurd hw.1 hL

theorem C6_enoent_iff_witness :
    bytes "/00/0g" ≠ [47] ∧
    ((ChunkFS.resolve_path (ChunkFS.mount 4 10) (bytes "/00/0g") = Res.err (-ENOENT) ↔
      (¬ well_formed (bytes "/00/0g") ∨
        ¬ spec_index (bytes "/00/0g") < (ChunkFS.mount 4 10).image_chunks)) ∧
    (well_formed (bytes "/00/0g") →
      spec_index (bytes "/00/0g") < (ChunkFS.mount 4 10).image_chunks →
      ∃ st, ChunkFS.resolve_path (ChunkFS.mount 4 10) (bytes "/00/0g") = Res.ok st)) :=
  ⟨by decide, C6_enoent_iff (ChunkFS.mount 4 10) (bytes "/00/0g") (by decide)⟩

/-- C7: for `num < 2^63` and any 24-byte buffer, `gen_chunk_name` leaves the
16 zero-padded lowercase hexadecimal digits of `num` in 8 groups of two joined
by 7 separators (23 characters) followed by NUL at index 23; every byte an
iteration of the loop writes lies before the bytes later iterations still
have to copy. -/
theorem C7_gen_chunk_name_layout (buf : List Nat) (hbuf : buf.length = 24) (num : Nat)
    (hnum : num < 2 ^ 63) :
    UnChunkFS.gen_chunk_name buf num = spec_encode num ++ [0] ∧
    (spec_encode num).length = 23 ∧
    (UnChunkFS.gen_chunk_name buf num).getD 23 1 = 0 ∧
    (UnChunkFS.gen_chunk_name buf num).length = 24 ∧
    ∀ x y, x < 7 → x < y → x * 3 + 2 < 7 + y * 2 := by
  have h := gen_chunk_name_eq buf hbuf num (by omega)
  have hl := spec_encode_length num
  refine ⟨h, hl, ?_, ?_, ?_⟩
  · rw [h, List.getD_eq_getElem?_getD, List.getElem?_append_right (by omega)]
    simp [hl]
  · rw [h]; simp [hl]
  · intro x y hx hxy; omega

theorem C7_gen_chunk_name_layout_witness :
    UnChunkFS.gen_chunk_name (List.replicate 24 255) 0x123456789abcdef0 =
      spec_encode 0x123456789abcdef0 ++ [0] ∧
    (spec_encode 0x123456789abcdef0).length = 23 ∧
    (UnChunkFS.gen_chunk_name (List.replicate 24 255) 0x123456789abcdef0).getD 23 1 = 0 ∧
    (UnChunkFS.gen_chunk_name (List.replicate 24 255) 0x123456789abcdef0).length = 24 ∧
    ∀ x y, x < 7 → x < y → x * 3 + 2 < 7 + y * 2 :=
  C7_gen_chunk_name_layout (List.replicate 24 255) (by decide) 0x123456789abcdef0 (by decide)

/-! ### File sizes and directory listings of ChunkFS -/

theorem resolve_path_chunk_name (m : ChunkFS.Mount) (i : Nat) (hi : i < m.image_chunks)
    (hi64 : i < 2 ^ 64) :
    ChunkFS.resolve_path m (47 :: UnChunkFS.chunk_name i) =
      Res.ok (ChunkFS.resolve_fill m 24 i) := by
  rw [chunk_name_eq i hi64]
  have hlen : (47 :: spec_encode i).length = 3 * 8 := by simp [spec_encode_length]
  rw [resolve_path_groups _ _ 8 (by norm_num) (by norm_num) hlen, wf_groups_encode,
    spec_index_encode i hi64, if_pos ⟨rfl, hi⟩, hlen]

theorem resolve_path_chunk_name_none (m : ChunkFS.Mount) (i : Nat) (hi : ¬ i < m.image_chunks)
    (hi64 : i < 2 ^ 64) :
    ChunkFS.resolve_path m (47 :: UnChunkFS.chunk_name i) = Res.err (-ENOENT) := by
  rw [chunk_name_eq i hi64]
  have hlen : (47 :: spec_encode i).length = 3 * 8 := by simp [spec_encode_length]
  rw [resolve_path_groups _ _ 8 (by norm_num) (by norm_num) hlen, wf_groups_encode,
    spec_index_encode i hi64, if_neg (fun h => hi h.2)]

/-- The size `resolve_path` computes for chunk `i` of a mounted image. -/
theorem chunk_size_value (cs is i : Nat) (hcs : 1 ≤ cs)
    (hi : i < (ChunkFS.mount cs is).image_chunks) :
    min ((is : Int) - ((i * cs : Nat) : Int)) (cs : Int) =
      ((if i + 1 = (ChunkFS.mount cs is).image_chunks then is - i * cs else cs : Nat) : Int) ∧
    0 < is - i * cs ∧
    (i + 1 = (ChunkFS.mount cs is).image_chunks → is - i * cs ≤ cs) := by
  obtain ⟨hcov, hstart⟩ := mount_chunks_bounds cs is hcs
  have h0 := hstart i hi
  generalize (ChunkFS.mount cs is).image_chunks = ic at *
  have hmul : (i + 1) * cs = i * cs + cs := by ring
  refine ⟨?_, by omega, ?_⟩
  · split
    · rename_i hlast
      rw [← hlast, hmul] at hcov
      generalize i * cs = b at *
      omega
    · rename_i hlast
      have := hstart (i + 1) (by omega)
      rw [hmul] at this
      generalize i * cs = b at *
      omega
  · intro hlast
    rw [← hlast, hmul] at hcov
    omega

theorem S_ISDIR_reg : S_ISDIR S_IFREG = false := by decide

theorem S_ISDIR_dir : S_ISDIR S_IFDIR = true := by decide

theorem fill_stat_reg_size (buf : stat) (nlink : Nat) (size : Int) :
    (fill_stat buf S_IFREG nlink size).st_size = size := by
  simp [fill_stat, S_ISDIR_reg]

theorem resolve_fill_leaf (m : ChunkFS.Mount) (r : Nat) :
    ChunkFS.resolve_fill m 24 r =
      { level := 8, mode := S_IFREG, chunk := r, offset := r * m.chunk_size,
        size := some (min ((m.image_size : Int) - ((r * m.chunk_size : Nat) : Int))
          (m.chunk_size : Int)) } := rfl

/-- C4: for `chunk_size >= 1` and `i < image_chunks`, the size `resolve_path`
computes and `chunkfs_getattr` reports for the leaf path of `i` is `chunk_size`
when `i` is not the last chunk and `image_size - i*chunk_size` when it is, a
value in `(0, chunk_size]`. -/
theorem C4_chunk_file_size (chunk_size image_size i : Nat) (hcs : 1 ≤ chunk_size)
    (his : image_size ≤ OFF_T_MAX)
    (hi : i < (ChunkFS.mount chunk_size image_size).image_chunks) (buf : stat) :
    ∃ st sb,
      ChunkFS.resolve_path (ChunkFS.mount chunk_size image_size)
        (47 :: UnChunkFS.chunk_name i) = Res.ok st ∧
      ChunkFS.chunkfs_getattr (ChunkFS.mount chunk_size image_size) (Except.ok buf)
        (47 :: UnChunkFS.chunk_name i) = Res.ok sb ∧
      st.size = some sb.st_size ∧
      (i ≠ (ChunkFS.mount chunk_size image_size).image_chunks - 1 →
        sb.st_size = (chunk_size : Int)) ∧
      (i = (ChunkFS.mount chunk_size image_size).image_chunks - 1 →
        sb.st_size = (image_size : Int) - (i : Int) * (chunk_size : Int) ∧
        0 < sb.st_size ∧ sb.st_size ≤ (chunk_size : Int)) := by
  have hle := mount_chunks_le chunk_size image_size hcs
  have hi64 : i < 2 ^ 64 := by unfold OFF_T_MAX at his; omega
  have hres := resolve_path_chunk_name _ i hi hi64
  obtain ⟨hv, hpos, hlast⟩ := chunk_size_value chunk_size image_size i hcs hi
  rw [resolve_fill_leaf] at hres
  refine ⟨_, fill_stat buf S_IFREG (256 + 2)
    (min ((image_size : Int) - ((i * chunk_size : Nat) : Int)) (chunk_size : Int)),
    hres, ?_, ?_, ?_, ?_⟩
  · simp only [ChunkFS.chunkfs_getattr, hres, Option.getD_some]; rfl
  · rw [fill_stat_reg_size]; rfl
  · intro hne
    have : ¬ i + 1 = (ChunkFS.mount chunk_size image_size).image_chunks := by omega
    rw [if_neg this] at hv
    rw [fill_stat_reg_size]; exact hv
  · intro he
    have : i + 1 = (ChunkFS.mount chunk_size image_size).image_chunks := by omega
    rw [if_pos this] at hv
    have hl := hlast this
    rw [fill_stat_reg_size, hv]
    have hc : ((i * chunk_size : Nat) : Int) = (i : Int) * (chunk_size : Int) := by
      push_cast; rfl
    rw [← hc]
    generalize i * chunk_size = b at *
    omega

theorem C4_chunk_file_size_witness :
    ∃ st sb,
      ChunkFS.resolve_path (ChunkFS.mount 4 10) (47 :: UnChunkFS.chunk_name 2) = Res.ok st ∧
      ChunkFS.chunkfs_getattr (ChunkFS.mount 4 10) (Except.ok ⟨0o100644, 1, 10, 8⟩)
        (47 :: UnChunkFS.chunk_name 2) = Res.ok sb ∧
      st.size = some sb.st_size ∧
      (2 ≠ (ChunkFS.mount 4 10).image_chunks - 1 → sb.st_size = ((4 : Nat) : Int)) ∧
      (2 = (ChunkFS.mount 4 10).image_chunks - 1 →
        sb.st_size = ((10 : Nat) : Int) - ((2 : Nat) : Int) * ((4 : Nat) : Int) ∧
        0 < sb.st_size ∧ sb.st_size ≤ ((4 : Nat) : Int)) :=
  C4_chunk_file_size 4 10 2 (by decide) (by decide) (by decide) ⟨0o100644, 1, 10, 8⟩

theorem printfHex_2 (x : Nat) (h : x < 256) : printfHex 2 x = spec_hex2 x := by
  unfold printfHex
  have := hexLen_le x 2 x (by norm_num) (by norm_num; exact h)
  rw [max_eq_left this]
  simp only [hexFixed, List.nil_append, List.cons_append, spec_hex2]
  rw [hexChar_eq_spec_digit _ (Nat.mod_lt _ (by norm_num)),
    hexChar_eq_spec_digit _ (Nat.mod_lt _ (by norm_num)), Nat.mod_eq_of_lt (by omega : x / 16 < 16)]

/-- The index of a well-formed group sequence is a multiple of the weight of
its last group and fits the bytes it fills. -/
theorem spec_index_from_bound (n : Nat) : ∀ (p : List Nat) (k : Nat), p.length = 3 * n →
    k + n ≤ 8 → wf_groups p = true →
    ∃ q, q < 256 ^ n ∧ spec_index_from p k = q * 256 ^ (8 - k - n) := by
  induction n with
  | zero =>
    intro p k hp _ _
    have : p = [] := List.length_eq_zero.mp (by simpa using hp)
    subst this
    exact ⟨0, by simp, by simp [spec_index_from]⟩
  | succ n ih =>
    intro p k hp hk hw
    rcases p with _ | ⟨s, _ | ⟨hi, _ | ⟨lo, rest⟩⟩⟩
    · simp at hp
    · simp at hp; omega
    · simp at hp; omega
    have hrest : rest.length = 3 * n := by simp at hp; omega
    simp only [wf_groups, Bool.and_eq_true, decide_eq_true_eq] at hw
    obtain ⟨⟨_, hhi, hlo⟩, hwr⟩ := hw
    obtain ⟨q, hq, he⟩ := ih rest (k + 1) hrest (by omega) hwr
    have h1 := hex_val_lt hi hhi
    have h2 := hex_val_lt lo hlo
    refine ⟨(16 * hex_val hi + hex_val lo) * 256 ^ n + q, ?_, ?_⟩
    · rw [pow_succ]
      have : (16 * hex_val hi + hex_val lo) * 256 ^ n ≤ 255 * 256 ^ n :=
        Nat.mul_le_mul_right _ (by omega)
      omega
    · simp only [spec_index_from, he]
      have e1 : 7 - k = (8 - k - (n + 1)) + n := by omega
      have e2 : 8 - (k + 1) - n = 8 - k - (n + 1) := by omega
      rw [e1, e2, pow_add]
      ring

theorem readdir_loop_eq (m : ChunkFS.Mount) (st : ChunkFS.chunk_stat) (cpe : Nat)
    (hno : ∀ x, x < 256 → st.chunk + x * cpe < 2 ^ 64) :
    ∀ (n x : Nat) (out : List (List Nat)), x + n = 256 →
      ChunkFS.readdir_loop m st cpe n x out =
        out ++ ((List.range' x n).filter
          (fun y => decide (st.chunk + y * cpe < m.image_chunks))).map spec_hex2 := by
  intro n
  induction n with
  | zero => intro x out _; simp [ChunkFS.readdir_loop]
  | succ n ih =>
    intro x out hx
    rw [ChunkFS.readdir_loop, Nat.mod_eq_of_lt (hno x (by omega))]
    by_cases hc : st.chunk + x * cpe < m.image_chunks
    · rw [if_pos ⟨by omega, hc⟩, ih (x + 1) _ (by omega), printfHex_2 x (by omega)]
      simp [List.range'_succ, hc]
    · rw [if_neg (fun h => hc h.2)]
      have : (List.range' x (n + 1)).filter
          (fun y => decide (st.chunk + y * cpe < m.image_chunks)) = [] := by
        rw [List.filter_eq_nil_iff]
        intro y hy
        simp only [List.mem_range'_1] at hy
        have := Nat.mul_le_mul_right cpe hy.1
        simp only [decide_eq_true_eq]
        omega
      rw [this]; simp

theorem resolve_path_ok_cases (m : ChunkFS.Mount) (p : List Nat) (st : ChunkFS.chunk_stat)
    (h : ChunkFS.resolve_path m p = Res.ok st) :
    (p = [47] ∧ st = ChunkFS.resolve_fill m 1 0) ∨
    (∃ L, 1 ≤ L ∧ L ≤ 8 ∧ p.length = 3 * L ∧ wf_groups p = true ∧
      spec_index p < m.image_chunks ∧ st = ChunkFS.resolve_fill m p.length (spec_index p)) := by
  by_cases hL : ∃ L, 1 ≤ L ∧ L ≤ 8 ∧ p.length = 3 * L
  · obtain ⟨L, h1, h8, hp⟩ := hL
    rw [resolve_path_groups m p L h1 h8 hp] at h
    by_cases hc : wf_groups p = true ∧ spec_index p < m.image_chunks
    · rw [if_pos hc] at h
      right
      exact ⟨L, h1, h8, hp, hc.1, hc.2, (Res.ok.inj h).symm⟩
    · rw [if_neg hc] at h; cases h
  · rw [resolve_path_other m p hL] at h
    by_cases hr : p = [47]
    · rw [if_pos hr] at h
      left
      exact ⟨hr, (Res.ok.inj h).symm⟩
    · rw [if_neg hr] at h; cases h

theorem resolve_fill_level (m : ChunkFS.Mount) (l r : Nat) :
    (ChunkFS.resolve_fill m l r).level = l / 3 ∧ (ChunkFS.resolve_fill m l r).chunk = r ∧
    (S_ISDIR (ChunkFS.resolve_fill m l r).mode = true ↔ l / 3 < 8) := by
  unfold ChunkFS.resolve_fill
  by_cases h : l / 3 < 8
  · simp [h, S_ISDIR_dir]
  · simp [h, S_ISDIR_reg]

theorem chunks_per_entry_eq (L : Nat) (hL : L ≤ 7) :
    (1 <<< ((8 - 1 - L) * 8)) % 2 ^ 64 = 256 ^ (7 - L) := by
  have e : (8 - 1 - L) * 8 = 8 * (7 - L) := by omega
  rw [Nat.shiftLeft_eq, Nat.one_mul, e, pow_mul, show (2 : Nat) ^ 8 = 256 by norm_num]
  apply Nat.mod_eq_of_lt
  calc 256 ^ (7 - L) ≤ 256 ^ 7 := Nat.pow_le_pow_right (by norm_num) (by omega)
    _ < 2 ^ 64 := by norm_num

/-- A child slot of an accepted directory never leaves the 64-bit index range. -/
theorem child_index_lt (m : ChunkFS.Mount) (p : List Nat) (st : ChunkFS.chunk_stat)
    (h : ChunkFS.resolve_path m p = Res.ok st) (hdir : S_ISDIR st.mode = true) :
    st.level = p.length / 3 ∧ st.level ≤ 7 ∧ st.chunk = spec_index p ∧
    ∀ x, x < 256 → st.chunk + x * 256 ^ (7 - st.level) < 2 ^ 64 := by
  rcases resolve_path_ok_cases m p st h with ⟨hp, hst⟩ | ⟨L, h1, h8, hp, hw, hr, hst⟩
  · subst hp hst
    refine ⟨rfl, Nat.zero_le _, rfl, ?_⟩
    intro x hx
    show 0 + x * 256 ^ (7 - 0) < 2 ^ 64
    norm_num
    omega
  · obtain ⟨hl, hc, hd⟩ := resolve_fill_level m p.length (spec_index p)
    rw [← hst] at hl hc hd
    have hL7 : p.length / 3 < 8 := hd.mp hdir
    have hpl : p.length / 3 = L := by omega
    refine ⟨hl, by omega, hc, ?_⟩
    intro x hx
    obtain ⟨q, hq, he⟩ := spec_index_from_bound L p 0 hp (by omega) hw
    rw [hc, hl, hpl]
    unfold spec_index
    rw [he]
    have e1 : 8 - 0 - L = (7 - L) + 1 := by omega
    rw [e1, pow_succ]
    have e2 : q * (256 ^ (7 - L) * 256) + x * 256 ^ (7 - L) = (q * 256 + x) * 256 ^ (7 - L) := by
      ring
    rw [e2]
    have e3 : (2 : Nat) ^ 64 = 256 ^ (L + 1) * 256 ^ (7 - L) := by
      rw [← pow_add, show L + 1 + (7 - L) = 8 by omega]; norm_num
    rw [e3]
    apply Nat.mul_lt_mul_of_lt_of_le
    · rw [pow_succ]; omega
    · exact le_refl _
    · exact pow_pos (by norm_num) _

/-- C5: for an accepted directory path at level `L` with prefix base index `b`,
`chunkfs_readdir` emits `.` and `..` and then, in ascending order of `x`, the
two-digit names of exactly the children `x` in `0..255` with
`b + x*256^(7-L) < image_chunks`, so at most 256 of them. -/
theorem C5_readdir_lists_children (m : ChunkFS.Mount) (p : List Nat) (st : ChunkFS.chunk_stat)
    (h : ChunkFS.resolve_path m p = Res.ok st) (hdir : S_ISDIR st.mode = true) :
    st.level = p.length / 3 ∧ st.level ≤ 7 ∧ st.chunk = spec_index p ∧
    ChunkFS.chunkfs_readdir m p =
      Res.ok ([[46], [46, 46]] ++
        ((List.range 256).filter
          (fun x => decide (spec_index p + x * 256 ^ (7 - p.length / 3) < m.image_chunks))).map
          spec_hex2) ∧
    ((List.range 256).filter
      (fun x => decide (spec_index p + x * 256 ^ (7 - p.length / 3) < m.image_chunks))).length
      ≤ 256 := by
  obtain ⟨hl, h7, hc, hno⟩ := child_index_lt m p st h hdir
  refine ⟨hl, h7, hc, ?_, ?_⟩
  · unfold ChunkFS.chunkfs_readdir
    simp only [h, hdir, not_true_eq_false, if_false]
    rw [chunks_per_entry_eq st.level h7, readdir_loop_eq m st _ hno 256 0 _ (by norm_num),
      List.range_eq_range', hc, hl]
  · calc _ ≤ (List.range 256).length := List.length_filter_le _ _
      _ = 256 := List.length_range 256

theorem C5_readdir_lists_children_witness :
    ChunkFS.chunkfs_readdir (ChunkFS.mount 4 10) (bytes "/00/00/00/00/00/00/00") =
      Res.ok [bytes ".", bytes "..", bytes "00", bytes "01", bytes "02"] := by
  have h := (C5_readdir_lists_children (ChunkFS.mount 4 10) (bytes "/00/00/00/00/00/00/00")
    ⟨7, S_IFDIR, 0, 0, none⟩ (by decide) (by decide)).2.2.2.1
  rw [h]
  decide

/-! ### The size computation of the UnChunkFS mount -/

theorem wrap_off_t_id (v : Int) (h0 : -(2 ^ 63) ≤ v) (h1 : v < 2 ^ 63) :
    UnChunkFS.wrap_off_t v = v := by
  unfold UnChunkFS.wrap_off_t
  omega

theorem off_t_max_cast : ((OFF_T_MAX : Nat) : Int) = 2 ^ 63 - 1 := by
  unfold OFF_T_MAX; norm_num

/-- The first overflow test of `main` compares the exact product with the
largest `off_t`. -/
theorem first_check_iff (cs lc : Int) (hcs : 1 ≤ cs) :
    lc > Int.tdiv (OFF_T_MAX : Int) cs ↔ lc * cs > (OFF_T_MAX : Int) := by
  rw [Int.tdiv_eq_ediv (by rw [off_t_max_cast]; norm_num) (by omega)]
  have := @Int.le_ediv_iff_mul_le lc (OFF_T_MAX : Int) cs (by omega)
  constructor
  · intro h
    by_contra hc
    exact absurd (this.mpr (by omega)) (by omega)
  · intro h
    by_contra hc
    exact absurd (this.mp (by omega)) (by omega)

/-- C9: with `chunk_size >= 1`, `last_chunk >= 0` and `last_chunk_size >= 0`
(all `off_t`), the mount aborts exactly when the exact integer
`last_chunk*chunk_size + last_chunk_size` exceeds `2^63-1`; otherwise
`image_size` is that integer, and every `off_t` operation that is executed
stays inside the signed 64-bit range. -/
theorem C9_image_size_overflow_check (chunk_size last_chunk last_chunk_size : Int)
    (hcs : 1 ≤ chunk_size) (hlc : 0 ≤ last_chunk) (hlcs : 0 ≤ last_chunk_size) :
    (UnChunkFS.image_size_of chunk_size last_chunk last_chunk_size = Res.die ↔
      last_chunk * chunk_size + last_chunk_size > 2 ^ 63 - 1) ∧
    (¬ last_chunk * chunk_size + last_chunk_size > 2 ^ 63 - 1 →
      UnChunkFS.image_size_of chunk_size last_chunk last_chunk_size =
        Res.ok (chunk_size, last_chunk * chunk_size + last_chunk_size)) ∧
    (¬ last_chunk > Int.tdiv (OFF_T_MAX : Int) chunk_size →
      UnChunkFS.wrap_off_t (last_chunk * chunk_size) = last_chunk * chunk_size ∧
      UnChunkFS.wrap_off_t ((OFF_T_MAX : Int) - last_chunk * chunk_size) =
        (OFF_T_MAX : Int) - last_chunk * chunk_size) ∧
    (¬ last_chunk * chunk_size + last_chunk_size > 2 ^ 63 - 1 →
      UnChunkFS.wrap_off_t (last_chunk * chunk_size + last_chunk_size) =
        last_chunk * chunk_size + last_chunk_size) := by
  have hM := off_t_max_cast
  have hprod : 0 ≤ last_chunk * chunk_size := Int.mul_nonneg hlc (by omega)
  have hfirst := first_check_iff chunk_size last_chunk hcs
  have hw1 : ¬ last_chunk > Int.tdiv (OFF_T_MAX : Int) chunk_size →
      UnChunkFS.wrap_off_t (last_chunk * chunk_size) = last_chunk * chunk_size ∧
      UnChunkFS.wrap_off_t ((OFF_T_MAX : Int) - last_chunk * chunk_size) =
        (OFF_T_MAX : Int) - last_chunk * chunk_size := by
    intro h
    rw [hfirst] at h
    exact ⟨wrap_off_t_id _ (by omega) (by omega), wrap_off_t_id _ (by omega) (by omega)⟩
  have hw2 : ¬ last_chunk * chunk_size + last_chunk_size > 2 ^ 63 - 1 →
      UnChunkFS.wrap_off_t (last_chunk * chunk_size + last_chunk_size) =
        last_chunk * chunk_size + last_chunk_size := fun h =>
    wrap_off_t_id _ (by omega) (by omega)
  have hcs1 : ¬ chunk_size < 1 := by omega
  refine ⟨?_, ?_, hw1, hw2⟩
  · unfold UnChunkFS.image_size_of
    simp only [hcs1, if_false]
    by_cases h1 : last_chunk > Int.tdiv (OFF_T_MAX : Int) chunk_size
    · simp only [h1, if_true, true_iff]
      rw [hfirst] at h1; omega
    · obtain ⟨e1, e2⟩ := hw1 h1
      simp only [h1, if_false, e1, e2]
      by_cases h2 : last_chunk_size > (OFF_T_MAX : Int) - last_chunk * chunk_size
      · simp only [h2, if_true, true_iff]; omega
      · simp only [h2, if_false, false_iff]
        constructor
        · intro h; cases h
        · omega
  · intro h
    have h1 : ¬ last_chunk > Int.tdiv (OFF_T_MAX : Int) chunk_size := by
      rw [hfirst]; omega
    obtain ⟨e1, e2⟩ := hw1 h1
    have h2 : ¬ last_chunk_size > (OFF_T_MAX : Int) - last_chunk * chunk_size := by omega
    unfold UnChunkFS.image_size_of
    simp only [hcs1, if_false, h1, e1, e2, h2, hw2 h]

theorem C9_image_size_overflow_check_witness :
    UnChunkFS.image_size_of (2 ^ 32) (2 ^ 31) 1 = Res.die ∧
    UnChunkFS.image_size_of (2 ^ 32) (2 ^ 31 - 1) (2 ^ 32) = Res.die ∧
    UnChunkFS.image_size_of (2 ^ 32) (2 ^ 31 - 1) (2 ^ 32 - 1) =
      Res.ok (2 ^ 32, 2 ^ 63 - 1) :=
  ⟨(C9_image_size_overflow_check (2 ^ 32) (2 ^ 31) 1 (by decide) (by decide)
      (by decide)).1.mpr (by decide),
   (C9_image_size_overflow_check (2 ^ 32) (2 ^ 31 - 1) (2 ^ 32) (by decide) (by decide)
      (by decide)).1.mpr (by decide),
   (C9_image_size_overflow_check (2 ^ 32) (2 ^ 31 - 1) (2 ^ 32 - 1) (by decide) (by decide)
      (by decide)).2.1 (by decide)⟩

/-! ### Reading a chunk file of ChunkFS -/

theorem slice_length (image : List Nat) (pos n : Nat) (h : 0 < n → pos + n ≤ image.length) :
    (slice image pos n).length = n := by
  unfold slice
  rw [List.length_take, List.length_drop]
  omega

theorem slice_append (image : List Nat) (pos a b : Nat) :
    slice image pos a ++ slice image (pos + a) b = slice image pos (a + b) := by
  unfold slice
  rw [List.take_add, List.drop_drop]

theorem chunkfs_read_loop_ok (image : List Nat) (pread : Nat → Nat → PreadRes)
    (hpread : pread_delivers image pread) (base count : Nat)
    (hb : 0 < count → base + count ≤ image.length) :
    ∀ (fuel bufpos : Nat), bufpos ≤ count → count - bufpos ≤ fuel →
      ChunkFS.chunkfs_read_loop pread base count fuel bufpos (slice image base bufpos) =
        some (Res.ok (count, slice image base count)) := by
  intro fuel
  induction fuel with
  | zero =>
    intro bufpos h1 h2
    have : bufpos = count := by omega
    subst this
    rw [ChunkFS.chunkfs_read_loop]
    simp
  | succ fuel ih =>
    intro bufpos h1 h2
    rw [ChunkFS.chunkfs_read_loop]
    by_cases hlt : bufpos < count
    · obtain ⟨k, hk1, hk2, hk3, hk⟩ := hpread (count - bufpos) (base + bufpos) (by omega) (by omega)
      have hlen : (slice image (base + bufpos) k).length = k := slice_length _ _ _ (by omega)
      have htake : (slice image (base + bufpos) k).take (count - bufpos) =
          slice image (base + bufpos) k := List.take_of_length_le (by omega)
      simp only [hlt, if_true, hk, htake, hlen]
      rw [if_neg (by omega), slice_append]
      exact ih (bufpos + k) (by omega) (by omega)
    · have : bufpos = count := by omega
      subst this
      simp

/-- What `chunkfs_read` returns on an accepted leaf path. -/
theorem chunkfs_read_accepted (chunk_size image_size : Nat) (hcs : 1 ≤ chunk_size)
    (image : List Nat) (himg : image.length = image_size)
    (pread : Nat → Nat → PreadRes) (hpread : pread_delivers image pread)
    (p : List Nat) (st : ChunkFS.chunk_stat) (s : Int)
    (hres : ChunkFS.resolve_path (ChunkFS.mount chunk_size image_size) p = Res.ok st)
    (hfile : S_ISDIR st.mode = false) (hs : st.size = some s)
    (count offset : Nat) (hcount : count ≤ INT_MAX) :
    ∃ n : Nat, (n : Int) = min (count : Int) (max (s - (offset : Int)) 0) ∧
      ChunkFS.chunkfs_read (ChunkFS.mount chunk_size image_size) pread p count offset =
        some (Res.ok (n, slice image (st.chunk * chunk_size + offset) n)) ∧
      (slice image (st.chunk * chunk_size + offset) n).length = n := by
  rcases resolve_path_ok_cases _ p st hres with ⟨_, hst⟩ | ⟨L, h1, h8, hp, hw, hr, hst⟩
  · subst hst; simp [ChunkFS.resolve_fill, S_ISDIR_dir] at hfile
  obtain ⟨hl, hc, hd⟩ := resolve_fill_level (ChunkFS.mount chunk_size image_size) p.length
    (spec_index p)
  rw [← hst] at hl hc hd
  have hL : p.length = 24 := by
    have : ¬ p.length / 3 < 8 := fun h => by rw [hd.mpr h] at hfile; cases hfile
    omega
  rw [hL, resolve_fill_leaf] at hst
  have hi : st.chunk < (ChunkFS.mount chunk_size image_size).image_chunks := by rw [hc]; exact hr
  obtain ⟨hv, hpos, -⟩ := chunk_size_value chunk_size image_size st.chunk hcs hi
  have hsz : s = min ((image_size : Int) - ((st.chunk * chunk_size : Nat) : Int))
      (chunk_size : Int) := by
    have : st.size = some (min ((image_size : Int) - ((st.chunk * chunk_size : Nat) : Int))
      (chunk_size : Int)) := by rw [hst]; rfl
    rw [hs] at this
    exact Option.some.inj this
  have hoff : st.offset = st.chunk * chunk_size := by rw [hst]; rfl
  obtain ⟨sn, hsn, hsle⟩ : ∃ sn : Nat, s = (sn : Int) ∧
      st.chunk * chunk_size + sn ≤ image.length := by
    rw [himg, hsz]
    generalize st.chunk * chunk_size = b at hpos
    refine ⟨(min ((image_size : Int) - (b : Int)) (chunk_size : Int)).toNat, ?_, ?_⟩ <;> omega
  clear hsz hv
  subst hsn
  have hn : ((min count (sn - offset) : Nat) : Int) =
      min (count : Int) (max ((sn : Int) - (offset : Int)) 0) := by
    rcases Nat.le_total count (sn - offset) with h | h
    · rw [Nat.min_eq_left h]; omega
    · rw [Nat.min_eq_right h]; omega
  have hle : min count (sn - offset) ≤ sn - offset := Nat.min_le_right _ _
  clear hpos
  generalize st.chunk * chunk_size = b at *
  generalize min count (sn - offset) = n at *
  refine ⟨n, hn, ?_, slice_length _ _ _ (by omega)⟩
  unfold ChunkFS.chunkfs_read
  have hc1 : ¬ count > INT_MAX := by omega
  have hc2 : ¬ count > SSIZE_MAX := by
    unfold INT_MAX at hcount; unfold SSIZE_MAX; omega
  simp only [hres, hfile, hc1, hc2, if_false, hs, Option.getD_some, hoff, Bool.false_eq_true]
  rw [← hn, Int.toNat_ofNat]
  have := chunkfs_read_loop_ok image pread hpread (b + offset) n (by omega) n 0 (by omega)
    (by omega)
  simpa [slice] using this

/-- C8: on an accepted leaf path with chunk index `i` and size `s`, with
`count <= INT_MAX`, an image of `image_size` bytes and a `pread` that delivers
between one byte and the requested number of the bytes available,
`chunkfs_read` returns `n = min(count, max(s - offset, 0))` and the buffer
holds the image bytes `[i*chunk_size + offset, i*chunk_size + offset + n)`. -/
theorem C8_chunkfs_read_bytes (chunk_size image_size : Nat) (hcs : 1 ≤ chunk_size)
    (image : List Nat) (himg : image.length = image_size)
    (pread : Nat → Nat → PreadRes) (hpread : pread_delivers image pread)
    (p : List Nat) (st : ChunkFS.chunk_stat) (s : Int)
    (hres : ChunkFS.resolve_path (ChunkFS.mount chunk_size image_size) p = Res.ok st)
    (hfile : S_ISDIR st.mode = false) (hs : st.size = some s)
    (count offset : Nat) (hcount : count ≤ INT_MAX) :
    ∃ n : Nat, (n : Int) = min (count : Int) (max (s - (offset : Int)) 0) ∧
      ChunkFS.chunkfs_read (ChunkFS.mount chunk_size image_size) pread p count offset =
        some (Res.ok (n, slice image (st.chunk * chunk_size + offset) n)) ∧
      (slice image (st.chunk * chunk_size + offset) n).length = n :=
  chunkfs_read_accepted chunk_size image_size hcs image himg pread hpread p st s hres hfile hs
    count offset hcount

theorem C8_chunkfs_read_bytes_witness :
    ChunkFS.chunkfs_read (ChunkFS.mount 4 10)
      (fun _ pos => PreadRes.data (slice [10, 11, 12, 13, 14, 15, 16, 17, 18, 19] pos 1))
      (bytes "/00/00/00/00/00/00/00/02") 4096 0 = some (Res.ok (2, [18, 19])) := by
  obtain ⟨n, hn, h, -⟩ := C8_chunkfs_read_bytes 4 10 (by decide)
    [10, 11, 12, 13, 14, 15, 16, 17, 18, 19] rfl
    (fun _ pos => PreadRes.data (slice [10, 11, 12, 13, 14, 15, 16, 17, 18, 19] pos 1))
    (fun n pos hn hpos => ⟨1, le_refl 1, hn, by simp at hpos ⊢; omega, rfl⟩)
    (bytes "/00/00/00/00/00/00/00/02") ⟨8, S_IFREG, 2, 8, some 2⟩ 2 (by decide) (by decide) rfl
    4096 0 (by decide)
  have h2 : n = 2 := by
    have : min (((4096 : Nat) : Int)) (max ((2 : Int) - ((0 : Nat) : Int)) 0)
        = ((2 : Nat) : Int) := by decide
    exact Int.ofNat.inj (hn.trans this)
  subst h2
  rw [h]
  decide

/-! ### Discovery of the chunk layout -/

theorem or_bit (lc x : Nat) (h : 2 ^ (x + 1) ∣ lc) : lc ||| (1 <<< x) = lc + 2 ^ x := by
  obtain ⟨k, rfl⟩ := h
  rw [Nat.shiftLeft_eq, Nat.one_mul]
  exact (Nat.mul_add_lt_is_or (Nat.pow_lt_pow_right (by norm_num) (Nat.lt_succ_self x)) k).symm

theorem probe_loop_inv (d : UnChunkFS.ChunkDir) (N : Nat) (sizes : Nat → Nat)
    (hd : chunks_exist_upto d N sizes) :
    ∀ (x : Nat) (s : UnChunkFS.Probe), x ≤ 63 → s.last_chunk ≤ N → N < s.last_chunk + 2 ^ x →
      2 ^ x ∣ s.last_chunk → s.last_chunk + 2 ^ x ≤ 2 ^ 63 → s.chunk_size = sizes 0 →
      s.last_chunk_size = sizes s.last_chunk →
      UnChunkFS.probe_loop d x s =
        Res.ok { chunk_size := sizes 0, last_chunk := N, last_chunk_size := sizes N } := by
  intro x
  induction x with
  | zero =>
    intro s _ h1 h2 _ _ h5 h6
    have : s.last_chunk = N := by simp at h2; omega
    rw [this] at h6
    rw [UnChunkFS.probe_loop]
    rcases s with ⟨a, b, c⟩
    simp only at this h5 h6
    rw [this, h5, h6]
  | succ x ih =>
    intro s hx h1 h2 h3 h4 h5 h6
    have hpow : 2 ^ (x + 1) = 2 ^ x + 2 ^ x := by rw [pow_succ]; omega
    have hpos : 0 < 2 ^ x := Nat.two_pow_pos x
    rw [UnChunkFS.probe_loop]
    have hx63 : x < 63 := by omega
    simp only [hx63, if_true]
    rw [or_bit _ _ h3, hd.1 _ (by norm_num at h4 ⊢; omega)]
    have hdvd : 2 ^ x ∣ s.last_chunk := Dvd.dvd.trans ⟨2, by rw [pow_succ]⟩ h3
    by_cases hle : s.last_chunk + 2 ^ x ≤ N
    · have hsz := hd.2 _ hle
      have h0 := hd.2 0 (Nat.zero_le _)
      simp only [hle, if_true]
      rw [if_neg (by omega)]
      apply ih _ (by omega)
      · exact hle
      · show N < s.last_chunk + 2 ^ x + 2 ^ x
        omega
      · exact (Nat.dvd_add_right hdvd).mpr (dvd_refl _)
      · show s.last_chunk + 2 ^ x + 2 ^ x ≤ 2 ^ 63
        omega
      · show (if s.chunk_size = 0 then _ else _) = _
        rw [if_neg (by omega), h5]
      · rfl
    · simp only [hle, if_false]
      exact ih s (by omega) h1 (by omega) hdvd (by omega) h5 h6

theorem probe_loop_exists (d : UnChunkFS.ChunkDir) (N : Nat) (hN : N < 2 ^ 63)
    (sizes : Nat → Nat) (hd : chunks_exist_upto d N sizes) :
    UnChunkFS.probe_loop d 64 { chunk_size := 0, last_chunk := 0, last_chunk_size := 0 } =
      Res.ok { chunk_size := sizes 0, last_chunk := N, last_chunk_size := sizes N } := by
  rw [UnChunkFS.probe_loop]
  have h0 := hd.2 0 (Nat.zero_le _)
  simp only [lt_irrefl, if_false, Nat.or_zero]
  rw [hd.1 0 (by norm_num), if_pos (Nat.zero_le _)]
  simp only []
  rw [if_neg (by omega)]
  exact probe_loop_inv d N sizes hd 63 _ (le_refl _) (Nat.zero_le _) (by simpa using hN)
    (dvd_zero _) (by simp) (by simp) rfl

theorem probe_loop_none (d : UnChunkFS.ChunkDir) (hd : no_chunk_exists d) :
    ∀ x, x ≤ 64 →
      UnChunkFS.probe_loop d x { chunk_size := 0, last_chunk := 0, last_chunk_size := 0 } =
        Res.ok { chunk_size := 0, last_chunk := 0, last_chunk_size := 0 } := by
  intro x
  induction x with
  | zero => intro _; rfl
  | succ x ih =>
    intro hx
    rw [UnChunkFS.probe_loop]
    have hlt : (0 ||| if x < 63 then 1 <<< x else 0) < 2 ^ 64 := by
      by_cases h : x < 63
      · simp only [h, if_true, Nat.zero_or, Nat.shiftLeft_eq, Nat.one_mul]
        exact Nat.pow_lt_pow_right (by norm_num) (by omega)
      · simp [h]
    simp only [hd _ hlt]
    exact ih (by omega)

theorem spec_linear_probe_exists (d : UnChunkFS.ChunkDir) (N : Nat) (hN : N < 2 ^ 63)
    (sizes : Nat → Nat) (hd : chunks_exist_upto d N sizes) :
    ∀ (fuel i : Nat), i ≤ N → i + fuel = N + 2 → spec_linear_probe d fuel i = some N := by
  intro fuel
  induction fuel with
  | zero => intro i h1 h2; omega
  | succ fuel ih =>
    intro i h1 h2
    rw [spec_linear_probe, hd.1 i (by omega), if_pos h1]
    simp only []
    by_cases hi : i = N
    · subst hi
      have hf : fuel = 1 := by omega
      subst hf
      simp [spec_linear_probe, hd.1 (i + 1) (by omega)]
    · rw [ih (i + 1) (by omega) (by omega)]

theorem image_size_of_ok (cs lc lcs : Nat) (hcs : 1 ≤ cs) (h : lc * cs + lcs ≤ OFF_T_MAX) :
    UnChunkFS.image_size_of (cs : Int) (lc : Int) (lcs : Int) =
      Res.ok ((cs : Int), ((lc * cs + lcs : Nat) : Int)) := by
  have hM := off_t_max_cast
  have hfirst := first_check_iff (cs : Int) (lc : Int) (by omega)
  have hprod : ((lc * cs : Nat) : Int) = (lc : Int) * (cs : Int) := by push_cast; rfl
  have h1 : ¬ (lc : Int) > Int.tdiv (OFF_T_MAX : Int) (cs : Int) := by
    rw [hfirst, ← hprod]; omega
  have e1 : UnChunkFS.wrap_off_t ((lc : Int) * (cs : Int)) = (lc : Int) * (cs : Int) := by
    rw [← hprod]; exact wrap_off_t_id _ (by omega) (by omega)
  have e2 : UnChunkFS.wrap_off_t ((OFF_T_MAX : Int) - (lc : Int) * (cs : Int)) =
      (OFF_T_MAX : Int) - (lc : Int) * (cs : Int) := by
    rw [← hprod]; exact wrap_off_t_id _ (by omega) (by omega)
  have h2 : ¬ (lcs : Int) > (OFF_T_MAX : Int) - (lc : Int) * (cs : Int) := by
    rw [← hprod]; omega
  have e3 : UnChunkFS.wrap_off_t ((lc : Int) * (cs : Int) + (lcs : Int)) =
      ((lc * cs + lcs : Nat) : Int) := by
    rw [← hprod]
    rw [wrap_off_t_id _ (by omega) (by omega)]
    push_cast; rfl
  unfold UnChunkFS.image_size_of
  have hcs1 : ¬ (cs : Int) < 1 := by omega
  simp only [hcs1, if_false, h1, e1, e2, h2, e3]

theorem discover_none (d : UnChunkFS.ChunkDir) (hd : no_chunk_exists d) :
    UnChunkFS.discover d = Res.ok { chunk_size := 1, image_size := 0 } := by
  unfold UnChunkFS.discover
  rw [probe_loop_none d hd 64 (le_refl _)]
  rfl

theorem discover_exists (d : UnChunkFS.ChunkDir) (N : Nat) (hN : N < 2 ^ 63)
    (sizes : Nat → Nat) (hd : chunks_exist_upto d N sizes)
    (h : N * sizes 0 + sizes N ≤ OFF_T_MAX) :
    UnChunkFS.discover d =
      Res.ok { chunk_size := sizes 0, image_size := N * sizes 0 + sizes N } := by
  unfold UnChunkFS.discover
  rw [probe_loop_exists d N hN sizes hd]
  simp only []
  rw [image_size_of_ok (sizes 0) N (sizes N) (hd.2 0 (Nat.zero_le _)) h]
  simp only [Int.toNat_ofNat]

/-- C3: when the chunk files that exist are exactly those of indices `0..N`
(`N < 2^63`, every size at least 1), the 64 iterations of the discovery loop end
with `last_chunk = N`, `last_chunk_size` the size of chunk `N` and `chunk_size`
the size of chunk `0`, where linear probing from index 0 stops as well; when no
chunk file exists they end with `last_chunk = 0` and `last_chunk_size = 0`, and
the mount has `chunk_size = 1` and `image_size = 0`. -/
theorem C3_bit_probing_matches_linear (d : UnChunkFS.ChunkDir) :
    (∀ (N : Nat) (sizes : Nat → Nat), N < 2 ^ 63 → chunks_exist_upto d N sizes →
      UnChunkFS.probe_loop d 64 { chunk_size := 0, last_chunk := 0, last_chunk_size := 0 } =
        Res.ok { chunk_size := sizes 0, last_chunk := N, last_chunk_size := sizes N } ∧
      spec_linear_probe d (N + 2) 0 = some N) ∧
    (no_chunk_exists d →
      UnChunkFS.probe_loop d 64 { chunk_size := 0, last_chunk := 0, last_chunk_size := 0 } =
        Res.ok { chunk_size := 0, last_chunk := 0, last_chunk_size := 0 } ∧
      (∀ fuel, spec_linear_probe d fuel 0 = none) ∧
      UnChunkFS.discover d = Res.ok { chunk_size := 1, image_size := 0 }) := by
  constructor
  · intro N sizes hN hd
    exact ⟨probe_loop_exists d N hN sizes hd,
      spec_linear_probe_exists d N hN sizes hd (N + 2) 0 (Nat.zero_le _) (by omega)⟩
  · intro hd
    refine ⟨probe_loop_none d hd 64 (le_refl _), ?_, discover_none d hd⟩
    intro fuel
    cases fuel with
    | zero => rfl
    | succ f => rw [spec_linear_probe, hd 0 (by norm_num)]

/-! ### UnChunkFS over the tree ChunkFS exposes -/

theorem spec_chunk_len_eq (cs is i : Nat) (hcs : 1 ≤ cs)
    (hi : i < (ChunkFS.mount cs is).image_chunks) :
    min ((is : Int) - ((i * cs : Nat) : Int)) (cs : Int) = (spec_chunk_len cs is i : Int) ∧
    1 ≤ spec_chunk_len cs is i ∧ spec_chunk_len cs is i ≤ cs ∧
    i * cs + spec_chunk_len cs is i ≤ is ∧
    (i + 1 < (ChunkFS.mount cs is).image_chunks → spec_chunk_len cs is i = cs) ∧
    (i + 1 = (ChunkFS.mount cs is).image_chunks → i * cs + spec_chunk_len cs is i = is) := by
  obtain ⟨hv, hpos, hlast⟩ := chunk_size_value cs is i hcs hi
  unfold spec_chunk_len
  have hmul : (i + 1) * cs = i * cs + cs := by ring
  rw [hmul]
  generalize (ChunkFS.mount cs is).image_chunks = ic at *
  generalize i * cs = b at *
  by_cases hl : i + 1 = ic
  · rw [if_pos hl] at hv
    have := hlast hl
    rw [Nat.min_def]
    split <;> omega
  · rw [if_neg hl] at hv
    rw [Nat.min_def]
    split <;> omega

theorem chunkfs_getattr_chunk (cs is i : Nat) (hcs : 1 ≤ cs)
    (hi : i < (ChunkFS.mount cs is).image_chunks) (hi64 : i < 2 ^ 64) (buf : stat) :
    ChunkFS.chunkfs_getattr (ChunkFS.mount cs is) (Except.ok buf) (47 :: UnChunkFS.chunk_name i) =
      Res.ok (fill_stat buf S_IFREG (256 + 2) (spec_chunk_len cs is i : Int)) := by
  unfold ChunkFS.chunkfs_getattr
  rw [resolve_path_chunk_name _ i hi hi64, resolve_fill_leaf]
  simp only [Option.getD_some]
  rw [← (spec_chunk_len_eq cs is i hcs hi).1]
  rfl

/-- What `stat` answers in the tree a ChunkFS mount exposes. -/
theorem chunkfs_dir_stat (cs is : Nat) (hcs : 1 ≤ cs) (image : List Nat) (i : Nat)
    (hi64 : i < 2 ^ 64) :
    (chunkfs_dir (ChunkFS.mount cs is) image).stat (UnChunkFS.chunk_name i) =
      if i < (ChunkFS.mount cs is).image_chunks then StatRes.size (spec_chunk_len cs is i)
      else StatRes.enoent := by
  unfold chunkfs_dir
  simp only []
  by_cases hi : i < (ChunkFS.mount cs is).image_chunks
  · rw [chunkfs_getattr_chunk cs is i hcs hi hi64, if_pos hi]
    simp only [fill_stat_reg_size, Int.toNat_ofNat]
  · rw [if_neg hi]
    unfold ChunkFS.chunkfs_getattr
    rw [resolve_path_chunk_name_none _ i hi hi64]
    simp

theorem stat_of_chunkfs_chunk (cs is : Nat) (hcs : 1 ≤ cs) (i : Nat) (hi64 : i < 2 ^ 64) :
    stat_of_chunkfs (ChunkFS.mount cs is) (UnChunkFS.chunk_name i) =
      if i < (ChunkFS.mount cs is).image_chunks then StatRes.size (spec_chunk_len cs is i)
      else StatRes.enoent := by
  unfold stat_of_chunkfs
  by_cases hi : i < (ChunkFS.mount cs is).image_chunks
  · rw [resolve_path_chunk_name _ i hi hi64, resolve_fill_leaf, if_pos hi]
    simp only [S_ISDIR_reg, if_true, Option.getD_some]
    have e := (spec_chunk_len_eq cs is i hcs hi).1
    simp only [ChunkFS.mount] at e ⊢
    rw [e, Int.toNat_ofNat]
  · rw [resolve_path_chunk_name_none _ i hi hi64, if_neg hi]

/-- Discovery on a directory laid out as ChunkFS lays out an image finds the
image size, and the size of chunk 0 as chunk size. -/
theorem discover_layout (cs is : Nat) (hcs : 1 ≤ cs) (his : is ≤ OFF_T_MAX)
    (d : UnChunkFS.ChunkDir)
    (hstat : ∀ i, i < 2 ^ 64 → d.stat (UnChunkFS.chunk_name i) =
      if i < (ChunkFS.mount cs is).image_chunks then StatRes.size (spec_chunk_len cs is i)
      else StatRes.enoent) :
    UnChunkFS.discover d =
      Res.ok { chunk_size := if (ChunkFS.mount cs is).image_chunks = 0 then 1
                             else spec_chunk_len cs is 0,
               image_size := is } := by
  obtain ⟨hcov, hstart⟩ := mount_chunks_bounds cs is hcs
  have hle := mount_chunks_le cs is hcs
  by_cases h0 : (ChunkFS.mount cs is).image_chunks = 0
  · have hno : no_chunk_exists d := by
      intro i hi
      rw [hstat i hi, if_neg (by omega)]
    rw [discover_none d hno, if_pos h0]
    rw [h0] at hcov
    have : is = 0 := by omega
    rw [this]
  · have hN : (ChunkFS.mount cs is).image_chunks - 1 < 2 ^ 63 := by
      unfold OFF_T_MAX at his; omega
    have hex : chunks_exist_upto d ((ChunkFS.mount cs is).image_chunks - 1)
        (spec_chunk_len cs is) := by
      constructor
      · intro i hi
        rw [hstat i hi]
        by_cases hc : i < (ChunkFS.mount cs is).image_chunks
        · rw [if_pos hc, if_pos (by omega)]
        · rw [if_neg hc, if_neg (by omega)]
      · intro i hi
        exact (spec_chunk_len_eq cs is i hcs (by omega)).2.1
    have hsum : ((ChunkFS.mount cs is).image_chunks - 1) * spec_chunk_len cs is 0 +
        spec_chunk_len cs is ((ChunkFS.mount cs is).image_chunks - 1) = is := by
      obtain ⟨-, -, -, -, -, hlast⟩ := spec_chunk_len_eq cs is
        ((ChunkFS.mount cs is).image_chunks - 1) hcs (by omega)
      have hl := hlast (by omega)
      by_cases h1 : (ChunkFS.mount cs is).image_chunks = 1
      · rw [h1] at hl ⊢
        simpa using hl
      · obtain ⟨-, -, -, -, hfull, -⟩ := spec_chunk_len_eq cs is 0 hcs (by omega)
        rw [hfull (by omega)]
        exact hl
    rw [discover_exists d _ hN _ hex (by rw [hsum]; exact his), if_neg h0, hsum]

theorem unchunkfs_getattr_image (m : UnChunkFS.Mount) (buf : stat) :
    UnChunkFS.unchunkfs_getattr m (Except.ok buf) (bytes "/image") =
      Res.ok (fill_stat buf S_IFREG 2 (m.image_size : Int)) := by
  have : bytes "/image" = [47, 105, 109, 97, 103, 101] := by decide
  rw [this]
  rfl

/-- C10: when discovery runs against the tree ChunkFS exposes for an image of
`image_size` bytes cut into chunks of `chunk_size >= 1` bytes, it does not abort
and the `image_size` it computes, which `unchunkfs_getattr` reports for
`/image`, is the original one. -/
theorem C10_image_size_round_trip (chunk_size image_size : Nat) (hcs : 1 ≤ chunk_size)
    (his : image_size ≤ OFF_T_MAX) (d : UnChunkFS.ChunkDir)
    (hd : ∀ i, i < 2 ^ 64 → d.stat (UnChunkFS.chunk_name i) =
      stat_of_chunkfs (ChunkFS.mount chunk_size image_size) (UnChunkFS.chunk_name i))
    (buf : stat) :
    ∃ m sb, UnChunkFS.discover d = Res.ok m ∧ m.image_size = image_size ∧
      UnChunkFS.unchunkfs_getattr m (Except.ok buf) (bytes "/image") = Res.ok sb ∧
      sb.st_size = (image_size : Int) := by
  have hstat : ∀ i, i < 2 ^ 64 → d.stat (UnChunkFS.chunk_name i) =
      if i < (ChunkFS.mount chunk_size image_size).image_chunks then
        StatRes.size (spec_chunk_len chunk_size image_size i)
      else StatRes.enoent := by
    intro i hi
    rw [hd i hi, stat_of_chunkfs_chunk chunk_size image_size hcs i hi]
  refine ⟨_, _, discover_layout chunk_size image_size hcs his d hstat, rfl,
    unchunkfs_getattr_image _ buf, ?_⟩
  rw [fill_stat_reg_size]

/-! ### Reading the image back through UnChunkFS -/

theorem slice_slice (l : List Nat) (a n b k : Nat) (h : b + k ≤ n) :
    slice (slice l a n) b k = slice l (a + b) k := by
  unfold slice
  rw [List.drop_take, List.take_take, List.drop_drop, Nat.min_eq_left (by omega)]

theorem unchunkfs_read_loop_ok (d : UnChunkFS.ChunkDir) (image : List Nat) (cs N s : Nat)
    (hcs : 1 ≤ cs) (hs2 : s ≤ cs) (hlen : image.length = N * cs + s)
    (hfiles : ∀ i, i ≤ N →
      d.openOk (UnChunkFS.chunk_name i) = true ∧ d.closeOk (UnChunkFS.chunk_name i) = true ∧
      pread_delivers (slice image (i * cs) (if i = N then s else cs))
        (d.pread (UnChunkFS.chunk_name i)))
    (offset count : Nat) (hb : 0 < count → offset + count ≤ image.length) :
    ∀ (fuel bufpos : Nat), bufpos ≤ count → count - bufpos ≤ fuel →
      UnChunkFS.unchunkfs_read_loop d cs offset count fuel bufpos (slice image offset bufpos) =
        some (Res.ok (count, slice image offset count)) := by
  intro fuel
  induction fuel with
  | zero =>
    intro bufpos h1 h2
    have : bufpos = count := by omega
    subst this
    rw [UnChunkFS.unchunkfs_read_loop]
    simp
  | succ fuel ih =>
    intro bufpos h1 h2
    rw [UnChunkFS.unchunkfs_read_loop]
    by_cases hlt : bufpos < count
    · have hdm := Nat.div_add_mod (offset + bufpos) cs
      have hmod := Nat.mod_lt (offset + bufpos) (show 0 < cs by omega)
      have hcN : (offset + bufpos) / cs ≤ N := by
        by_contra hc
        have := Nat.mul_le_mul_left cs (show N + 1 ≤ (offset + bufpos) / cs by omega)
        rw [Nat.mul_add, Nat.mul_one, Nat.mul_comm cs N] at this
        omega
      obtain ⟨hopen, hclose, hpr⟩ := hfiles _ hcN
      have hmulc : (offset + bufpos) / cs * cs = cs * ((offset + bufpos) / cs) := Nat.mul_comm _ _
      have hclen : (offset + bufpos) / cs * cs +
          (if (offset + bufpos) / cs = N then s else cs) ≤ image.length := by
        split
        · rename_i he; rw [he]; omega
        · rename_i hne
          have := Nat.mul_le_mul_left cs (show (offset + bufpos) / cs + 1 ≤ N by omega)
          rw [Nat.mul_add, Nat.mul_one, Nat.mul_comm cs N] at this
          omega
      have hofflt : (offset + bufpos) % cs < (if (offset + bufpos) / cs = N then s else cs) := by
        split
        · rename_i he
          rw [he, Nat.mul_comm] at hdm
          omega
        · exact hmod
      have hcl : (slice image ((offset + bufpos) / cs * cs)
          (if (offset + bufpos) / cs = N then s else cs)).length =
          (if (offset + bufpos) / cs = N then s else cs) := slice_length _ _ _ (fun _ => hclen)
      obtain ⟨k, hk1, hk2, hk3, hk⟩ := hpr (count - bufpos) ((offset + bufpos) % cs) (by omega)
        (by rw [hcl]; exact hofflt)
      rw [hcl] at hk3
      rw [slice_slice _ _ _ _ _ (by omega), hmulc, hdm] at hk
      have hlen' : (slice image (offset + bufpos) k).length = k :=
        slice_length _ _ _ (fun _ => by
          generalize (if (offset + bufpos) / cs = N then s else cs) = lc at *
          omega)
      have htake : (slice image (offset + bufpos) k).take (count - bufpos) =
          slice image (offset + bufpos) k := List.take_of_length_le (by omega)
      simp only [hlt, if_true, hopen, hclose, hk, htake, hlen', not_true_eq_false, if_false]
      rw [if_neg (by omega), slice_append]
      exact ih (bufpos + k) (by omega) (by omega)
    · have : bufpos = count := by omega
      subst this
      simp

theorem chunks_of_stat (image : List Nat) (cs : Nat) (hcs : 1 ≤ cs) (d : UnChunkFS.ChunkDir)
    (hd : dir_holds d (chunks_of image cs)) :
    ∀ i, i < 2 ^ 64 → d.stat (UnChunkFS.chunk_name i) =
      if i < (ChunkFS.mount cs image.length).image_chunks then
        StatRes.size (spec_chunk_len cs image.length i)
      else StatRes.enoent := by
  intro i hi
  have h := hd.2 i hi
  unfold chunks_of at h
  by_cases hc : i < (ChunkFS.mount cs image.length).image_chunks
  · rw [if_pos hc] at h ⊢
    simp only [] at h
    obtain ⟨-, -, -, hfit, -, -⟩ := spec_chunk_len_eq cs image.length i hcs hc
    rw [h.1, slice_length _ _ _ (fun _ => hfit)]
  · rw [if_neg hc] at h ⊢
    exact h.1

/-- Reading `/image` of an UnChunkFS mounted on the chunk files of `image`. -/
theorem unchunkfs_read_image (image : List Nat) (cs : Nat) (hcs : 1 ≤ cs)
    (hsize : image.length ≤ OFF_T_MAX)
    (d : UnChunkFS.ChunkDir) (hd : dir_holds d (chunks_of image cs)) (done : Bool)
    (count offset : Nat) (hcount : count ≤ INT_MAX) :
    UnChunkFS.unchunkfs_read
      { chunk_size := if (ChunkFS.mount cs image.length).image_chunks = 0 then 1
                      else spec_chunk_len cs image.length 0,
        image_size := image.length } d done (bytes "/image") count offset =
      some (Res.ok (min count (image.length - offset),
        slice image offset (min count (image.length - offset)))) := by
  have hn : (min (count : Int) (max ((image.length : Int) - (offset : Int)) 0)).toNat =
      min count (image.length - offset) := by
    rcases Nat.le_total count (image.length - offset) with h | h
    · rw [Nat.min_eq_left h]; omega
    · rw [Nat.min_eq_right h]; omega
  have hle : min count (image.length - offset) ≤ image.length - offset := Nat.min_le_right _ _
  have hc1 : ¬ count > INT_MAX := by omega
  have hc2 : ¬ count > SSIZE_MAX := by
    unfold INT_MAX at hcount; unfold SSIZE_MAX; omega
  have hcwd : (UnChunkFS.ensure_chunkdir_is_cwd d done).1 = true := by
    unfold UnChunkFS.ensure_chunkdir_is_cwd
    cases done <;> simp [hd.1]
  unfold UnChunkFS.unchunkfs_read
  have hres : UnChunkFS.resolve_path (bytes "/image") = Res.ok S_IFREG := by decide
  simp only [hcwd, not_true_eq_false, if_false, hres, S_ISDIR_reg, hc1, hc2,
    Bool.false_eq_true, hn]
  generalize hnv : min count (image.length - offset) = n at *
  by_cases hn0 : n = 0
  · subst hn0
    rw [UnChunkFS.unchunkfs_read_loop]
    simp [slice]
  obtain ⟨hcov, hstart⟩ := mount_chunks_bounds cs image.length hcs
  have hic : (ChunkFS.mount cs image.length).image_chunks ≠ 0 := by
    intro h0; rw [h0] at hcov; omega
  rw [if_neg hic]
  have hN64 : (ChunkFS.mount cs image.length).image_chunks ≤ image.length :=
    mount_chunks_le cs image.length hcs
  obtain ⟨-, hs1, hs2, hsfit, -, hslast⟩ := spec_chunk_len_eq cs image.length
    ((ChunkFS.mount cs image.length).image_chunks - 1) hcs (by omega)
  have hslast' := hslast (by omega)
  obtain ⟨-, h01, h02, -, h0full, h0last⟩ := spec_chunk_len_eq cs image.length 0 hcs (by omega)
  have key : ∀ i, i ≤ (ChunkFS.mount cs image.length).image_chunks - 1 →
      i * cs = i * spec_chunk_len cs image.length 0 ∧
      spec_chunk_len cs image.length i =
        if i = (ChunkFS.mount cs image.length).image_chunks - 1 then
          spec_chunk_len cs image.length ((ChunkFS.mount cs image.length).image_chunks - 1)
        else spec_chunk_len cs image.length 0 := by
    intro i hi
    by_cases h1 : (ChunkFS.mount cs image.length).image_chunks = 1
    · have hi0 : i = 0 := by omega
      subst hi0
      rw [h1]
      simp
    · rw [h0full (by omega)]
      refine ⟨rfl, ?_⟩
      split
      · rename_i he; rw [he]
      · rename_i hne
        exact (spec_chunk_len_eq cs image.length i hcs (by omega)).2.2.2.2.1 (by omega)
  have hfiles : ∀ i, i ≤ (ChunkFS.mount cs image.length).image_chunks - 1 →
      d.openOk (UnChunkFS.chunk_name i) = true ∧ d.closeOk (UnChunkFS.chunk_name i) = true ∧
      pread_delivers (slice image (i * spec_chunk_len cs image.length 0)
        (if i = (ChunkFS.mount cs image.length).image_chunks - 1 then
          spec_chunk_len cs image.length ((ChunkFS.mount cs image.length).image_chunks - 1)
        else spec_chunk_len cs image.length 0))
        (d.pread (UnChunkFS.chunk_name i)) := by
    intro i hi
    have h := hd.2 i (by unfold OFF_T_MAX at hsize; omega)
    unfold chunks_of at h
    rw [if_pos (by omega)] at h
    simp only [] at h
    obtain ⟨k1, k2⟩ := key i hi
    rw [← k1, ← k2]
    exact ⟨h.2.1, h.2.2.1, h.2.2.2⟩
  have hs2' : spec_chunk_len cs image.length ((ChunkFS.mount cs image.length).image_chunks - 1) ≤
      spec_chunk_len cs image.length 0 := by
    by_cases h1 : (ChunkFS.mount cs image.length).image_chunks = 1
    · rw [h1]
    · rw [h0full (by omega)]; exact hs2
  have hlen : image.length =
      ((ChunkFS.mount cs image.length).image_chunks - 1) * spec_chunk_len cs image.length 0 +
      spec_chunk_len cs image.length ((ChunkFS.mount cs image.length).image_chunks - 1) := by
    rw [← (key _ (le_refl _)).1]
    exact hslast'.symm
  have := unchunkfs_read_loop_ok d image (spec_chunk_len cs image.length 0)
    ((ChunkFS.mount cs image.length).image_chunks - 1)
    (spec_chunk_len cs image.length ((ChunkFS.mount cs image.length).image_chunks - 1))
    h01 hs2' hlen hfiles offset n (fun _ => by omega) n 0 (Nat.zero_le _) (by omega)
  simpa [slice] using this

/-- C2: when the chunk directory holds exactly the chunk files of `image` for
a chunk size `>= 1`, the mount-time discovery succeeds and finds the size of the
image, and with what it found `unchunkfs_read` of `/image` returns, for every
offset and every `count <= INT_MAX`, the bytes
`image[offset, offset + min(count, max(image_size - offset, 0)))`; a read of the
whole of `/image` returns the image. -/
theorem C2_round_trip (image : List Nat) (chunk_size : Nat) (hcs : 1 ≤ chunk_size)
    (hsize : image.length ≤ OFF_T_MAX) (d : UnChunkFS.ChunkDir)
    (hd : dir_holds d (chunks_of image chunk_size)) (done : Bool) :
    ∃ m, UnChunkFS.discover d = Res.ok m ∧ m.image_size = image.length ∧
      (∀ count offset : Nat, count ≤ INT_MAX →
        ∃ n : Nat, (n : Int) = min (count : Int) (max ((image.length : Int) - (offset : Int)) 0) ∧
          UnChunkFS.unchunkfs_read m d done (bytes "/image") count offset =
            some (Res.ok (n, slice image offset n))) ∧
      (image.length ≤ INT_MAX →
        UnChunkFS.unchunkfs_read m d done (bytes "/image") image.length 0 =
          some (Res.ok (image.length, image))) := by
  refine ⟨_, discover_layout chunk_size image.length hcs hsize d
    (chunks_of_stat image chunk_size hcs d hd), rfl, ?_, ?_⟩
  · intro count offset hcount
    refine ⟨min count (image.length - offset), ?_,
      unchunkfs_read_image image chunk_size hcs hsize d hd done count offset hcount⟩
    rcases Nat.le_total count (image.length - offset) with h | h
    · rw [Nat.min_eq_left h]; omega
    · rw [Nat.min_eq_right h]; omega
  · intro hsmall
    have := unchunkfs_read_image image chunk_size hcs hsize d hd done image.length 0 hsmall
    simpa [slice] using this

/-! ### The tree of a ChunkFS mount as a chunk directory -/

theorem full_pread_delivers (image : List Nat) : pread_delivers image (full_pread image) := by
  intro n pos hn hpos
  refine ⟨min n (image.length - pos), ?_, Nat.min_le_left _ _, Nat.min_le_right _ _, ?_⟩
  · rw [Nat.le_min]; omega
  · unfold full_pread slice
    congr 1
    rcases Nat.le_total n (image.length - pos) with h | h
    · rw [Nat.min_eq_left h]
    · rw [Nat.min_eq_right h, List.take_of_length_le (by simp; omega),
        List.take_of_length_le (by simp)]

theorem chunkfs_open_chunk (m : ChunkFS.Mount) (i : Nat) (hi64 : i < 2 ^ 64) :
    ChunkFS.chunkfs_open m (47 :: UnChunkFS.chunk_name i) O_RDONLY =
      if i < m.image_chunks then Res.ok () else Res.err (-ENOENT) := by
  unfold ChunkFS.chunkfs_open
  by_cases hi : i < m.image_chunks
  · rw [resolve_path_chunk_name m i hi hi64, if_pos hi]
    rfl
  · rw [resolve_path_chunk_name_none m i hi hi64, if_neg hi]

theorem chunkfs_dir_openOk (m : ChunkFS.Mount) (image name : List Nat) :
    (chunkfs_dir m image).openOk name =
      (match ChunkFS.chunkfs_open m (47 :: name) O_RDONLY with
        | Res.ok _ => true
        | _ => false) := rfl

theorem chunkfs_dir_pread (m : ChunkFS.Mount) (image name : List Nat) (n pos : Nat) :
    (chunkfs_dir m image).pread name n pos =
      (match ChunkFS.chunkfs_read m (full_pread image) (47 :: name) (min n INT_MAX) pos with
        | some (Res.ok (_, bs)) => PreadRes.data bs
        | some (Res.err code) => PreadRes.error (-code)
        | _ => PreadRes.error EIO) := rfl

theorem chunkfs_dir_closeOk (m : ChunkFS.Mount) (image name : List Nat) :
    (chunkfs_dir m image).closeOk name = true := rfl

/-- The tree ChunkFS exposes for `image` holds the chunk files of `image`. -/
theorem chunkfs_dir_holds (image : List Nat) (cs : Nat) (hcs : 1 ≤ cs) :
    dir_holds (chunkfs_dir (ChunkFS.mount cs image.length) image) (chunks_of image cs) := by
  refine ⟨rfl, ?_⟩
  intro i hi64
  have hst := chunkfs_dir_stat cs image.length hcs image i hi64
  have hop := chunkfs_open_chunk (ChunkFS.mount cs image.length) i hi64
  unfold chunks_of
  by_cases hi : i < (ChunkFS.mount cs image.length).image_chunks
  · rw [if_pos hi] at hst hop ⊢
    simp only []
    obtain ⟨hv, hs1, hs2, hfit, -, -⟩ := spec_chunk_len_eq cs image.length i hcs hi
    have hclen : (slice image (i * cs) (spec_chunk_len cs image.length i)).length =
        spec_chunk_len cs image.length i := slice_length _ _ _ (fun _ => hfit)
    refine ⟨by rw [hst, hclen], ?_, chunkfs_dir_closeOk _ _ _, ?_⟩
    · rw [chunkfs_dir_openOk, hop]
    · intro n pos hn hpos
      rw [hclen] at hpos ⊢
      have hres := resolve_path_chunk_name (ChunkFS.mount cs image.length) i hi hi64
      rw [resolve_fill_leaf] at hres
      obtain ⟨k, hk, hread, -⟩ := chunkfs_read_accepted cs image.length hcs image rfl
        (full_pread image) (full_pread_delivers image) (47 :: UnChunkFS.chunk_name i) _
        (spec_chunk_len cs image.length i : Int) hres S_ISDIR_reg
        (by show some _ = some _; rw [← hv]; rfl) (min n INT_MAX) pos (Nat.min_le_right _ _)
      have hI : 1 ≤ INT_MAX := by decide
      have hmin1 : 1 ≤ min n INT_MAX := by rw [Nat.le_min]; exact ⟨hn, hI⟩
      have hminn : min n INT_MAX ≤ n := Nat.min_le_left _ _
      have hk' : 1 ≤ k ∧ k ≤ n ∧ k ≤ spec_chunk_len cs image.length i - pos := by
        generalize min n INT_MAX = c at *
        omega
      refine ⟨k, hk'.1, hk'.2.1, hk'.2.2, ?_⟩
      rw [chunkfs_dir_pread, hread, slice_slice _ _ _ _ _ (by omega)]
  · rw [if_neg hi] at hst hop ⊢
    simp only []
    refine ⟨hst, ?_⟩
    rw [chunkfs_dir_openOk, hop]

theorem C2_round_trip_witness :
    ∃ m, UnChunkFS.discover
        (chunkfs_dir (ChunkFS.mount 4 10) [10, 11, 12, 13, 14, 15, 16, 17, 18, 19]) = Res.ok m ∧
      m.image_size = 10 ∧
      (∀ count offset : Nat, count ≤ INT_MAX →
        ∃ n : Nat, (n : Int) = min (count : Int) (max (10 - (offset : Int)) 0) ∧
          UnChunkFS.unchunkfs_read m
            (chunkfs_dir (ChunkFS.mount 4 10) [10, 11, 12, 13, 14, 15, 16, 17, 18, 19]) false
            (bytes "/image") count offset =
            some (Res.ok (n, slice [10, 11, 12, 13, 14, 15, 16, 17, 18, 19] offset n))) ∧
      (10 ≤ INT_MAX →
        UnChunkFS.unchunkfs_read m
          (chunkfs_dir (ChunkFS.mount 4 10) [10, 11, 12, 13, 14, 15, 16, 17, 18, 19]) false
          (bytes "/image") 10 0 =
          some (Res.ok (10, [10, 11, 12, 13, 14, 15, 16, 17, 18, 19]))) :=
  C2_round_trip [10, 11, 12, 13, 14, 15, 16, 17, 18, 19] 4 (by decide) (by decide)
    (chunkfs_dir (ChunkFS.mount 4 10) [10, 11, 12, 13, 14, 15, 16, 17, 18, 19])
    (chunkfs_dir_holds [10, 11, 12, 13, 14, 15, 16, 17, 18, 19] 4 (by decide)) false

theorem C3_bit_probing_matches_linear_witness :
    (UnChunkFS.probe_loop (chunkfs_dir (ChunkFS.mount 4 10) [])
        64 { chunk_size := 0, last_chunk := 0, last_chunk_size := 0 } =
      Res.ok { chunk_size := 4, last_chunk := 2, last_chunk_size := 2 } ∧
    spec_linear_probe (chunkfs_dir (ChunkFS.mount 4 10) []) (2 + 2) 0 = some 2) ∧
    (UnChunkFS.probe_loop (chunkfs_dir (ChunkFS.mount 4 0) [])
        64 { chunk_size := 0, last_chunk := 0, last_chunk_size := 0 } =
      Res.ok { chunk_size := 0, last_chunk := 0, last_chunk_size := 0 } ∧
    (∀ fuel, spec_linear_probe (chunkfs_dir (ChunkFS.mount 4 0) []) fuel 0 = none) ∧
    UnChunkFS.discover (chunkfs_dir (ChunkFS.mount 4 0) []) =
      Res.ok { chunk_size := 1, image_size := 0 }) :=
  ⟨(C3_bit_probing_matches_linear (chunkfs_dir (ChunkFS.mount 4 10) [])).1 2
    (spec_chunk_len 4 10) (by decide)
    ⟨fun i hi => by
        rw [chunkfs_dir_stat 4 10 (by decide) [] i hi]
        have : (ChunkFS.mount 4 10).image_chunks = 3 := by decide
        rw [this]
        by_cases h : i < 3
        · rw [if_pos h, if_pos (by omega)]
        · rw [if_neg h, if_neg (by omega)],
     fun i hi => by interval_cases i <;> decide⟩,
   (C3_bit_probing_matches_linear (chunkfs_dir (ChunkFS.mount 4 0) [])).2
    (fun i hi => by
      rw [chunkfs_dir_stat 4 0 (by decide) [] i hi]
      have : (ChunkFS.mount 4 0).image_chunks = 0 := by decide
      rw [this, if_neg (by omega)])⟩

theorem C10_image_size_round_trip_witness :
    ∃ m sb, UnChunkFS.discover (chunkfs_dir (ChunkFS.mount 4 10) []) = Res.ok m ∧
      m.image_size = 10 ∧
      UnChunkFS.unchunkfs_getattr m (Except.ok ⟨0o40755, 2, 4096, 8⟩) (bytes "/image") =
        Res.ok sb ∧
      sb.st_size = ((10 : Nat) : Int) :=
  C10_image_size_round_trip 4 10 (by decide) (by decide) (chunkfs_dir (ChunkFS.mount 4 10) [])
    (fun i hi => by
      rw [chunkfs_dir_stat 4 10 (by decide) [] i hi, stat_of_chunkfs_chunk 4 10 (by decide) i hi])
    ⟨0o40755, 2, 4096, 8⟩

/-! ### Paths and their prefixes -/

theorem spec_index_from_append (n : Nat) : ∀ (p q : List Nat) (k : Nat), p.length = 3 * n →
    spec_index_from (p ++ q) k = spec_index_from p k + spec_index_from q (k + n) := by
  induction n with
  | zero =>
    intro p q k hp
    have : p = [] := List.length_eq_zero.mp (by simpa using hp)
    subst this
    simp [spec_index_from]
  | succ n ih =>
    intro p q k hp
    rcases p with _ | ⟨s, _ | ⟨hi, _ | ⟨lo, rest⟩⟩⟩
    · simp at hp
    · simp at hp; omega
    · simp at hp; omega
    have hrest : rest.length = 3 * n := by simp at hp; omega
    simp only [List.cons_append, spec_index_from, List.append_eq]
    rw [ih rest q (k + 1) hrest]
    have : k + 1 + n = k + (n + 1) := by omega
    rw [this]
    omega

theorem wf_groups_append (n : Nat) : ∀ (p q : List Nat), p.length = 3 * n →
    wf_groups (p ++ q) = (wf_groups p && wf_groups q) := by
  induction n with
  | zero =>
    intro p q hp
    have : p = [] := List.length_eq_zero.mp (by simpa using hp)
    subst this
    simp [wf_groups]
  | succ n ih =>
    intro p q hp
    rcases p with _ | ⟨s, _ | ⟨hi, _ | ⟨lo, rest⟩⟩⟩
    · simp at hp
    · simp at hp; omega
    · simp at hp; omega
    have hrest : rest.length = 3 * n := by simp at hp; omega
    simp only [List.cons_append, wf_groups, List.append_eq]
    rw [ih rest q hrest, Bool.and_assoc]

theorem spec_zero_groups_length (n : Nat) : (spec_zero_groups n).length = 3 * n := by
  induction n with
  | zero => rfl
  | succ n ih => simp [spec_zero_groups, ih]; omega

theorem spec_zero_groups_index (n : Nat) : ∀ k, spec_index_from (spec_zero_groups n) k = 0 := by
  induction n with
  | zero => intro k; rfl
  | succ n ih => intro k; simp [spec_zero_groups, spec_index_from, ih, hex_val]

theorem spec_zero_groups_wf (n : Nat) : wf_groups (spec_zero_groups n) = true := by
  induction n with
  | zero => rfl
  | succ n ih =>
    simp only [spec_zero_groups, wf_groups, ih, Bool.and_true, decide_eq_true_eq]
    decide

theorem spec_digit_hex_val (c : Nat) (h : is_hex c) : spec_digit (hex_val c) = c := by
  unfold is_hex at h
  rcases h with ⟨h1, h2⟩ | ⟨h1, h2⟩
  · interval_cases c <;> rfl
  · interval_cases c <;> rfl

theorem digit_extract (d0 d1 d2 d3 d4 d5 d6 d7 d8 d9 d10 d11 d12 d13 d14 d15 : Nat)
    (h0 : d0 < 16) (h1 : d1 < 16) (h2 : d2 < 16) (h3 : d3 < 16) (h4 : d4 < 16) (h5 : d5 < 16)
    (h6 : d6 < 16) (h7 : d7 < 16) (h8 : d8 < 16) (h9 : d9 < 16) (h10 : d10 < 16)
    (h11 : d11 < 16) (h12 : d12 < 16) (h13 : d13 < 16) (h14 : d14 < 16) (h15 : d15 < 16)
    (n : Nat)
    (hn : n = (16 * d0 + d1) * 256 ^ 7 + ((16 * d2 + d3) * 256 ^ 6 + ((16 * d4 + d5) * 256 ^ 5 +
      ((16 * d6 + d7) * 256 ^ 4 + ((16 * d8 + d9) * 256 ^ 3 + ((16 * d10 + d11) * 256 ^ 2 +
      ((16 * d12 + d13) * 256 ^ 1 + ((16 * d14 + d15) * 256 ^ 0 + 0)))))))) :
    n / 16 ^ 15 % 16 = d0 ∧ n / 16 ^ 14 % 16 = d1 ∧ n / 16 ^ 13 % 16 = d2 ∧
    n / 16 ^ 12 % 16 = d3 ∧ n / 16 ^ 11 % 16 = d4 ∧ n / 16 ^ 10 % 16 = d5 ∧
    n / 16 ^ 9 % 16 = d6 ∧ n / 16 ^ 8 % 16 = d7 ∧ n / 16 ^ 7 % 16 = d8 ∧
    n / 16 ^ 6 % 16 = d9 ∧ n / 16 ^ 5 % 16 = d10 ∧ n / 16 ^ 4 % 16 = d11 ∧
    n / 16 ^ 3 % 16 = d12 ∧ n / 16 ^ 2 % 16 = d13 ∧ n / 16 ^ 1 % 16 = d14 ∧
    n / 16 ^ 0 % 16 = d15 := by
  refine ⟨?_, ?_, ?_, ?_, ?_, ?_, ?_, ?_, ?_, ?_, ?_, ?_, ?_, ?_, ?_, ?_⟩ <;> omega

/-- Encoding the index of a well-formed path of eight groups gives the path
back. -/
theorem encode_spec_index (q : List Nat) (hlen : q.length = 24) (hw : wf_groups q = true) :
    47 :: spec_encode (spec_index q) = q := by
  iterate 24
    rcases q with _ | ⟨_, q⟩
    · simp at hlen
  rcases q with _ | ⟨_, q⟩
  swap
  · simp at hlen
  rename_i s0 a0 b0 s1 a1 b1 s2 a2 b2 s3 a3 b3 s4 a4 b4 s5 a5 b5 s6 a6 b6 s7 a7 b7
  simp only [wf_groups, Bool.and_eq_true, decide_eq_true_eq, and_true] at hw
  obtain ⟨⟨e0, x0, y0⟩, ⟨e1, x1, y1⟩, ⟨e2, x2, y2⟩, ⟨e3, x3, y3⟩, ⟨e4, x4, y4⟩, ⟨e5, x5, y5⟩,
    ⟨e6, x6, y6⟩, ⟨e7, x7, y7⟩⟩ := hw
  subst e0 e1 e2 e3 e4 e5 e6 e7
  have hd := digit_extract (hex_val a0) (hex_val b0) (hex_val a1) (hex_val b1) (hex_val a2)
    (hex_val b2) (hex_val a3) (hex_val b3) (hex_val a4) (hex_val b4) (hex_val a5) (hex_val b5)
    (hex_val a6) (hex_val b6) (hex_val a7) (hex_val b7)
    (hex_val_lt _ x0) (hex_val_lt _ y0) (hex_val_lt _ x1) (hex_val_lt _ y1) (hex_val_lt _ x2)
    (hex_val_lt _ y2) (hex_val_lt _ x3) (hex_val_lt _ y3) (hex_val_lt _ x4) (hex_val_lt _ y4)
    (hex_val_lt _ x5) (hex_val_lt _ y5) (hex_val_lt _ x6) (hex_val_lt _ y6) (hex_val_lt _ x7)
    (hex_val_lt _ y7) _ rfl
  obtain ⟨g0, g1, g2, g3, g4, g5, g6, g7, g8, g9, g10, g11, g12, g13, g14, g15⟩ := hd
  rw [spec_encode_eq]
  have hi : spec_index [47, a0, b0, 47, a1, b1, 47, a2, b2, 47, a3, b3, 47, a4, b4, 47, a5, b5,
      47, a6, b6, 47, a7, b7] =
      (16 * hex_val a0 + hex_val b0) * 256 ^ 7 + ((16 * hex_val a1 + hex_val b1) * 256 ^ 6 +
      ((16 * hex_val a2 + hex_val b2) * 256 ^ 5 + ((16 * hex_val a3 + hex_val b3) * 256 ^ 4 +
      ((16 * hex_val a4 + hex_val b4) * 256 ^ 3 + ((16 * hex_val a5 + hex_val b5) * 256 ^ 2 +
      ((16 * hex_val a6 + hex_val b6) * 256 ^ 1 +
      ((16 * hex_val a7 + hex_val b7) * 256 ^ 0 + 0))))))) := rfl
  rw [hi, g0, g1, g2, g3, g4, g5, g6, g7, g8, g9, g10, g11, g12, g13, g14, g15,
    spec_digit_hex_val _ x0, spec_digit_hex_val _ y0, spec_digit_hex_val _ x1,
    spec_digit_hex_val _ y1, spec_digit_hex_val _ x2, spec_digit_hex_val _ y2,
    spec_digit_hex_val _ x3, spec_digit_hex_val _ y3, spec_digit_hex_val _ x4,
    spec_digit_hex_val _ y4, spec_digit_hex_val _ x5, spec_digit_hex_val _ y5,
    spec_digit_hex_val _ x6, spec_digit_hex_val _ y6, spec_digit_hex_val _ x7,
    spec_digit_hex_val _ y7]

theorem spec_index_from_nibbles (n : Nat) : ∀ (p : List Nat) (k : Nat), p.length = 3 * n →
    k + n ≤ 8 → spec_index_from p k = spec_nibble_sum (spec_digits_of p) (2 * k) := by
  induction n with
  | zero =>
    intro p k hp _
    have : p = [] := List.length_eq_zero.mp (by simpa using hp)
    subst this
    rfl
  | succ n ih =>
    intro p k hp hk
    rcases p with _ | ⟨s, _ | ⟨hi, _ | ⟨lo, rest⟩⟩⟩
    · simp at hp
    · simp at hp; omega
    · simp at hp; omega
    have hrest : rest.length = 3 * n := by simp at hp; omega
    simp only [spec_index_from, spec_digits_of, spec_nibble_sum]
    rw [ih rest (k + 1) hrest (by omega)]
    obtain ⟨j, hj⟩ : ∃ j, j = 7 - k := ⟨_, rfl⟩
    have e1 : (15 - 2 * k) * 4 = 8 * j + 4 := by omega
    have e2 : (15 - (2 * k + 1)) * 4 = 8 * j := by omega
    have e3 : 2 * k + 1 + 1 = 2 * (k + 1) := by omega
    have p2 : 256 ^ j = 2 ^ (8 * j) := by
      rw [show (256 : Nat) = 2 ^ 8 by norm_num, ← pow_mul]
    rw [e1, e2, e3, ← hj, p2, pow_add]
    ring

theorem spec_index_lt (p : List Nat) (L : Nat) (hp : p.length = 3 * L) (h8 : L ≤ 8)
    (hw : wf_groups p = true) : spec_index p < 2 ^ 64 := by
  obtain ⟨q, hq, he⟩ := spec_index_from_bound L p 0 hp (by omega) hw
  unfold spec_index
  rw [he]
  have e3 : (2 : Nat) ^ 64 = 256 ^ L * 256 ^ (8 - 0 - L) := by
    rw [← pow_add, show L + (8 - 0 - L) = 8 by omega]; norm_num
  rw [e3]
  exact Nat.mul_lt_mul_of_lt_of_le hq (le_refl _) (pow_pos (by norm_num) _)

/-- The name of the index of a well-formed path is the path filled up with
groups `00`. -/
theorem chunk_name_spec_index (p : List Nat) (L : Nat) (hp : p.length = 3 * L) (h8 : L ≤ 8)
    (hw : wf_groups p = true) :
    47 :: UnChunkFS.chunk_name (spec_index p) = p ++ spec_zero_groups (8 - L) := by
  rw [chunk_name_eq _ (spec_index_lt p L hp h8 hw)]
  have hlen : (p ++ spec_zero_groups (8 - L)).length = 24 := by
    rw [List.length_append, spec_zero_groups_length, hp]; omega
  have hwq : wf_groups (p ++ spec_zero_groups (8 - L)) = true := by
    rw [wf_groups_append L p _ hp, hw, spec_zero_groups_wf]; rfl
  have hiq : spec_index (p ++ spec_zero_groups (8 - L)) = spec_index p := by
    unfold spec_index
    rw [spec_index_from_append L p _ 0 hp, spec_zero_groups_index]; rfl
  rw [← hiq]
  exact encode_spec_index _ hlen hwq

/-- C11: a path of `L` groups that `resolve_path` accepts is reported at level
`L` with its prefix base index as chunk index; `/` followed by the name
`gen_chunk_name` writes for that index is the path followed by `8 - L` groups
`00`, so it has the path as its first `3*L` characters and is the path itself
when `L = 8`; the index is the sum of `digit * 2^((15-i)*4)` over the nibble
positions `i` of the digits of the path. -/
theorem C11_encode_undoes_decode (m : ChunkFS.Mount) (p : List Nat) (L : Nat) (hL1 : 1 ≤ L)
    (hL8 : L ≤ 8) (hlen : p.length = 3 * L) (st : ChunkFS.chunk_stat)
    (hres : ChunkFS.resolve_path m p = Res.ok st) :
    st.level = L ∧ st.chunk = spec_index p ∧
    47 :: UnChunkFS.chunk_name st.chunk = p ++ spec_zero_groups (8 - L) ∧
    (47 :: UnChunkFS.chunk_name st.chunk).take (3 * L) = p ∧
    (L = 8 → 47 :: UnChunkFS.chunk_name st.chunk = p) ∧
    st.chunk = spec_nibble_sum (spec_digits_of p) 0 := by
  rcases resolve_path_ok_cases m p st hres with ⟨hp, -⟩ | ⟨L', -, h8, hp, hw, -, hst⟩
  · rw [hp] at hlen; simp at hlen; omega
  obtain ⟨hl, hc, -⟩ := resolve_fill_level m p.length (spec_index p)
  rw [← hst] at hl hc
  have hname := chunk_name_spec_index p L hlen hL8 hw
  refine ⟨by rw [hl, hlen]; omega, hc, by rw [hc]; exact hname, ?_, ?_, ?_⟩
  · rw [hc, hname, List.take_append_of_le_length (by omega), List.take_of_length_le (by omega)]
  · intro h8'
    rw [hc, hname, h8']
    simp [spec_zero_groups]
  · rw [hc]
    exact spec_index_from_nibbles L p 0 hlen (by omega)

theorem C11_encode_undoes_decode_witness :
    47 :: UnChunkFS.chunk_name 0x1200 =
      bytes "/00/00/00/00/00/00/12" ++ spec_zero_groups (8 - 7) ∧
    (0x1200 : Nat) = spec_nibble_sum (spec_digits_of (bytes "/00/00/00/00/00/00/12")) 0 :=
  ⟨(C11_encode_undoes_decode (ChunkFS.mount 1 0x1300) (bytes "/00/00/00/00/00/00/12") 7
      (by decide) (by decide) (by decide) ⟨7, S_IFDIR, 0x1200, 0x1200, none⟩ (by decide)).2.2.1,
   (C11_encode_undoes_decode (ChunkFS.mount 1 0x1300) (bytes "/00/00/00/00/00/00/12") 7
      (by decide) (by decide) (by decide) ⟨7, S_IFDIR, 0x1200, 0x1200, none⟩
      (by decide)).2.2.2.2.2⟩

/-! ### The namespace of ChunkFS is closed under prefixes -/

theorem resolve_fill_mode (m : ChunkFS.Mount) (l r : Nat) :
    ((ChunkFS.resolve_fill m l r).level = 8 → (ChunkFS.resolve_fill m l r).mode = S_IFREG) ∧
    ((ChunkFS.resolve_fill m l r).level < 8 → (ChunkFS.resolve_fill m l r).mode = S_IFDIR) := by
  unfold ChunkFS.resolve_fill
  by_cases h : l / 3 < 8
  · rw [if_pos h]
    exact ⟨fun h8 => absurd h8 (by show ¬ l / 3 = 8; omega), fun _ => rfl⟩
  · rw [if_neg h]
    exact ⟨fun _ => rfl, fun h8 => absurd h8 h⟩

theorem resolve_path_root (m : ChunkFS.Mount) :
    ChunkFS.resolve_path m [47] = Res.ok (ChunkFS.resolve_fill m 1 0) := by
  rw [resolve_path_other m [47] (by rintro ⟨L, h1, _, h⟩; simp at h; omega)]
  simp

/-- A prefix of `k` groups of an accepted path is accepted, with the index of
the prefix. -/
theorem resolve_path_prefix (m : ChunkFS.Mount) (p : List Nat) (L : Nat) (hlen : p.length = 3 * L)
    (st : ChunkFS.chunk_stat) (hres : ChunkFS.resolve_path m p = Res.ok st) (k : Nat)
    (hk1 : 1 ≤ k) (hkL : k ≤ L) :
    ChunkFS.resolve_path m (p.take (3 * k)) =
      Res.ok (ChunkFS.resolve_fill m (3 * k) (spec_index (p.take (3 * k)))) ∧
    spec_index (p.take (3 * k)) ≤ spec_index p := by
  rcases resolve_path_ok_cases m p st hres with ⟨hp, -⟩ | ⟨L', -, h8, hp, hw, hr, -⟩
  · rw [hp] at hlen; simp at hlen; omega
  have hL : L' = L := by omega
  subst hL
  have htl : (p.take (3 * k)).length = 3 * k := by rw [List.length_take]; omega
  have hsplit : p.take (3 * k) ++ p.drop (3 * k) = p := List.take_append_drop _ _
  have hwt : wf_groups (p.take (3 * k)) = true := by
    have := wf_groups_append k (p.take (3 * k)) (p.drop (3 * k)) htl
    rw [hsplit, hw] at this
    cases h : wf_groups (p.take (3 * k))
    · rw [h] at this; simp at this
    · rfl
  have hidx : spec_index (p.take (3 * k)) ≤ spec_index p := by
    have := spec_index_from_append k (p.take (3 * k)) (p.drop (3 * k)) 0 htl
    rw [hsplit] at this
    unfold spec_index
    omega
  refine ⟨?_, hidx⟩
  rw [resolve_path_groups m _ k hk1 (by omega) htl, if_pos ⟨hwt, by omega⟩, htl]

/-- C15: with an accepted path of `L >= 1` groups, `resolve_path` accepts the
root and every proper prefix of `k` groups (`1 <= k < L`) as a directory at
level `k < 8`; and an accepted path is a regular file at level 8 and a
directory at every level below 8. -/
theorem C15_prefix_closed (m : ChunkFS.Mount) (p : List Nat) (L : Nat) (hL1 : 1 ≤ L)
    (hlen : p.length = 3 * L) (st : ChunkFS.chunk_stat)
    (hres : ChunkFS.resolve_path m p = Res.ok st) :
    (∃ st0, ChunkFS.resolve_path m [47] = Res.ok st0 ∧ st0.level = 0 ∧ st0.mode = S_IFDIR) ∧
    (∀ k, 1 ≤ k → k < L →
      ∃ stk, ChunkFS.resolve_path m (p.take (3 * k)) = Res.ok stk ∧ stk.level = k ∧ k < 8 ∧
        stk.mode = S_IFDIR ∧ stk.chunk ≤ st.chunk) ∧
    (∀ q sq, ChunkFS.resolve_path m q = Res.ok sq →
      (sq.level = 8 → sq.mode = S_IFREG) ∧ (sq.level < 8 → sq.mode = S_IFDIR)) := by
  refine ⟨⟨_, resolve_path_root m, rfl, rfl⟩, ?_, ?_⟩
  · intro k hk1 hkL
    obtain ⟨hpre, hle⟩ := resolve_path_prefix m p L hlen st hres k hk1 (by omega)
    rcases resolve_path_ok_cases m p st hres with ⟨hp, -⟩ | ⟨L', -, h8, hp, -, -, hst⟩
    · rw [hp] at hlen; simp at hlen; omega
    obtain ⟨hl, hc, -⟩ := resolve_fill_level m (3 * k) (spec_index (p.take (3 * k)))
    have hk8 : k < 8 := by omega
    have hlk : (ChunkFS.resolve_fill m (3 * k) (spec_index (p.take (3 * k)))).level = k := by
      rw [hl]; omega
    refine ⟨_, hpre, hlk, hk8, ?_, ?_⟩
    · exact (resolve_fill_mode m _ _).2 (by rw [hlk]; exact hk8)
    · rw [hc, hst, (resolve_fill_level m p.length (spec_index p)).2.1]
      exact hle
  · intro q sq hq
    rcases resolve_path_ok_cases m q sq hq with ⟨-, hst⟩ | ⟨-, -, -, -, -, -, hst⟩
    · rw [hst]; exact resolve_fill_mode m _ _
    · rw [hst]; exact resolve_fill_mode m _ _

theorem C15_prefix_closed_witness :
    ∃ stk, ChunkFS.resolve_path (ChunkFS.mount 4 10)
        ((bytes "/00/00/00/00/00/00/00/02").take (3 * 3)) = Res.ok stk ∧
      stk.level = 3 ∧ 3 < 8 ∧ stk.mode = S_IFDIR ∧ stk.chunk ≤ 2 :=
  (C15_prefix_closed (ChunkFS.mount 4 10) (bytes "/00/00/00/00/00/00/00/02") 8 (by decide)
    (by decide) ⟨8, S_IFREG, 2, 8, some 2⟩ (by decide)).2.1 3 (by decide) (by decide)

/-! ### Opening for writing -/

/-- C14, as amended: in both filesystems an open whose access mode is not
`O_RDONLY` fails with `-EROFS` on every path `resolve_path` accepts, and with
the error of `resolve_path` (`-ENOENT`) on a path it rejects. -/
theorem C14_open_not_read_only (m : ChunkFS.Mount) (path : List Nat) (flags : Nat)
    (hacc : flags &&& O_ACCMODE ≠ O_RDONLY) :
    (∀ st, ChunkFS.resolve_path m path = Res.ok st →
      ChunkFS.chunkfs_open m path flags = Res.err (-EROFS)) ∧
    (ChunkFS.resolve_path m path = Res.err (-ENOENT) →
      ChunkFS.chunkfs_open m path flags = Res.err (-ENOENT)) ∧
    (∀ mode, UnChunkFS.resolve_path path = Res.ok mode →
      UnChunkFS.unchunkfs_open path flags = Res.err (-EROFS)) ∧
    (UnChunkFS.resolve_path path = Res.err (-ENOENT) →
      UnChunkFS.unchunkfs_open path flags = Res.err (-ENOENT)) := by
  refine ⟨?_, ?_, ?_, ?_⟩
  · intro st h
    unfold ChunkFS.chunkfs_open
    rw [h]
    simp only [hacc, not_false_eq_true, if_true, ne_eq]
  · intro h
    unfold ChunkFS.chunkfs_open
    rw [h]
  · intro mode h
    unfold UnChunkFS.unchunkfs_open
    rw [h]
    simp only [hacc, not_false_eq_true, if_true, ne_eq]
  · intro h
    unfold UnChunkFS.unchunkfs_open
    rw [h]

theorem C14_open_not_read_only_witness :
    ChunkFS.chunkfs_open (ChunkFS.mount 4 10) (bytes "/00/00/00/00/00/00/00/02") 1 =
      Res.err (-EROFS) ∧
    UnChunkFS.unchunkfs_open (bytes "/image") 2 = Res.err (-EROFS) :=
  ⟨(C14_open_not_read_only (ChunkFS.mount 4 10) (bytes "/00/00/00/00/00/00/00/02") 1
      (by decide)).1 ⟨8, S_IFREG, 2, 8, some 2⟩ (by decide),
   (C14_open_not_read_only (ChunkFS.mount 4 10) (bytes "/image") 2
      (by decide)).2.2.1 S_IFREG (by decide)⟩

/-- C14 as stated fails: on a path that does not exist an open for writing
returns `-ENOENT`, not `-EROFS`, in both filesystems. -/
theorem C14_counterexample :
    ¬ (∀ (m : ChunkFS.Mount) (path : List Nat) (flags : Nat), flags &&& O_ACCMODE ≠ O_RDONLY →
      ChunkFS.chunkfs_open m path flags = Res.err (-EROFS) ∧
      UnChunkFS.unchunkfs_open path flags = Res.err (-EROFS)) := by
  intro h
  have h1 := (h (ChunkFS.mount 4 10) (bytes "/zz") 1 (by decide)).1
  revert h1
  decide

/-! ### Counting and looking up the children of a directory -/

/-- What `chunkfs_readdir` hands to `filler` on an accepted directory. -/
theorem chunkfs_readdir_accepted (m : ChunkFS.Mount) (p : List Nat) (st : ChunkFS.chunk_stat)
    (h : ChunkFS.resolve_path m p = Res.ok st) (hdir : S_ISDIR st.mode = true) :
    ChunkFS.chunkfs_readdir m p =
      Res.ok ([[46], [46, 46]] ++
        ((List.range 256).filter
          (fun x => decide (spec_index p + x * 256 ^ (7 - p.length / 3) < m.image_chunks))).map
          spec_hex2) := by
  obtain ⟨hl, h7, hc, hno⟩ := child_index_lt m p st h hdir
  unfold ChunkFS.chunkfs_readdir
  simp only [h, hdir, not_true_eq_false, if_false]
  rw [chunks_per_entry_eq st.level h7, readdir_loop_eq m st _ hno 256 0 _ (by norm_num),
    List.range_eq_range', hc, hl]

theorem child_slot_iff (b w ic x : Nat) (hw : 0 < w) :
    b + x * w < ic ↔ x < (ic - b + w - 1) / w := by
  have := @Nat.le_div_iff_mul_le w (x + 1) (ic - b + w - 1) hw
  rw [Nat.add_mul, Nat.one_mul] at this
  constructor
  · intro h
    exact this.mpr (by omega)
  · intro h
    have := this.mp h
    omega

theorem filter_lt_length (T : Nat) (n : Nat) :
    ((List.range n).filter (fun x => decide (x < T))).length = min n T := by
  induction n with
  | zero => simp
  | succ n ih =>
    rw [List.range_succ, List.filter_append, List.length_append, ih]
    by_cases h : n < T
    · simp [h]; omega
    · simp [h]; omega

theorem children_count (b w ic : Nat) (hw : 0 < w) :
    ((List.range 256).filter (fun x => decide (b + x * w < ic))).length =
      min 256 ((ic - b + w - 1) / w) := by
  rw [← filter_lt_length]
  congr 1
  apply List.filter_congr
  intro x _
  rw [decide_eq_decide]
  exact child_slot_iff b w ic x hw

/-- C16, as amended: the number of child entries `chunkfs_readdir` lists for an
accepted directory at level `L` with prefix base index `b` is
`min(256, ceil((image_chunks - b) / 256^(7-L)))`, which is
`min(256, image_chunks - b)` at level 7. -/
theorem C16_children_count (m : ChunkFS.Mount) (p : List Nat) (st : ChunkFS.chunk_stat)
    (h : ChunkFS.resolve_path m p = Res.ok st) (hdir : S_ISDIR st.mode = true) :
    ∃ names, ChunkFS.chunkfs_readdir m p = Res.ok ([[46], [46, 46]] ++ names) ∧
      names.length =
        min 256 ((m.image_chunks - st.chunk + 256 ^ (7 - st.level) - 1) / 256 ^ (7 - st.level)) ∧
      (st.level = 7 → names.length = min 256 (m.image_chunks - st.chunk)) := by
  obtain ⟨hl, h7, hc, -⟩ := child_index_lt m p st h hdir
  have hcount := children_count (spec_index p) (256 ^ (7 - p.length / 3)) m.image_chunks
    (pow_pos (by norm_num) _)
  refine ⟨_, chunkfs_readdir_accepted m p st h hdir, ?_, ?_⟩
  · rw [List.length_map, hcount, hc, hl]
  · intro h7'
    rw [List.length_map, hcount, ← hl, h7']
    simp [hc]

theorem C16_children_count_witness :
    ∃ names, ChunkFS.chunkfs_readdir (ChunkFS.mount 1 0x1300) (bytes "/00/00/00/00/00/00") =
        Res.ok ([[46], [46, 46]] ++ names) ∧
      names.length = min 256 ((0x1300 - 0 + 256 ^ (7 - 6) - 1) / 256 ^ (7 - 6)) ∧
      (6 = 7 → names.length = min 256 (0x1300 - 0)) :=
  C16_children_count (ChunkFS.mount 1 0x1300) (bytes "/00/00/00/00/00/00")
    ⟨6, S_IFDIR, 0, 0, none⟩ (by decide) (by decide)

/-- C16 as stated fails: the root of an image of 3 chunks lists one child,
`00`, not `min(256, 3 - 0) = 3`. -/
theorem C16_counterexample :
    ¬ (∀ (m : ChunkFS.Mount) (p : List Nat) (st : ChunkFS.chunk_stat) (names : List (List Nat)),
      ChunkFS.resolve_path m p = Res.ok st → S_ISDIR st.mode = true →
      ChunkFS.chunkfs_readdir m p = Res.ok ([[46], [46, 46]] ++ names) →
      names.length = min 256 (m.image_chunks - st.chunk)) := by
  intro h
  have h1 := h (ChunkFS.mount 4 10) (bytes "/") ⟨0, S_IFDIR, 0, 0, none⟩ [bytes "00"]
    (by decide) (by decide) (by decide)
  revert h1
  decide

theorem spec_hex2_iff (a b : Nat) (x : Nat) (hx : x < 256) :
    spec_hex2 x = [a, b] ↔ is_hex a ∧ is_hex b ∧ x = 16 * hex_val a + hex_val b := by
  unfold spec_hex2
  have h1 : x / 16 < 16 := by omega
  have h2 : x % 16 < 16 := by omega
  constructor
  · intro h
    simp only [List.cons.injEq, and_true] at h
    obtain ⟨ha, hb⟩ := h
    refine ⟨by rw [← ha]; exact spec_digit_is_hex _ h1, by rw [← hb]; exact spec_digit_is_hex _ h2,
      ?_⟩
    rw [← ha, ← hb, hex_val_spec_digit _ h1, hex_val_spec_digit _ h2]
    omega
  · rintro ⟨ha, hb, hxe⟩
    have := hex_val_lt a ha
    have := hex_val_lt b hb
    have e1 : x / 16 = hex_val a := by omega
    have e2 : x % 16 = hex_val b := by omega
    rw [e1, e2, spec_digit_hex_val a ha, spec_digit_hex_val b hb]

/-- Whether the child `[a, b]` of an accepted directory can be looked up. -/
theorem resolve_child_iff (m : ChunkFS.Mount) (p : List Nat) (st : ChunkFS.chunk_stat)
    (h : ChunkFS.resolve_path m p = Res.ok st) (hdir : S_ISDIR st.mode = true) (a b : Nat) :
    (∃ stc, ChunkFS.resolve_path m (child_path p [a, b]) = Res.ok stc) ↔
      is_hex a ∧ is_hex b ∧
      spec_index p + (16 * hex_val a + hex_val b) * 256 ^ (7 - p.length / 3) < m.image_chunks := by
  have key : ∀ (q : List Nat) (L : Nat), q.length = 3 * L → L ≤ 7 → wf_groups q = true →
      ((∃ stc, ChunkFS.resolve_path m (q ++ [47, a, b]) = Res.ok stc) ↔
        is_hex a ∧ is_hex b ∧
        spec_index q + (16 * hex_val a + hex_val b) * 256 ^ (7 - L) < m.image_chunks) := by
    intro q L hq hL hw
    have hlen : (q ++ [47, a, b]).length = 3 * (L + 1) := by
      rw [List.length_append, hq]; simp; omega
    have hwf : wf_groups (q ++ [47, a, b]) = decide (is_hex a ∧ is_hex b) := by
      rw [wf_groups_append L q _ hq, hw]
      simp [wf_groups]
    have hidx : spec_index (q ++ [47, a, b]) =
        spec_index q + (16 * hex_val a + hex_val b) * 256 ^ (7 - L) := by
      unfold spec_index
      rw [spec_index_from_append L q _ 0 hq]
      simp [spec_index_from]
    rw [resolve_path_groups m _ (L + 1) (by omega) (by omega) hlen, hwf, hidx]
    constructor
    · rintro ⟨stc, hc⟩
      by_cases hcond : decide (is_hex a ∧ is_hex b) = true ∧
          spec_index q + (16 * hex_val a + hex_val b) * 256 ^ (7 - L) < m.image_chunks
      · obtain ⟨h1, h2⟩ := hcond
        have := of_decide_eq_true h1
        exact ⟨this.1, this.2, h2⟩
      · rw [if_neg hcond] at hc; cases hc
    · rintro ⟨ha, hb, hlt⟩
      rw [if_pos ⟨decide_eq_true ⟨ha, hb⟩, hlt⟩]
      exact ⟨_, rfl⟩
  rcases resolve_path_ok_cases m p st h with ⟨hp, -⟩ | ⟨L, h1, h8, hp, hw, -, hst⟩
  · subst hp
    have := key [] 0 rfl (by omega) rfl
    simpa [child_path, spec_index, spec_index_from] using this
  · obtain ⟨hl, -, hd⟩ := resolve_fill_level m p.length (spec_index p)
    rw [← hst] at hl hd
    have hL7 : p.length / 3 < 8 := hd.mp hdir
    have hne : p ≠ [47] := by intro hc; rw [hc] at hp; simp at hp; omega
    have hpl : p.length / 3 = L := by omega
    unfold child_path
    rw [if_neg hne, hpl]
    exact key p L hp (by omega) hw

/-- C19, as amended: for an accepted directory and every two-character name
other than `..`, `chunkfs_readdir` lists the name exactly when `resolve_path`
accepts the child path. -/
theorem C19_listing_agrees_with_lookup (m : ChunkFS.Mount) (p : List Nat)
    (st : ChunkFS.chunk_stat) (h : ChunkFS.resolve_path m p = Res.ok st)
    (hdir : S_ISDIR st.mode = true) (a b : Nat) (hdots : [a, b] ≠ [46, 46]) :
    ∃ names, ChunkFS.chunkfs_readdir m p = Res.ok names ∧
      ([a, b] ∈ names ↔ ∃ stc, ChunkFS.resolve_path m (child_path p [a, b]) = Res.ok stc) := by
  refine ⟨_, chunkfs_readdir_accepted m p st h hdir, ?_⟩
  rw [resolve_child_iff m p st h hdir a b]
  simp only [List.mem_append, List.mem_cons, List.mem_singleton, List.not_mem_nil, or_false,
    List.mem_map, List.mem_filter, List.mem_range, decide_eq_true_eq]
  constructor
  · rintro ((h1 | h1) | ⟨x, ⟨hx, hlt⟩, hxe⟩)
    · simp at h1
    · exact absurd h1 hdots
    · obtain ⟨ha, hb, he⟩ := (spec_hex2_iff a b x hx).mp hxe
      exact ⟨ha, hb, by rw [← he]; exact hlt⟩
  · rintro ⟨ha, hb, hlt⟩
    right
    have := hex_val_lt a ha
    have := hex_val_lt b hb
    refine ⟨16 * hex_val a + hex_val b, ⟨by omega, hlt⟩, ?_⟩
    exact (spec_hex2_iff a b _ (by omega)).mpr ⟨ha, hb, rfl⟩

theorem C19_listing_agrees_with_lookup_witness :
    ∃ names, ChunkFS.chunkfs_readdir (ChunkFS.mount 4 10) (bytes "/00/00/00/00/00/00/00") =
        Res.ok names ∧
      (bytes "02" ∈ names ↔
        ∃ stc, ChunkFS.resolve_path (ChunkFS.mount 4 10)
          (child_path (bytes "/00/00/00/00/00/00/00") (bytes "02")) = Res.ok stc) :=
  C19_listing_agrees_with_lookup (ChunkFS.mount 4 10) (bytes "/00/00/00/00/00/00/00")
    ⟨7, S_IFDIR, 0, 0, none⟩ (by decide) (by decide) 48 50 (by decide)

/-- C19 as stated fails: every directory lists the two-character name `..`,
which `resolve_path` does not accept as a child. -/
theorem C19_counterexample :
    ¬ (∀ (m : ChunkFS.Mount) (p : List Nat) (st : ChunkFS.chunk_stat) (names : List (List Nat))
        (a b : Nat),
      ChunkFS.resolve_path m p = Res.ok st → S_ISDIR st.mode = true →
      ChunkFS.chunkfs_readdir m p = Res.ok names →
      ([a, b] ∈ names ↔ ∃ stc, ChunkFS.resolve_path m (child_path p [a, b]) = Res.ok stc)) := by
  intro h
  have h1 := (h (ChunkFS.mount 4 10) (bytes "/") ⟨0, S_IFDIR, 0, 0, none⟩
    [bytes ".", bytes "..", bytes "00"] 46 46 (by decide) (by decide) (by decide)).mp (by decide)
  obtain ⟨stc, hc⟩ := h1
  have he : ChunkFS.resolve_path (ChunkFS.mount 4 10) (child_path (bytes "/") [46, 46]) =
      Res.err (-ENOENT) := by decide
  rw [he] at hc
  cases hc

/-! ### The reads with the system calls they make -/

theorem chunkfs_read_loop_calls_fst (pread : Nat → Nat → PreadRes) (base count : Nat) :
    ∀ (fuel bufpos : Nat) (buf : List Nat) (calls : List (Nat × Nat)),
      (ChunkFS.chunkfs_read_loop_calls pread base count fuel bufpos buf calls).map Prod.fst =
        ChunkFS.chunkfs_read_loop pread base count fuel bufpos buf := by
  intro fuel
  induction fuel with
  | zero =>
    intro bufpos buf calls
    rw [ChunkFS.chunkfs_read_loop_calls, ChunkFS.chunkfs_read_loop]
    by_cases h : bufpos < count <;> simp [h]
  | succ fuel ih =>
    intro bufpos buf calls
    rw [ChunkFS.chunkfs_read_loop_calls, ChunkFS.chunkfs_read_loop]
    by_cases h : bufpos < count
    · simp only [h, if_true]
      cases hp : pread (count - bufpos) (base + bufpos) with
      | error e => simp
      | data bs =>
        simp only []
        by_cases h0 : (List.take (count - bufpos) bs).length = 0
        · simp [h0]
        · rw [if_neg h0, if_neg h0]
          exact ih _ _ _
    · simp [h]

/-- The traced `chunkfs_read` returns what `chunkfs_read` returns. -/
theorem chunkfs_read_calls_fst (m : ChunkFS.Mount) (pread : Nat → Nat → PreadRes)
    (path : List Nat) (count offset : Nat) :
    (ChunkFS.chunkfs_read_calls m pread path count offset).map Prod.fst =
      ChunkFS.chunkfs_read m pread path count offset := by
  unfold ChunkFS.chunkfs_read_calls ChunkFS.chunkfs_read
  cases ChunkFS.resolve_path m path with
  | err r => rfl
  | die => rfl
  | ok st =>
    simp only []
    by_cases h1 : S_ISDIR st.mode = true
    · simp [h1]
    · by_cases h2 : count > INT_MAX
      · simp [h1, h2]
      · by_cases h3 : count > SSIZE_MAX
        · simp [h1, h2, h3]
        · simp only [h1, h2, h3, if_false, Bool.false_eq_true]
          exact chunkfs_read_loop_calls_fst _ _ _ _ _ _ _

theorem unchunkfs_read_loop_calls_fst (d : UnChunkFS.ChunkDir) (cs offset count : Nat) :
    ∀ (fuel bufpos : Nat) (buf : List Nat) (calls : List UnChunkFS.Call),
      (UnChunkFS.unchunkfs_read_loop_calls d cs offset count fuel bufpos buf calls).map Prod.fst =
        UnChunkFS.unchunkfs_read_loop d cs offset count fuel bufpos buf := by
  intro fuel
  induction fuel with
  | zero =>
    intro bufpos buf calls
    rw [UnChunkFS.unchunkfs_read_loop_calls, UnChunkFS.unchunkfs_read_loop]
    by_cases h : bufpos < count <;> simp [h]
  | succ fuel ih =>
    intro bufpos buf calls
    rw [UnChunkFS.unchunkfs_read_loop_calls, UnChunkFS.unchunkfs_read_loop]
    by_cases h : bufpos < count
    · simp only [h, if_true]
      by_cases ho : d.openOk (UnChunkFS.chunk_name ((offset + bufpos) / cs)) = true
      · simp only [ho, not_true_eq_false, if_false]
        cases hp : d.pread (UnChunkFS.chunk_name ((offset + bufpos) / cs)) (count - bufpos)
            ((offset + bufpos) % cs) with
        | error e =>
          simp only []
          by_cases hc : d.closeOk (UnChunkFS.chunk_name ((offset + bufpos) / cs)) = true
          · simp [hc]
          · simp [hc]
        | data bs =>
          simp only []
          by_cases hc : d.closeOk (UnChunkFS.chunk_name ((offset + bufpos) / cs)) = true
          · simp only [hc, not_true_eq_false, if_false]
            by_cases h0 : (List.take (count - bufpos) bs).length = 0
            · simp [h0]
            · rw [if_neg h0, if_neg h0]
              exact ih _ _ _
          · simp [hc]
      · simp [ho]
    · simp [h]

/-- The traced `unchunkfs_read` returns what `unchunkfs_read` returns. -/
theorem unchunkfs_read_calls_fst (m : UnChunkFS.Mount) (d : UnChunkFS.ChunkDir) (done : Bool)
    (path : List Nat) (count offset : Nat) :
    (UnChunkFS.unchunkfs_read_calls m d done path count offset).map Prod.fst =
      UnChunkFS.unchunkfs_read m d done path count offset := by
  unfold UnChunkFS.unchunkfs_read_calls UnChunkFS.unchunkfs_read
  by_cases hc : (UnChunkFS.ensure_chunkdir_is_cwd d done).1 = true
  · simp only [hc, not_true_eq_false, if_false]
    cases UnChunkFS.resolve_path path with
    | err r => rfl
    | die => rfl
    | ok mode =>
      simp only []
      by_cases h1 : S_ISDIR mode = true
      · simp [h1]
      · by_cases h2 : count > INT_MAX
        · simp [h1, h2]
        · by_cases h3 : count > SSIZE_MAX
          · simp [h1, h2, h3]
          · simp only [h1, h2, h3, if_false, Bool.false_eq_true]
            exact unchunkfs_read_loop_calls_fst _ _ _ _ _ _ _ _
  · simp [hc]

/-! ### Where ChunkFS reads, and reads at the end of a file -/

/-- The loop of `chunkfs_read` ends, and every `pread` it issues asks for the
bytes from the current position to the end of the effective range. -/
theorem chunkfs_read_loop_calls_spec (pread : Nat → Nat → PreadRes) (base count : Nat) :
    ∀ (fuel bufpos : Nat) (buf : List Nat) (calls : List (Nat × Nat)), count - bufpos ≤ fuel →
      ∃ r calls', ChunkFS.chunkfs_read_loop_calls pread base count fuel bufpos buf calls =
          some (r, calls') ∧
        ∀ e, e ∈ calls' → e ∈ calls ∨ ∃ b, b < count ∧ e = (count - b, base + b) := by
  intro fuel
  induction fuel with
  | zero =>
    intro bufpos buf calls hf
    rw [ChunkFS.chunkfs_read_loop_calls, if_neg (by omega)]
    exact ⟨_, _, rfl, fun e he => Or.inl he⟩
  | succ fuel ih =>
    intro bufpos buf calls hf
    rw [ChunkFS.chunkfs_read_loop_calls]
    by_cases h : bufpos < count
    · simp only [h, if_true]
      have hnew : ∀ e, e ∈ calls ++ [(count - bufpos, base + bufpos)] →
          e ∈ calls ∨ ∃ b, b < count ∧ e = (count - b, base + b) := by
        intro e he
        rcases List.mem_append.mp he with h1 | h1
        · exact Or.inl h1
        · exact Or.inr ⟨bufpos, h, by simpa using h1⟩
      cases hp : pread (count - bufpos) (base + bufpos) with
      | error e => exact ⟨_, _, rfl, hnew⟩
      | data bs =>
        simp only []
        by_cases h0 : (List.take (count - bufpos) bs).length = 0
        · rw [if_pos h0]; exact ⟨_, _, rfl, hnew⟩
        · rw [if_neg h0]
          obtain ⟨r, calls', hr, hc⟩ := ih (bufpos + (List.take (count - bufpos) bs).length)
            (buf ++ List.take (count - bufpos) bs)
            (calls ++ [(count - bufpos, base + bufpos)]) (by omega)
          refine ⟨r, calls', hr, fun e he => ?_⟩
          rcases hc e he with h1 | h1
          · exact hnew e h1
          · exact Or.inr h1
    · rw [if_neg h]
      exact ⟨_, _, rfl, fun e he => Or.inl he⟩

/-- An accepted leaf path: its chunk starts inside the image and its size is the
length of the chunk. -/
theorem accepted_leaf (cs is : Nat) (hcs : 1 ≤ cs) (p : List Nat) (st : ChunkFS.chunk_stat)
    (hres : ChunkFS.resolve_path (ChunkFS.mount cs is) p = Res.ok st)
    (hfile : S_ISDIR st.mode = false) :
    st.chunk < (ChunkFS.mount cs is).image_chunks ∧ st.offset = st.chunk * cs ∧
    st.size = some (spec_chunk_len cs is st.chunk : Int) := by
  rcases resolve_path_ok_cases _ p st hres with ⟨_, hst⟩ | ⟨L, h1, h8, hp, hw, hr, hst⟩
  · subst hst; simp [ChunkFS.resolve_fill, S_ISDIR_dir] at hfile
  obtain ⟨hl, hc, hd⟩ := resolve_fill_level (ChunkFS.mount cs is) p.length (spec_index p)
  rw [← hst] at hl hc hd
  have hL : p.length = 24 := by
    have : ¬ p.length / 3 < 8 := fun h => by rw [hd.mpr h] at hfile; cases hfile
    omega
  rw [hL, resolve_fill_leaf] at hst
  have hi : st.chunk < (ChunkFS.mount cs is).image_chunks := by rw [hc]; exact hr
  refine ⟨hi, by rw [hst]; rfl, ?_⟩
  rw [← (spec_chunk_len_eq cs is st.chunk hcs hi).1, hc]
  rw [hst]
  rfl

/-- C20: for an accepted leaf path with chunk index `i` and size `s`,
`i*chunk_size < image_size`, and every `pread` that `chunkfs_read` issues on the
backing image, at position `p` for `m` bytes, has `i*chunk_size <= p` and
`p + m <= i*chunk_size + s <= image_size`, whatever the `pread` calls return. -/
theorem C20_read_stays_in_chunk (chunk_size image_size : Nat) (hcs : 1 ≤ chunk_size)
    (pread : Nat → Nat → PreadRes) (p : List Nat) (st : ChunkFS.chunk_stat) (s : Int)
    (hres : ChunkFS.resolve_path (ChunkFS.mount chunk_size image_size) p = Res.ok st)
    (hfile : S_ISDIR st.mode = false) (hs : st.size = some s)
    (count offset : Nat) (hcount : count ≤ INT_MAX) :
    st.chunk * chunk_size < image_size ∧
    (image_size ≤ OFF_T_MAX → st.chunk * chunk_size < 2 ^ 63) ∧
    (st.chunk * chunk_size : Int) + s ≤ image_size ∧
    ∃ r calls, ChunkFS.chunkfs_read_calls (ChunkFS.mount chunk_size image_size) pread p
        count offset = some (r, calls) ∧
      ∀ mm pp, (mm, pp) ∈ calls →
        st.chunk * chunk_size ≤ pp ∧ ((pp + mm : Nat) : Int) ≤ (st.chunk * chunk_size : Int) + s := by
  obtain ⟨hi, hoff, hsize⟩ := accepted_leaf chunk_size image_size hcs p st hres hfile
  obtain ⟨-, hs1, hs2, hfit, -, -⟩ := spec_chunk_len_eq chunk_size image_size st.chunk hcs hi
  have hstart := (mount_chunks_bounds chunk_size image_size hcs).2 st.chunk hi
  have hse : s = (spec_chunk_len chunk_size image_size st.chunk : Int) := by
    rw [hs] at hsize; exact Option.some.inj hsize
  subst hse
  have hprod : ((st.chunk * chunk_size : Nat) : Int) = (st.chunk : Int) * (chunk_size : Int) := by
    push_cast; rfl
  refine ⟨hstart, fun h => by unfold OFF_T_MAX at h; omega, by rw [← hprod]; omega, ?_⟩
  unfold ChunkFS.chunkfs_read_calls
  have hc1 : ¬ count > INT_MAX := by omega
  have hc2 : ¬ count > SSIZE_MAX := by
    unfold INT_MAX at hcount; unfold SSIZE_MAX; omega
  simp only [hres, hfile, hc1, hc2, if_false, hs, Option.getD_some, hoff, Bool.false_eq_true]
  generalize hn : (min (count : Int) (max ((spec_chunk_len chunk_size image_size st.chunk : Int)
    - (offset : Int)) 0)).toNat = n
  have hnle : n ≤ spec_chunk_len chunk_size image_size st.chunk - offset := by omega
  obtain ⟨r, calls, hr, hcalls⟩ := chunkfs_read_loop_calls_spec pread
    (st.chunk * chunk_size + offset) n n 0 [] [] (by omega)
  refine ⟨r, calls, hr, ?_⟩
  intro mm pp hmem
  rcases hcalls _ hmem with h1 | ⟨b, hb, he⟩
  · simp at h1
  · simp only [Prod.mk.injEq] at he
    obtain ⟨e1, e2⟩ := he
    subst e1 e2
    rw [← hprod]
    generalize st.chunk * chunk_size = base at *
    omega

theorem C20_read_stays_in_chunk_witness :
    ∃ r calls, ChunkFS.chunkfs_read_calls (ChunkFS.mount 4 10)
        (full_pread [10, 11, 12, 13, 14, 15, 16, 17, 18, 19])
        (bytes "/00/00/00/00/00/00/00/02") 4096 1 = some (r, calls) ∧
      ∀ mm pp, (mm, pp) ∈ calls → 2 * 4 ≤ pp ∧ ((pp + mm : Nat) : Int) ≤ ((2 * 4 : Nat) : Int) + 2 :=
  (C20_read_stays_in_chunk 4 10 (by decide) (full_pread [10, 11, 12, 13, 14, 15, 16, 17, 18, 19])
    (bytes "/00/00/00/00/00/00/00/02") ⟨8, S_IFREG, 2, 8, some 2⟩ 2 (by decide) (by decide) rfl
    4096 1 (by decide)).2.2.2

/-- How the loop of `chunkfs_read` can end: with the error of a failed `pread`,
with `-EIO`, or with all `count` bytes. -/
theorem chunkfs_read_loop_outcome (pread : Nat → Nat → PreadRes) (base count : Nat) :
    ∀ (fuel bufpos : Nat) (buf : List Nat), bufpos ≤ count → count - bufpos ≤ fuel →
      buf.length = bufpos →
      (∃ c, (c = - EIO ∨ ∃ n pos e, pread n pos = PreadRes.error e ∧ c = -e) ∧
        ChunkFS.chunkfs_read_loop pread base count fuel bufpos buf = some (Res.err c)) ∨
      (∃ b, b.length = count ∧
        ChunkFS.chunkfs_read_loop pread base count fuel bufpos buf = some (Res.ok (count, b))) := by
  intro fuel
  induction fuel with
  | zero =>
    intro bufpos buf h1 h2 h3
    have : bufpos = count := by omega
    subst this
    right
    rw [ChunkFS.chunkfs_read_loop, if_neg (lt_irrefl _)]
    exact ⟨buf, h3, rfl⟩
  | succ fuel ih =>
    intro bufpos buf h1 h2 h3
    rw [ChunkFS.chunkfs_read_loop]
    by_cases h : bufpos < count
    · simp only [h, if_true]
      cases hp : pread (count - bufpos) (base + bufpos) with
      | error e => exact Or.inl ⟨-e, Or.inr ⟨_, _, e, hp, rfl⟩, rfl⟩
      | data bs =>
        simp only []
        have hle : (List.take (count - bufpos) bs).length ≤ count - bufpos :=
          List.length_take_le _ _
        by_cases h0 : (List.take (count - bufpos) bs).length = 0
        · rw [if_pos h0]; exact Or.inl ⟨- EIO, Or.inl rfl, rfl⟩
        · rw [if_neg h0]
          exact ih _ _ (by omega) (by omega) (by rw [List.length_append, h3])
    · have : bufpos = count := by omega
      subst this
      right
      rw [if_neg h]
      exact ⟨buf, h3, rfl⟩

/-- How the loop of `unchunkfs_read` can end: with the error of a failed
`pread`, with `-EIO`, with all `count` bytes, or in `die` after a failed
`close`. -/
theorem unchunkfs_read_loop_outcome (d : UnChunkFS.ChunkDir) (cs offset count : Nat) :
    ∀ (fuel bufpos : Nat) (buf : List Nat), bufpos ≤ count → count - bufpos ≤ fuel →
      buf.length = bufpos →
      (∃ c, (c = - EIO ∨ ∃ name n pos e, d.pread name n pos = PreadRes.error e ∧ c = -e) ∧
        UnChunkFS.unchunkfs_read_loop d cs offset count fuel bufpos buf = some (Res.err c)) ∨
      (∃ b, b.length = count ∧
        UnChunkFS.unchunkfs_read_loop d cs offset count fuel bufpos buf =
          some (Res.ok (count, b))) ∨
      ((∃ name, d.closeOk name = false) ∧
        UnChunkFS.unchunkfs_read_loop d cs offset count fuel bufpos buf = some Res.die) := by
  intro fuel
  induction fuel with
  | zero =>
    intro bufpos buf h1 h2 h3
    have : bufpos = count := by omega
    subst this
    right; left
    rw [UnChunkFS.unchunkfs_read_loop, if_neg (lt_irrefl _)]
    exact ⟨buf, h3, rfl⟩
  | succ fuel ih =>
    intro bufpos buf h1 h2 h3
    rw [UnChunkFS.unchunkfs_read_loop]
    by_cases h : bufpos < count
    · simp only [h, if_true]
      by_cases ho : d.openOk (UnChunkFS.chunk_name ((offset + bufpos) / cs)) = true
      · simp only [ho, not_true_eq_false, if_false]
        by_cases hc : d.closeOk (UnChunkFS.chunk_name ((offset + bufpos) / cs)) = true
        · cases hp : d.pread (UnChunkFS.chunk_name ((offset + bufpos) / cs)) (count - bufpos)
              ((offset + bufpos) % cs) with
          | error e =>
            simp only [hc, not_true_eq_false, if_false]
            exact Or.inl ⟨-e, Or.inr ⟨_, _, _, e, hp, rfl⟩, rfl⟩
          | data bs =>
            simp only [hc, not_true_eq_false, if_false]
            have hle : (List.take (count - bufpos) bs).length ≤ count - bufpos :=
              List.length_take_le _ _
            by_cases h0 : (List.take (count - bufpos) bs).length = 0
            · rw [if_pos h0]; exact Or.inl ⟨- EIO, Or.inl rfl, rfl⟩
            · rw [if_neg h0]
              exact ih _ _ (by omega) (by omega) (by rw [List.length_append, h3])
        · have hcf : d.closeOk (UnChunkFS.chunk_name ((offset + bufpos) / cs)) = false := by
            cases hh : d.closeOk (UnChunkFS.chunk_name ((offset + bufpos) / cs))
            · rfl
            · exact absurd hh hc
          right; right
          refine ⟨⟨_, hcf⟩, ?_⟩
          cases hp : d.pread (UnChunkFS.chunk_name ((offset + bufpos) / cs)) (count - bufpos)
              ((offset + bufpos) % cs) with
          | error e => simp [hcf]
          | data bs => simp [hcf]
      · simp only [ho, not_false_eq_true, if_true]
        exact Or.inl ⟨- EIO, Or.inl rfl, rfl⟩
    · have : bufpos = count := by omega
      subst this
      right; left
      rw [if_neg h]
      exact ⟨buf, h3, rfl⟩

theorem chunkfs_read_file (m : ChunkFS.Mount) (pread : Nat → Nat → PreadRes) (p : List Nat)
    (st : ChunkFS.chunk_stat) (s : Int) (hres : ChunkFS.resolve_path m p = Res.ok st)
    (hfile : S_ISDIR st.mode = false) (hs : st.size = some s) (count offset : Nat)
    (hcount : count ≤ INT_MAX) :
    ChunkFS.chunkfs_read m pread p count offset =
      ChunkFS.chunkfs_read_loop pread (st.offset + offset)
        (min (count : Int) (max (s - (offset : Int)) 0)).toNat
        (min (count : Int) (max (s - (offset : Int)) 0)).toNat 0 [] ∧
    ChunkFS.chunkfs_read_calls m pread p count offset =
      ChunkFS.chunkfs_read_loop_calls pread (st.offset + offset)
        (min (count : Int) (max (s - (offset : Int)) 0)).toNat
        (min (count : Int) (max (s - (offset : Int)) 0)).toNat 0 [] [] := by
  have hc1 : ¬ count > INT_MAX := by omega
  have hc2 : ¬ count > SSIZE_MAX := by
    unfold INT_MAX at hcount; unfold SSIZE_MAX; omega
  constructor
  · unfold ChunkFS.chunkfs_read
    simp only [hres, hfile, hc1, hc2, if_false, hs, Option.getD_some, Bool.false_eq_true]
  · unfold ChunkFS.chunkfs_read_calls
    simp only [hres, hfile, hc1, hc2, if_false, hs, Option.getD_some, Bool.false_eq_true]

theorem unchunkfs_read_file (m : UnChunkFS.Mount) (d : UnChunkFS.ChunkDir) (done : Bool)
    (hcwd : (UnChunkFS.ensure_chunkdir_is_cwd d done).1 = true) (count offset : Nat)
    (hcount : count ≤ INT_MAX) :
    UnChunkFS.unchunkfs_read m d done (bytes "/image") count offset =
      UnChunkFS.unchunkfs_read_loop d m.chunk_size offset
        (min (count : Int) (max ((m.image_size : Int) - (offset : Int)) 0)).toNat
        (min (count : Int) (max ((m.image_size : Int) - (offset : Int)) 0)).toNat 0 [] ∧
    UnChunkFS.unchunkfs_read_calls m d done (bytes "/image") count offset =
      UnChunkFS.unchunkfs_read_loop_calls d m.chunk_size offset
        (min (count : Int) (max ((m.image_size : Int) - (offset : Int)) 0)).toNat
        (min (count : Int) (max ((m.image_size : Int) - (offset : Int)) 0)).toNat 0 [] [] := by
  have hc1 : ¬ count > INT_MAX := by omega
  have hc2 : ¬ count > SSIZE_MAX := by
    unfold INT_MAX at hcount; unfold SSIZE_MAX; omega
  have hres : UnChunkFS.resolve_path (bytes "/image") = Res.ok S_IFREG := by decide
  constructor
  · unfold UnChunkFS.unchunkfs_read
    simp only [hcwd, not_true_eq_false, if_false, hres, S_ISDIR_reg, hc1, hc2,
      Bool.false_eq_true]
  · unfold UnChunkFS.unchunkfs_read_calls
    simp only [hcwd, not_true_eq_false, if_false, hres, S_ISDIR_reg, hc1, hc2,
      Bool.false_eq_true]

theorem unchunkfs_read_cwd_fails (m : UnChunkFS.Mount) (d : UnChunkFS.ChunkDir) (done : Bool)
    (hcwd : (UnChunkFS.ensure_chunkdir_is_cwd d done).1 = false) (path : List Nat)
    (count offset : Nat) :
    UnChunkFS.unchunkfs_read m d done path count offset = some (Res.err (- EIO)) ∧
    UnChunkFS.unchunkfs_read_calls m d done path count offset = some (Res.err (- EIO), []) := by
  constructor
  · unfold UnChunkFS.unchunkfs_read
    simp [hcwd]
  · unfold UnChunkFS.unchunkfs_read_calls
    simp [hcwd]

/-- C12, as amended: at an offset at or past the end of the file, with
`count <= INT_MAX`, `chunkfs_read` on an accepted leaf path returns 0 without
any `pread`, and `unchunkfs_read` on `/image` returns 0 without opening or
reading a chunk file when `ensure_chunkdir_is_cwd` succeeds and `-EIO` when it
fails; at an offset inside the file with `offset + count > size` a read that
succeeds returns `size - offset` bytes. -/
theorem C12_read_at_end_of_file (m : ChunkFS.Mount) (pread : Nat → Nat → PreadRes)
    (p : List Nat) (st : ChunkFS.chunk_stat) (s : Int)
    (hres : ChunkFS.resolve_path m p = Res.ok st) (hfile : S_ISDIR st.mode = false)
    (hs : st.size = some s) (um : UnChunkFS.Mount) (d : UnChunkFS.ChunkDir) (done : Bool)
    (count offset : Nat) (hcount : count ≤ INT_MAX) :
    (s ≤ (offset : Int) →
      ChunkFS.chunkfs_read_calls m pread p count offset = some (Res.ok (0, []), [])) ∧
    ((UnChunkFS.ensure_chunkdir_is_cwd d done).1 = true → um.image_size ≤ offset →
      UnChunkFS.unchunkfs_read_calls um d done (bytes "/image") count offset =
        some (Res.ok (0, []), [])) ∧
    ((UnChunkFS.ensure_chunkdir_is_cwd d done).1 = false →
      UnChunkFS.unchunkfs_read_calls um d done (bytes "/image") count offset =
        some (Res.err (- EIO), [])) ∧
    ((offset : Int) < s → s < (offset : Int) + (count : Int) → ∀ n buf,
      ChunkFS.chunkfs_read m pread p count offset = some (Res.ok (n, buf)) →
      (n : Int) = s - (offset : Int) ∧ buf.length = n) ∧
    (offset < um.image_size → um.image_size < offset + count → ∀ n buf,
      UnChunkFS.unchunkfs_read um d done (bytes "/image") count offset = some (Res.ok (n, buf)) →
      n = um.image_size - offset ∧ buf.length = n) := by
  obtain ⟨hrd, hrc⟩ := chunkfs_read_file m pread p st s hres hfile hs count offset hcount
  refine ⟨?_, ?_, ?_, ?_, ?_⟩
  · intro hle
    rw [hrc]
    have : (min (count : Int) (max (s - (offset : Int)) 0)).toNat = 0 := by omega
    rw [this, ChunkFS.chunkfs_read_loop_calls, if_neg (lt_irrefl _)]
  · intro hcwd hle
    rw [(unchunkfs_read_file um d done hcwd count offset hcount).2]
    have : (min (count : Int) (max ((um.image_size : Int) - (offset : Int)) 0)).toNat = 0 := by
      omega
    rw [this, UnChunkFS.unchunkfs_read_loop_calls, if_neg (lt_irrefl _)]
  · intro hcwd
    exact (unchunkfs_read_cwd_fails um d done hcwd _ count offset).2
  · intro h1 h2 n buf hok
    rw [hrd] at hok
    generalize hn : (min (count : Int) (max (s - (offset : Int)) 0)).toNat = eff at hok
    rcases chunkfs_read_loop_outcome pread (st.offset + offset) eff eff 0 [] (Nat.zero_le _)
      (by omega) rfl with ⟨c, -, hc⟩ | ⟨b, hb, hc⟩
    · rw [hc] at hok; cases hok
    · rw [hc] at hok
      cases hok
      exact ⟨by omega, hb⟩
  · intro h1 h2 n buf hok
    by_cases hcwd : (UnChunkFS.ensure_chunkdir_is_cwd d done).1 = true
    · rw [(unchunkfs_read_file um d done hcwd count offset hcount).1] at hok
      generalize hn : (min (count : Int) (max ((um.image_size : Int) - (offset : Int)) 0)).toNat
        = eff at hok
      rcases unchunkfs_read_loop_outcome d um.chunk_size offset eff eff 0 [] (Nat.zero_le _)
        (by omega) rfl with ⟨c, -, hc⟩ | ⟨b, hb, hc⟩ | ⟨-, hc⟩
      · rw [hc] at hok; cases hok
      · rw [hc] at hok
        cases hok
        exact ⟨by omega, hb⟩
      · rw [hc] at hok; cases hok
    · have hf : (UnChunkFS.ensure_chunkdir_is_cwd d done).1 = false := by
        cases hh : (UnChunkFS.ensure_chunkdir_is_cwd d done).1
        · rfl
        · exact absurd hh hcwd
      rw [(unchunkfs_read_cwd_fails um d done hf _ count offset).1] at hok
      cases hok

theorem C12_read_at_end_of_file_witness :
    ChunkFS.chunkfs_read_calls (ChunkFS.mount 4 10)
        (full_pread [10, 11, 12, 13, 14, 15, 16, 17, 18, 19])
        (bytes "/00/00/00/00/00/00/00/02") 4096 2 = some (Res.ok (0, []), []) ∧
    UnChunkFS.unchunkfs_read_calls ⟨4, 10⟩
        (chunkfs_dir (ChunkFS.mount 4 10) [10, 11, 12, 13, 14, 15, 16, 17, 18, 19]) false
        (bytes "/image") 4096 10 = some (Res.ok (0, []), []) :=
  ⟨(C12_read_at_end_of_file (ChunkFS.mount 4 10)
      (full_pread [10, 11, 12, 13, 14, 15, 16, 17, 18, 19])
      (bytes "/00/00/00/00/00/00/00/02") ⟨8, S_IFREG, 2, 8, some 2⟩ 2 (by decide) (by decide) rfl
      ⟨4, 10⟩ (chunkfs_dir (ChunkFS.mount 4 10) [10, 11, 12, 13, 14, 15, 16, 17, 18, 19]) false
      4096 2 (by decide)).1 (by decide),
   (C12_read_at_end_of_file (ChunkFS.mount 4 10)
      (full_pread [10, 11, 12, 13, 14, 15, 16, 17, 18, 19])
      (bytes "/00/00/00/00/00/00/00/02") ⟨8, S_IFREG, 2, 8, some 2⟩ 2 (by decide) (by decide) rfl
      ⟨4, 10⟩ (chunkfs_dir (ChunkFS.mount 4 10) [10, 11, 12, 13, 14, 15, 16, 17, 18, 19]) false
      4096 10 (by decide)).2.1 rfl (by decide)⟩

/-- C12 as stated fails: when the first `fchdir` into the chunk directory
fails, `unchunkfs_read` of `/image` at the end of the file returns `-EIO`, not
0. -/
theorem C12_counterexample :
    ¬ (∀ (um : UnChunkFS.Mount) (d : UnChunkFS.ChunkDir) (done : Bool) (count offset : Nat),
      count ≤ INT_MAX → um.image_size ≤ offset →
      UnChunkFS.unchunkfs_read um d done (bytes "/image") count offset =
        some (Res.ok (0, []))) := by
  intro h
  have h1 := h ⟨4, 10⟩
    ⟨false, fun _ => StatRes.enoent, fun _ => false, fun _ _ _ => PreadRes.data [],
      fun _ => true⟩ false 1 10 (by decide) (by decide)
  revert h1
  decide

/-! ### No short read -/

/-- C13, as amended: on a file, with `count <= INT_MAX` and positive errno
values, `chunkfs_read` returns a negative error code or exactly the effective
length `min(count, max(size - offset, 0))`, and `unchunkfs_read` does the same
or, when a `close` fails, ends the process in `die`; neither returns a smaller
count. In their loops, whatever was read before, `chunkfs_read` returns `-EIO`
when a `pread` delivers 0 bytes, and `unchunkfs_read` returns `-EIO` when the
chunk file cannot be opened, or delivers 0 bytes and is closed without error. -/
theorem C13_never_truncated (m : ChunkFS.Mount) (pread : Nat → Nat → PreadRes)
    (herr : ∀ n pos e, pread n pos = PreadRes.error e → 0 < e)
    (p : List Nat) (st : ChunkFS.chunk_stat) (s : Int)
    (hres : ChunkFS.resolve_path m p = Res.ok st) (hfile : S_ISDIR st.mode = false)
    (hs : st.size = some s) (um : UnChunkFS.Mount) (d : UnChunkFS.ChunkDir)
    (hderr : ∀ name n pos e, d.pread name n pos = PreadRes.error e → 0 < e) (done : Bool)
    (count offset : Nat) (hcount : count ≤ INT_MAX) :
    ((∃ c, c < 0 ∧ ChunkFS.chunkfs_read m pread p count offset = some (Res.err c)) ∨
      (∃ (n : Nat) (buf : List Nat), (n : Int) = min (count : Int) (max (s - (offset : Int)) 0) ∧ buf.length = n ∧
        ChunkFS.chunkfs_read m pread p count offset = some (Res.ok (n, buf)))) ∧
    ((∃ c, c < 0 ∧
        UnChunkFS.unchunkfs_read um d done (bytes "/image") count offset = some (Res.err c)) ∨
      (∃ (n : Nat) (buf : List Nat), (n : Int) = min (count : Int) (max ((um.image_size : Int) - (offset : Int)) 0) ∧
        buf.length = n ∧
        UnChunkFS.unchunkfs_read um d done (bytes "/image") count offset =
          some (Res.ok (n, buf))) ∨
      ((∃ name, d.closeOk name = false) ∧
        UnChunkFS.unchunkfs_read um d done (bytes "/image") count offset = some Res.die)) ∧
    (∀ base cnt fuel bufpos buf, bufpos < cnt →
      pread (cnt - bufpos) (base + bufpos) = PreadRes.data [] →
      ChunkFS.chunkfs_read_loop pread base cnt (fuel + 1) bufpos buf = some (Res.err (- EIO))) ∧
    (∀ cs off cnt fuel bufpos buf, bufpos < cnt →
      d.openOk (UnChunkFS.chunk_name ((off + bufpos) / cs)) = false →
      UnChunkFS.unchunkfs_read_loop d cs off cnt (fuel + 1) bufpos buf =
        some (Res.err (- EIO))) ∧
    (∀ cs off cnt fuel bufpos buf, bufpos < cnt →
      d.openOk (UnChunkFS.chunk_name ((off + bufpos) / cs)) = true →
      d.pread (UnChunkFS.chunk_name ((off + bufpos) / cs)) (cnt - bufpos) ((off + bufpos) % cs) =
        PreadRes.data [] →
      UnChunkFS.unchunkfs_read_loop d cs off cnt (fuel + 1) bufpos buf =
        if d.closeOk (UnChunkFS.chunk_name ((off + bufpos) / cs)) = true then
          some (Res.err (- EIO))
        else some Res.die) := by
  have hEIO : (- EIO : Int) < 0 := by decide
  refine ⟨?_, ?_, ?_, ?_, ?_⟩
  · rw [(chunkfs_read_file m pread p st s hres hfile hs count offset hcount).1]
    generalize hn : (min (count : Int) (max (s - (offset : Int)) 0)).toNat = eff
    rcases chunkfs_read_loop_outcome pread (st.offset + offset) eff eff 0 [] (Nat.zero_le _)
      (by omega) rfl with ⟨c, hc, hr⟩ | ⟨b, hb, hr⟩
    · left
      refine ⟨c, ?_, hr⟩
      rcases hc with rfl | ⟨n, pos, e, he, rfl⟩
      · exact hEIO
      · have := herr n pos e he; omega
    · right
      exact ⟨eff, b, by omega, hb, hr⟩
  · by_cases hcwd : (UnChunkFS.ensure_chunkdir_is_cwd d done).1 = true
    · rw [(unchunkfs_read_file um d done hcwd count offset hcount).1]
      generalize hn : (min (count : Int) (max ((um.image_size : Int) - (offset : Int)) 0)).toNat
        = eff
      rcases unchunkfs_read_loop_outcome d um.chunk_size offset eff eff 0 [] (Nat.zero_le _)
        (by omega) rfl with ⟨c, hc, hr⟩ | ⟨b, hb, hr⟩ | ⟨hcl, hr⟩
      · left
        refine ⟨c, ?_, hr⟩
        rcases hc with rfl | ⟨name, n, pos, e, he, rfl⟩
        · exact hEIO
        · have := hderr name n pos e he; omega
      · right; left
        exact ⟨eff, b, by omega, hb, hr⟩
      · right; right
        exact ⟨hcl, hr⟩
    · have hf : (UnChunkFS.ensure_chunkdir_is_cwd d done).1 = false := by
        cases hh : (UnChunkFS.ensure_chunkdir_is_cwd d done).1
        · rfl
        · exact absurd hh hcwd
      left
      exact ⟨- EIO, hEIO, (unchunkfs_read_cwd_fails um d done hf _ count offset).1⟩
  · intro base cnt fuel bufpos buf hlt hp
    rw [ChunkFS.chunkfs_read_loop, if_pos hlt]
    simp only [hp]
    simp
  · intro cs off cnt fuel bufpos buf hlt ho
    rw [UnChunkFS.unchunkfs_read_loop, if_pos hlt]
    simp [ho]
  · intro cs off cnt fuel bufpos buf hlt ho hp
    rw [UnChunkFS.unchunkfs_read_loop, if_pos hlt]
    simp only [ho, not_true_eq_false, if_false, hp]
    by_cases hc : d.closeOk (UnChunkFS.chunk_name ((off + bufpos) / cs)) = true
    · simp [hc]
    · simp [hc]

theorem C13_never_truncated_witness :
    ((∃ c, c < 0 ∧ ChunkFS.chunkfs_read (ChunkFS.mount 4 10) (full_pread [10, 11, 12])
        (bytes "/00/00/00/00/00/00/00/02") 2 0 = some (Res.err c)) ∨
      (∃ (n : Nat) (buf : List Nat),
        (n : Int) = min (((2 : Nat) : Int)) (max ((2 : Int) - ((0 : Nat) : Int)) 0) ∧
        buf.length = n ∧
        ChunkFS.chunkfs_read (ChunkFS.mount 4 10) (full_pread [10, 11, 12])
          (bytes "/00/00/00/00/00/00/00/02") 2 0 = some (Res.ok (n, buf)))) ∧
    ChunkFS.chunkfs_read (ChunkFS.mount 4 10) (full_pread [10, 11, 12])
      (bytes "/00/00/00/00/00/00/00/02") 2 0 = some (Res.err (- EIO)) :=
  ⟨(C13_never_truncated (ChunkFS.mount 4 10) (full_pread [10, 11, 12])
    (fun n pos e h => by simp [full_pread] at h)
    (bytes "/00/00/00/00/00/00/00/02") ⟨8, S_IFREG, 2, 8, some 2⟩ 2 (by decide) (by decide) rfl
    ⟨4, 10⟩
    ⟨true, fun _ => StatRes.enoent, fun _ => false, fun _ _ _ => PreadRes.data [], fun _ => true⟩
    (fun name n pos e h => by simp at h) false 2 0 (by decide)).1, by decide⟩

/-- C13 as stated fails: when the `close` of a chunk file fails,
`unchunkfs_read` neither returns an error code nor the effective length, it
ends the process in `die`. -/
theorem C13_counterexample :
    ¬ (∀ (um : UnChunkFS.Mount) (d : UnChunkFS.ChunkDir) (done : Bool) (count offset : Nat),
      count ≤ INT_MAX →
      (∃ c, c < 0 ∧
        UnChunkFS.unchunkfs_read um d done (bytes "/image") count offset = some (Res.err c)) ∨
      (∃ (n : Nat) (buf : List Nat),
        (n : Int) = min (count : Int) (max ((um.image_size : Int) - (offset : Int)) 0) ∧
        UnChunkFS.unchunkfs_read um d done (bytes "/image") count offset =
          some (Res.ok (n, buf)))) := by
  intro h
  have hdie : UnChunkFS.unchunkfs_read ⟨4, 10⟩
      ⟨true, fun _ => StatRes.size 4, fun _ => true, fun _ n _ => PreadRes.data (List.replicate n 7),
        fun _ => false⟩ false (bytes "/image") 1 0 = some Res.die := by decide
  rcases h ⟨4, 10⟩
    ⟨true, fun _ => StatRes.size 4, fun _ => true, fun _ n _ => PreadRes.data (List.replicate n 7),
      fun _ => false⟩ false 1 0 (by decide) with ⟨c, -, hc⟩ | ⟨n, buf, -, hc⟩
  · rw [hdie] at hc; cases hc
  · rw [hdie] at hc; cases hc

/-! ### A chunk directory given by its files -/

theorem chunk_name_inj (a b : Nat) (ha : a < 2 ^ 64) (hb : b < 2 ^ 64)
    (h : UnChunkFS.chunk_name a = UnChunkFS.chunk_name b) : a = b := by
  rw [chunk_name_eq a ha, chunk_name_eq b hb] at h
  rw [← spec_index_encode a ha, ← spec_index_encode b hb, h]

theorem lookup_chunk_eq (j : Nat) (hj : j < 2 ^ 64) : ∀ (files : List (List Nat)) (i : Nat),
    i ≤ j → i + files.length ≤ 2 ^ 64 →
    lookup_chunk (UnChunkFS.chunk_name j) files i = files[j - i]? := by
  intro files
  induction files with
  | nil => intro i _ _; rfl
  | cons c cs ih =>
    intro i hij hlen
    rw [lookup_chunk]
    simp only [List.length_cons] at hlen
    by_cases h : i = j
    · subst h
      simp
    · have hne : UnChunkFS.chunk_name i ≠ UnChunkFS.chunk_name j := fun hc =>
        h (chunk_name_inj i j (by omega) hj hc)
      rw [if_neg hne, ih (i + 1) (by omega) (by omega)]
      have : j - i = (j - (i + 1)) + 1 := by omega
      rw [this, List.getElem?_cons_succ]

theorem files_dir_stat (files : List (List Nat)) (name : List Nat) :
    (files_dir files).stat name =
      (match lookup_chunk name files 0 with
        | some c => StatRes.size c.length
        | none => StatRes.enoent) := rfl

theorem files_dir_openOk (files : List (List Nat)) (name : List Nat) :
    (files_dir files).openOk name = (lookup_chunk name files 0).isSome := rfl

theorem files_dir_pread (files : List (List Nat)) (name : List Nat) :
    (files_dir files).pread name =
      (fun n pos => match lookup_chunk name files 0 with
        | some c => full_pread c n pos
        | none => PreadRes.error 9) := rfl

theorem files_dir_closeOk (files : List (List Nat)) (name : List Nat) :
    (files_dir files).closeOk name = true := rfl

/-- The directory made of a list of files holds these files. -/
theorem files_dir_holds (files : List (List Nat)) (N : Nat) (hlen : files.length = N + 1)
    (hN : N < 2 ^ 63) :
    dir_holds (files_dir files) (chunks_upto (fun i => files.getD i []) N) := by
  refine ⟨rfl, ?_⟩
  intro i hi
  have hl := lookup_chunk_eq i hi files 0 (Nat.zero_le _) (by omega)
  rw [Nat.sub_zero] at hl
  unfold chunks_upto
  by_cases hc : i ≤ N
  · rw [if_pos hc]
    have hget : files[i]? = some (files.getD i []) := by
      rw [List.getD_eq_getElem?_getD, List.getElem?_eq_getElem (by omega)]
      rfl
    simp only []
    rw [files_dir_stat, files_dir_openOk, files_dir_pread, files_dir_closeOk, hl, hget]
    exact ⟨rfl, rfl, rfl, full_pread_delivers _⟩
  · rw [if_neg hc]
    have hget : files[i]? = none := List.getElem?_eq_none (by omega)
    simp only []
    rw [files_dir_stat, files_dir_openOk, hl, hget]
    exact ⟨rfl, rfl⟩

theorem concat_chunks_succ (files : Nat → List Nat) (N : Nat) :
    concat_chunks files (N + 1) = concat_chunks files N ++ files (N + 1) := by
  unfold concat_chunks
  rw [List.range_succ, List.map_append, List.flatten_append]
  simp

theorem slice_append_left (a b : List Nat) (pos n : Nat) (h : pos + n ≤ a.length) :
    slice (a ++ b) pos n = slice a pos n := by
  unfold slice
  rw [List.drop_append_of_le_length (by omega), List.take_append_of_le_length]
  rw [List.length_drop]
  omega

theorem slice_append_right (a b : List Nat) : slice (a ++ b) a.length b.length = b := by
  unfold slice
  rw [List.drop_left, List.take_length]

/-- The concatenation of chunk files of which all but the last hold `cs` bytes:
its length, and where each file lies in it. -/
theorem concat_chunks_layout (files : Nat → List Nat) (cs : Nat) : ∀ (N : Nat),
    (∀ i, i < N → (files i).length = cs) →
    (concat_chunks files N).length = N * cs + (files N).length ∧
    ∀ i, i ≤ N → slice (concat_chunks files N) (i * cs) (files i).length = files i := by
  intro N
  induction N with
  | zero =>
    intro _
    have h0 : concat_chunks files 0 = files 0 := by
      simp [concat_chunks, List.range_succ]
    rw [h0]
    refine ⟨by omega, ?_⟩
    intro i hi
    have : i = 0 := by omega
    subst this
    simp [slice]
  | succ N ih =>
    intro hfull
    obtain ⟨hl, hsl⟩ := ih (fun i hi => hfull i (by omega))
    have hN := hfull N (by omega)
    rw [hN] at hl
    have hmul : (N + 1) * cs = N * cs + cs := by ring
    rw [concat_chunks_succ, List.length_append, hl]
    refine ⟨by rw [hmul], ?_⟩
    intro i hi
    by_cases hc : i = N + 1
    · subst hc
      rw [hmul, ← hl]
      exact slice_append_right _ _
    · have hiN : i ≤ N := by omega
      have hlen : (files i).length ≤ cs := by
        by_cases h : i = N
        · rw [h, hN]
        · rw [hfull i (by omega)]
      have hb : i * cs + cs ≤ N * cs + cs := by
        have := Nat.mul_le_mul_right cs hiN
        omega
      rw [slice_append_left _ _ _ _ (by rw [hl]; omega)]
      exact hsl i hiN

theorem dir_holds_exist (d : UnChunkFS.ChunkDir) (files : Nat → List Nat) (N : Nat)
    (hd : dir_holds d (chunks_upto files N)) (hpos : ∀ i, i ≤ N → 1 ≤ (files i).length) :
    chunks_exist_upto d N (fun i => (files i).length) := by
  refine ⟨?_, hpos⟩
  intro i hi
  have h := hd.2 i hi
  unfold chunks_upto at h
  by_cases hc : i ≤ N
  · rw [if_pos hc] at h ⊢
    exact h.1
  · rw [if_neg hc] at h ⊢
    exact h.1

/-- The loop of `unchunkfs_read` on chunk files that are the pieces of `image`,
all of `cs` bytes but the last, for a read that ends within the image and within
the first `N + 1` multiples of `cs`. -/
theorem unchunkfs_read_loop_within (d : UnChunkFS.ChunkDir) (image : List Nat) (cs N s : Nat)
    (hcs : 1 ≤ cs) (hlen : image.length = N * cs + s)
    (hfiles : ∀ i, i ≤ N →
      d.openOk (UnChunkFS.chunk_name i) = true ∧ d.closeOk (UnChunkFS.chunk_name i) = true ∧
      pread_delivers (slice image (i * cs) (if i = N then s else cs))
        (d.pread (UnChunkFS.chunk_name i)))
    (offset count : Nat)
    (hb : 0 < count → offset + count ≤ image.length ∧ offset + count ≤ (N + 1) * cs) :
    ∀ (fuel bufpos : Nat), bufpos ≤ count → count - bufpos ≤ fuel →
      UnChunkFS.unchunkfs_read_loop d cs offset count fuel bufpos (slice image offset bufpos) =
        some (Res.ok (count, slice image offset count)) := by
  have hmul : (N + 1) * cs = N * cs + cs := by ring
  rw [hmul] at hb
  intro fuel
  induction fuel with
  | zero =>
    intro bufpos h1 h2
    have : bufpos = count := by omega
    subst this
    rw [UnChunkFS.unchunkfs_read_loop]
    simp
  | succ fuel ih =>
    intro bufpos h1 h2
    rw [UnChunkFS.unchunkfs_read_loop]
    by_cases hlt : bufpos < count
    · obtain ⟨hb1, hb2⟩ := hb (by omega)
      have hdm := Nat.div_add_mod (offset + bufpos) cs
      have hmod := Nat.mod_lt (offset + bufpos) (show 0 < cs by omega)
      have hcN : (offset + bufpos) / cs ≤ N := by
        by_contra hc
        have := Nat.mul_le_mul_left cs (show N + 1 ≤ (offset + bufpos) / cs by omega)
        rw [Nat.mul_add, Nat.mul_one, Nat.mul_comm cs N] at this
        omega
      obtain ⟨hopen, hclose, hpr⟩ := hfiles _ hcN
      have hmulc : (offset + bufpos) / cs * cs = cs * ((offset + bufpos) / cs) := Nat.mul_comm _ _
      have hclen : (offset + bufpos) / cs * cs +
          (if (offset + bufpos) / cs = N then s else cs) ≤ image.length := by
        split
        · rename_i he; rw [he]; omega
        · rename_i hne
          have := Nat.mul_le_mul_left cs (show (offset + bufpos) / cs + 1 ≤ N by omega)
          rw [Nat.mul_add, Nat.mul_one, Nat.mul_comm cs N] at this
          omega
      have hofflt : (offset + bufpos) % cs < (if (offset + bufpos) / cs = N then s else cs) := by
        split
        · rename_i he
          rw [he, Nat.mul_comm] at hdm
          omega
        · exact hmod
      have hcl : (slice image ((offset + bufpos) / cs * cs)
          (if (offset + bufpos) / cs = N then s else cs)).length =
          (if (offset + bufpos) / cs = N then s else cs) := slice_length _ _ _ (fun _ => hclen)
      obtain ⟨k, hk1, hk2, hk3, hk⟩ := hpr (count - bufpos) ((offset + bufpos) % cs) (by omega)
        (by rw [hcl]; exact hofflt)
      rw [hcl] at hk3
      rw [slice_slice _ _ _ _ _ (by omega), hmulc, hdm] at hk
      have hlen' : (slice image (offset + bufpos) k).length = k :=
        slice_length _ _ _ (fun _ => by omega)
      have htake : (slice image (offset + bufpos) k).take (count - bufpos) =
          slice image (offset + bufpos) k := List.take_of_length_le (by omega)
      simp only [hlt, if_true, hopen, hclose, hk, htake, hlen', not_true_eq_false, if_false]
      rw [if_neg (by omega), slice_append]
      exact ih (bufpos + k) (by omega) (by omega)
    · have : bufpos = count := by omega
      subst this
      simp

/-- Reading `/image` within the part of the concatenation of the chunk files
that lies in the first `N + 1` multiples of the chunk size. -/
theorem unchunkfs_read_within (d : UnChunkFS.ChunkDir) (files : Nat → List Nat) (N cs : Nat)
    (hcs : 1 ≤ cs) (hfull : ∀ i, i < N → (files i).length = cs)
    (hd : dir_holds d (chunks_upto files N)) (hN : N < 2 ^ 64) (done : Bool)
    (count offset : Nat) (hcount : count ≤ INT_MAX)
    (hin : offset + count ≤ N * cs + (files N).length) (hin2 : offset + count ≤ (N + 1) * cs) :
    UnChunkFS.unchunkfs_read { chunk_size := cs, image_size := N * cs + (files N).length }
      d done (bytes "/image") count offset =
      some (Res.ok (count, slice (concat_chunks files N) offset count)) := by
  obtain ⟨hl, hsl⟩ := concat_chunks_layout files cs N hfull
  have hn : (min (count : Int)
      (max (((N * cs + (files N).length : Nat) : Int) - (offset : Int)) 0)).toNat = count := by
    generalize N * cs + (files N).length = is at *
    omega
  have hc1 : ¬ count > INT_MAX := by omega
  have hc2 : ¬ count > SSIZE_MAX := by
    unfold INT_MAX at hcount; unfold SSIZE_MAX; omega
  have hcwd : (UnChunkFS.ensure_chunkdir_is_cwd d done).1 = true := by
    unfold UnChunkFS.ensure_chunkdir_is_cwd
    cases done <;> simp [hd.1]
  unfold UnChunkFS.unchunkfs_read
  have hres : UnChunkFS.resolve_path (bytes "/image") = Res.ok S_IFREG := by decide
  simp only [hcwd, not_true_eq_false, if_false, hres, S_ISDIR_reg, hc1, hc2,
    Bool.false_eq_true, hn]
  have hfiles : ∀ i, i ≤ N →
      d.openOk (UnChunkFS.chunk_name i) = true ∧ d.closeOk (UnChunkFS.chunk_name i) = true ∧
      pread_delivers (slice (concat_chunks files N) (i * cs)
        (if i = N then (files N).length else cs))
        (d.pread (UnChunkFS.chunk_name i)) := by
    intro i hi
    have h := hd.2 i (by omega)
    unfold chunks_upto at h
    rw [if_pos hi] at h
    have hsz : (if i = N then (files N).length else cs) = (files i).length := by
      split
      · rename_i he; rw [he]
      · rename_i hne; rw [hfull i (by omega)]
    rw [hsz, hsl i hi]
    exact ⟨h.2.1, h.2.2.1, h.2.2.2⟩
  have := unchunkfs_read_loop_within d (concat_chunks files N) cs N (files N).length hcs hl
    hfiles offset count (fun _ => ⟨by omega, hin2⟩) count 0 (Nat.zero_le _) (by omega)
  simpa [slice] using this

/-! ### A chunk directory with a last chunk of its own size -/

/-- C17, as amended: for every `N < 2^63`, `chunk_size >= 1` and `s >= 1`
(smaller than, equal to or larger than `chunk_size`) with
`N*chunk_size + s <= OFF_T_MAX`, if the chunk directory holds exactly the chunks
`0..N`, chunks `0..N-1` of `chunk_size` bytes each and chunk `N` of `s` bytes,
then discovery succeeds with `image_size = N*chunk_size + s`, the length of the
concatenation of the chunk files in index order, and every read of `/image` of
`count <= INT_MAX` bytes that ends within the image and within the first `N + 1`
multiples of the discovered chunk size returns these bytes of the concatenation.
When `s <= chunk_size` or `N = 0` that is every read within `[0, image_size)`,
and the read of the whole image returns the concatenation. -/
theorem C17_last_chunk_size (d : UnChunkFS.ChunkDir) (files : Nat → List Nat)
    (N chunk_size s : Nat) (hcs : 1 ≤ chunk_size) (hs : 1 ≤ s) (hN : N < 2 ^ 63)
    (hfit : N * chunk_size + s ≤ OFF_T_MAX)
    (hfull : ∀ i, i < N → (files i).length = chunk_size) (hlast : (files N).length = s)
    (hd : dir_holds d (chunks_upto files N)) (done : Bool) :
    ∃ m, UnChunkFS.discover d = Res.ok m ∧ m.image_size = N * chunk_size + s ∧
      (concat_chunks files N).length = m.image_size ∧
      (∀ count offset : Nat, count ≤ INT_MAX → offset + count ≤ m.image_size →
        offset + count ≤ (N + 1) * m.chunk_size →
        UnChunkFS.unchunkfs_read m d done (bytes "/image") count offset =
          some (Res.ok (count, slice (concat_chunks files N) offset count))) ∧
      (s ≤ chunk_size ∨ N = 0 →
        m.image_size ≤ (N + 1) * m.chunk_size ∧
        (m.image_size ≤ INT_MAX →
          UnChunkFS.unchunkfs_read m d done (bytes "/image") m.image_size 0 =
            some (Res.ok (m.image_size, concat_chunks files N)))) := by
  have hfull0 : ∀ i, i < N → (files i).length = (files 0).length := by
    intro i hi
    rw [hfull i hi, hfull 0 (by omega)]
  have hc0 : 1 ≤ (files 0).length := by
    by_cases h0 : N = 0
    · rw [← h0, hlast]; exact hs
    · rw [hfull 0 (by omega)]; exact hcs
  have hsum : N * (files 0).length + (files N).length = N * chunk_size + s := by
    by_cases h0 : N = 0
    · rw [hlast, h0]; simp
    · rw [hfull 0 (by omega), hlast]
  have hpos : ∀ i, i ≤ N → 1 ≤ (files i).length := by
    intro i hi
    by_cases h : i = N
    · rw [h, hlast]; exact hs
    · rw [hfull i (by omega)]; exact hcs
  have hdisc := discover_exists d N hN (fun i => (files i).length)
    (dir_holds_exist d files N hd hpos) (by rw [hsum]; exact hfit)
  obtain ⟨hl, -⟩ := concat_chunks_layout files (files 0).length N hfull0
  have hread := unchunkfs_read_within d files N (files 0).length hc0 hfull0 hd (by omega) done
  refine ⟨_, hdisc, hsum, hl, ?_, ?_⟩
  · intro count offset hc h1 h2
    exact hread count offset hc h1 h2
  · intro hle
    have hbound : N * (files 0).length + (files N).length ≤ (N + 1) * (files 0).length := by
      have hmul : (N + 1) * (files 0).length = N * (files 0).length + (files 0).length := by ring
      rw [hmul]
      by_cases h0 : N = 0
      · rw [h0]
      · rw [hfull 0 (by omega), hlast]
        rcases hle with h | h
        · omega
        · exact absurd h h0
    refine ⟨hbound, ?_⟩
    intro hint
    have := hread (N * (files 0).length + (files N).length) 0 hint (by omega) (by omega)
    rw [this]
    simp only [slice, List.drop_zero]
    rw [← hl, List.take_length]

theorem C17_last_chunk_size_witness :
    ∃ m, UnChunkFS.discover (files_dir [[1, 2, 3, 4], [5, 6]]) = Res.ok m ∧
      m.image_size = 1 * 4 + 2 ∧
      (concat_chunks (fun i => [[1, 2, 3, 4], [5, 6]].getD i []) 1).length = m.image_size ∧
      (∀ count offset : Nat, count ≤ INT_MAX → offset + count ≤ m.image_size →
        offset + count ≤ (1 + 1) * m.chunk_size →
        UnChunkFS.unchunkfs_read m (files_dir [[1, 2, 3, 4], [5, 6]]) false (bytes "/image")
          count offset =
          some (Res.ok (count,
            slice (concat_chunks (fun i => [[1, 2, 3, 4], [5, 6]].getD i []) 1) offset count))) ∧
      (2 ≤ 4 ∨ 1 = 0 →
        m.image_size ≤ (1 + 1) * m.chunk_size ∧
        (m.image_size ≤ INT_MAX →
          UnChunkFS.unchunkfs_read m (files_dir [[1, 2, 3, 4], [5, 6]]) false (bytes "/image")
            m.image_size 0 =
            some (Res.ok (m.image_size,
              concat_chunks (fun i => [[1, 2, 3, 4], [5, 6]].getD i []) 1)))) :=
  C17_last_chunk_size (files_dir [[1, 2, 3, 4], [5, 6]])
    (fun i => [[1, 2, 3, 4], [5, 6]].getD i []) 1 4 2 (by decide) (by decide) (by norm_num)
    (by decide) (fun i hi => by have : i = 0 := by omega
                                subst this; rfl) rfl
    (files_dir_holds [[1, 2, 3, 4], [5, 6]] 1 rfl (by norm_num)) false

/-- C17 as stated fails for a last chunk larger than `chunk_size`: with chunk 0
of 4 bytes and chunk 1 of 8 bytes, discovery finds `chunk_size = 4` and
`image_size = 12`, and the read of the 4 bytes at offset 8 of `/image`, which lie
in chunk 1, looks for chunk `8 / 4 = 2`, which does not exist, and returns
`-EIO`. -/
theorem C17_counterexample :
    ¬ (∀ (d : UnChunkFS.ChunkDir) (files : Nat → List Nat) (N chunk_size s count offset : Nat),
      1 ≤ chunk_size → 1 ≤ s → N < 2 ^ 63 → N * chunk_size + s ≤ OFF_T_MAX →
      (∀ i, i < N → (files i).length = chunk_size) → (files N).length = s →
      dir_holds d (chunks_upto files N) → count ≤ INT_MAX →
      offset + count ≤ N * chunk_size + s →
      ∃ m, UnChunkFS.discover d = Res.ok m ∧ m.image_size = N * chunk_size + s ∧
        UnChunkFS.unchunkfs_read m d false (bytes "/image") count offset =
          some (Res.ok (count, slice (concat_chunks files N) offset count))) := by
  intro h
  have hholds := files_dir_holds [[1, 2, 3, 4], [5, 6, 7, 8, 9, 10, 11, 12]] 1 rfl (by norm_num)
  have hdisc : UnChunkFS.discover (files_dir [[1, 2, 3, 4], [5, 6, 7, 8, 9, 10, 11, 12]]) =
      Res.ok ⟨4, 12⟩ :=
    discover_exists _ 1 (by norm_num)
      (fun i => ([[1, 2, 3, 4], [5, 6, 7, 8, 9, 10, 11, 12]].getD i []).length)
      (dir_holds_exist _ _ 1 hholds (by decide)) (by decide)
  have he : UnChunkFS.unchunkfs_read ⟨4, 12⟩
      (files_dir [[1, 2, 3, 4], [5, 6, 7, 8, 9, 10, 11, 12]]) false (bytes "/image") 4 8 =
      some (Res.err (- EIO)) := by decide
  obtain ⟨m, hm, -, hr⟩ := h (files_dir [[1, 2, 3, 4], [5, 6, 7, 8, 9, 10, 11, 12]])
    (fun i => [[1, 2, 3, 4], [5, 6, 7, 8, 9, 10, 11, 12]].getD i []) 1 4 8 4 8
    (by decide) (by decide) (by norm_num) (by decide)
    (fun i hi => by have : i = 0 := by omega
                    subst this; rfl) rfl hholds (by decide) (by decide)
  rw [hdisc] at hm
  injection hm with hm
  subst hm
  rw [he] at hr
  cases hr

/-! ### The chunks a read of the image visits -/

theorem unchunkfs_read_loop_calls_done (d : UnChunkFS.ChunkDir) (cs offset count : Nat)
    (fuel bufpos : Nat) (buf : List Nat) (calls : List UnChunkFS.Call) (h : ¬ bufpos < count) :
    UnChunkFS.unchunkfs_read_loop_calls d cs offset count fuel bufpos buf calls =
      some (Res.ok (bufpos, buf), calls) := by
  cases fuel with
  | zero => rw [UnChunkFS.unchunkfs_read_loop_calls, if_neg h]
  | succ f => rw [UnChunkFS.unchunkfs_read_loop_calls, if_neg h]

/-- An iteration of the loop of `unchunkfs_read` opens the chunk of index
`(offset + bufpos) / chunk_size` and, when it could be opened, reads
`count - bufpos` bytes at `(offset + bufpos) % chunk_size` in it; the calls made
before are kept. -/
theorem unchunkfs_read_loop_calls_step (d : UnChunkFS.ChunkDir) (cs offset count : Nat) :
    ∀ (fuel bufpos : Nat) (buf : List Nat) (calls : List UnChunkFS.Call),
      bufpos < count → count - bufpos ≤ fuel →
      ∃ r ext, UnChunkFS.unchunkfs_read_loop_calls d cs offset count fuel bufpos buf calls =
          some (r, calls ++
            UnChunkFS.Call.openChunk (UnChunkFS.chunk_name ((offset + bufpos) / cs)) :: ext) ∧
        (d.openOk (UnChunkFS.chunk_name ((offset + bufpos) / cs)) = true →
          ∃ ext', ext = UnChunkFS.Call.preadChunk
            (UnChunkFS.chunk_name ((offset + bufpos) / cs)) (count - bufpos)
            ((offset + bufpos) % cs) :: ext') := by
  intro fuel
  induction fuel with
  | zero => intro bufpos buf calls h1 h2; omega
  | succ fuel ih =>
    intro bufpos buf calls hlt hf
    rw [UnChunkFS.unchunkfs_read_loop_calls]
    simp only [hlt, if_true]
    by_cases ho : d.openOk (UnChunkFS.chunk_name ((offset + bufpos) / cs)) = true
    · simp only [ho, not_true_eq_false, if_false]
      cases hp : d.pread (UnChunkFS.chunk_name ((offset + bufpos) / cs)) (count - bufpos)
          ((offset + bufpos) % cs) with
      | error e =>
        simp only []
        by_cases hc : d.closeOk (UnChunkFS.chunk_name ((offset + bufpos) / cs)) = true
        · refine ⟨Res.err (-e), [UnChunkFS.Call.preadChunk
            (UnChunkFS.chunk_name ((offset + bufpos) / cs)) (count - bufpos)
            ((offset + bufpos) % cs)], ?_, fun _ => ⟨[], rfl⟩⟩
          simp [hc]
        · refine ⟨Res.die, [UnChunkFS.Call.preadChunk
            (UnChunkFS.chunk_name ((offset + bufpos) / cs)) (count - bufpos)
            ((offset + bufpos) % cs)], ?_, fun _ => ⟨[], rfl⟩⟩
          simp [hc]
      | data bs =>
        simp only []
        by_cases hc : d.closeOk (UnChunkFS.chunk_name ((offset + bufpos) / cs)) = true
        · simp only [hc, not_true_eq_false, if_false]
          by_cases h0 : (List.take (count - bufpos) bs).length = 0
          · refine ⟨Res.err (- EIO), [UnChunkFS.Call.preadChunk
              (UnChunkFS.chunk_name ((offset + bufpos) / cs)) (count - bufpos)
              ((offset + bufpos) % cs)], ?_, fun _ => ⟨[], rfl⟩⟩
            simp [h0]
          · rw [if_neg h0]
            have hle : (List.take (count - bufpos) bs).length ≤ count - bufpos := by
              rw [List.length_take]; exact Nat.min_le_left _ _
            by_cases hdone : bufpos + (List.take (count - bufpos) bs).length < count
            · obtain ⟨r, ext, he, -⟩ := ih (bufpos + (List.take (count - bufpos) bs).length)
                (buf ++ List.take (count - bufpos) bs)
                (calls ++ [UnChunkFS.Call.openChunk (UnChunkFS.chunk_name ((offset + bufpos) / cs))] ++
                  [UnChunkFS.Call.preadChunk (UnChunkFS.chunk_name ((offset + bufpos) / cs))
                    (count - bufpos) ((offset + bufpos) % cs)]) hdone (by omega)
              rw [he]
              refine ⟨r, UnChunkFS.Call.preadChunk
                (UnChunkFS.chunk_name ((offset + bufpos) / cs)) (count - bufpos)
                ((offset + bufpos) % cs) :: UnChunkFS.Call.openChunk (UnChunkFS.chunk_name
                  ((offset + (bufpos + (List.take (count - bufpos) bs).length)) / cs)) :: ext,
                ?_, fun _ => ⟨_, rfl⟩⟩
              simp
            · rw [unchunkfs_read_loop_calls_done _ _ _ _ _ _ _ _ hdone]
              refine ⟨Res.ok (bufpos + (List.take (count - bufpos) bs).length,
                buf ++ List.take (count - bufpos) bs), [UnChunkFS.Call.preadChunk
                (UnChunkFS.chunk_name ((offset + bufpos) / cs)) (count - bufpos)
                ((offset + bufpos) % cs)], ?_, fun _ => ⟨[], rfl⟩⟩
              simp
        · refine ⟨Res.die, [UnChunkFS.Call.preadChunk
            (UnChunkFS.chunk_name ((offset + bufpos) / cs)) (count - bufpos)
            ((offset + bufpos) % cs)], ?_, fun _ => ⟨[], rfl⟩⟩
          simp [hc]
    · refine ⟨Res.err (- EIO), [], ?_, fun h => absurd h ho⟩
      simp [ho]

/-- An iteration of the loop of `unchunkfs_read` on chunk files that deliver all
the bytes they hold: what it reads and how the loop goes on. -/
theorem unchunkfs_read_loop_calls_visit (d : UnChunkFS.ChunkDir) (files : Nat → List Nat)
    (N cs : Nat) (hcs : 1 ≤ cs) (hN : N < 2 ^ 64)
    (hd : dir_holds d (chunks_upto files N))
    (hpread : ∀ i, i ≤ N → ∀ k pos,
      d.pread (UnChunkFS.chunk_name i) k pos = full_pread (files i) k pos)
    (offset n : Nat) (hin : offset + n ≤ N * cs + (files N).length)
    (hin2 : offset + n ≤ (N + 1) * cs)
    (hfull : ∀ i, i < N → (files i).length = cs)
    (fuel bufpos : Nat) (hlt : bufpos < n) :
    (offset + bufpos) / cs ≤ N ∧
    (offset + bufpos) % cs < (files ((offset + bufpos) / cs)).length ∧
    ∀ (buf : List Nat) (calls : List UnChunkFS.Call),
      UnChunkFS.unchunkfs_read_loop_calls d cs offset n (fuel + 1) bufpos buf calls =
        UnChunkFS.unchunkfs_read_loop_calls d cs offset n fuel
          (bufpos + min (n - bufpos)
            ((files ((offset + bufpos) / cs)).length - (offset + bufpos) % cs))
          (buf ++ slice (files ((offset + bufpos) / cs)) ((offset + bufpos) % cs) (n - bufpos))
          (calls ++ [UnChunkFS.Call.openChunk (UnChunkFS.chunk_name ((offset + bufpos) / cs)),
            UnChunkFS.Call.preadChunk (UnChunkFS.chunk_name ((offset + bufpos) / cs))
              (n - bufpos) ((offset + bufpos) % cs)]) := by
  have hmul : (N + 1) * cs = N * cs + cs := by ring
  rw [hmul] at hin2
  have hdm := Nat.div_add_mod (offset + bufpos) cs
  have hmod := Nat.mod_lt (offset + bufpos) (show 0 < cs by omega)
  have hcN : (offset + bufpos) / cs ≤ N := by
    by_contra hc
    have := Nat.mul_le_mul_left cs (show N + 1 ≤ (offset + bufpos) / cs by omega)
    rw [Nat.mul_add, Nat.mul_one, Nat.mul_comm cs N] at this
    omega
  have hofflt : (offset + bufpos) % cs < (files ((offset + bufpos) / cs)).length := by
    by_cases he : (offset + bufpos) / cs = N
    · rw [he, Nat.mul_comm] at hdm
      rw [he]
      omega
    · rw [hfull _ (by omega)]
      exact hmod
  refine ⟨hcN, hofflt, ?_⟩
  intro buf calls
  have h := hd.2 _ (show (offset + bufpos) / cs < 2 ^ 64 by omega)
  unfold chunks_upto at h
  rw [if_pos hcN] at h
  obtain ⟨-, hopen, hclose, -⟩ := h
  have hsl : (slice (files ((offset + bufpos) / cs)) ((offset + bufpos) % cs)
      (n - bufpos)).length =
      min (n - bufpos) ((files ((offset + bufpos) / cs)).length - (offset + bufpos) % cs) := by
    unfold slice
    rw [List.length_take, List.length_drop]
  have htake : (slice (files ((offset + bufpos) / cs)) ((offset + bufpos) % cs)
      (n - bufpos)).take (n - bufpos) =
      slice (files ((offset + bufpos) / cs)) ((offset + bufpos) % cs) (n - bufpos) :=
    List.take_of_length_le (by rw [hsl]; exact Nat.min_le_left _ _)
  have hne : ¬ min (n - bufpos)
      ((files ((offset + bufpos) / cs)).length - (offset + bufpos) % cs) = 0 := by omega
  rw [UnChunkFS.unchunkfs_read_loop_calls]
  simp only [hlt, if_true, hopen, hclose, hpread _ hcN, full_pread, htake, hsl,
    not_true_eq_false, if_false, hne, List.append_assoc, List.singleton_append]

/-- The calls of the loop of `unchunkfs_read` from the start of the read or from
the start of a chunk on, when `k + 1` chunks are left to visit. -/
theorem unchunkfs_read_loop_calls_visits (d : UnChunkFS.ChunkDir) (files : Nat → List Nat)
    (N cs : Nat) (hcs : 1 ≤ cs) (hN : N < 2 ^ 64)
    (hd : dir_holds d (chunks_upto files N))
    (hpread : ∀ i, i ≤ N → ∀ k pos,
      d.pread (UnChunkFS.chunk_name i) k pos = full_pread (files i) k pos)
    (offset n : Nat) (hin : offset + n ≤ N * cs + (files N).length)
    (hin2 : offset + n ≤ (N + 1) * cs)
    (hfull : ∀ i, i < N → (files i).length = cs) :
    ∀ (k fuel bufpos : Nat) (buf : List Nat) (calls : List UnChunkFS.Call),
      bufpos < n → n - bufpos ≤ fuel →
      (bufpos = 0 ∨ (offset + bufpos) % cs = 0) →
      (offset + bufpos) / cs + k = (offset + n - 1) / cs →
      ∃ r, UnChunkFS.unchunkfs_read_loop_calls d cs offset n fuel bufpos buf calls =
        some (r, calls ++ spec_visits cs offset n ((offset + bufpos) / cs) (k + 1)) := by
  have hmul : (N + 1) * cs = N * cs + cs := by ring
  intro k
  induction k with
  | zero =>
    intro fuel bufpos buf calls hlt hf hal hk
    obtain ⟨f, rfl⟩ : ∃ f, fuel = f + 1 := ⟨fuel - 1, by omega⟩
    obtain ⟨hcN, hofflt, hstep⟩ := unchunkfs_read_loop_calls_visit d files N cs hcs hN hd hpread
      offset n hin hin2 hfull f bufpos hlt
    have hdm := Nat.div_add_mod (offset + bufpos) cs
    have hmod := Nat.mod_lt (offset + bufpos) (show 0 < cs by omega)
    have hB := Nat.div_add_mod (offset + n - 1) cs
    have hBm := Nat.mod_lt (offset + n - 1) (show 0 < cs by omega)
    rw [Nat.add_zero] at hk
    rw [← hk] at hB
    have hcomm : (offset + bufpos) / cs * cs = cs * ((offset + bufpos) / cs) := Nat.mul_comm _ _
    have hr2 : min (n - bufpos)
        ((files ((offset + bufpos) / cs)).length - (offset + bufpos) % cs) = n - bufpos := by
      apply Nat.min_eq_left
      by_cases he : (offset + bufpos) / cs = N
      · rw [he, Nat.mul_comm] at hdm
        rw [he]
        omega
      · rw [hfull _ (by omega)]
        omega
    have hvis : offset + n - max offset ((offset + bufpos) / cs * cs) = n - bufpos ∧
        max offset ((offset + bufpos) / cs * cs) - (offset + bufpos) / cs * cs =
          (offset + bufpos) % cs := by
      rw [hcomm]
      omega
    rw [hstep, hr2, unchunkfs_read_loop_calls_done _ _ _ _ _ _ _ _ (by omega)]
    simp only [spec_visits, hvis.1, hvis.2]
    exact ⟨_, rfl⟩
  | succ k ih =>
    intro fuel bufpos buf calls hlt hf hal hk
    obtain ⟨f, rfl⟩ : ∃ f, fuel = f + 1 := ⟨fuel - 1, by omega⟩
    obtain ⟨hcN, hofflt, hstep⟩ := unchunkfs_read_loop_calls_visit d files N cs hcs hN hd hpread
      offset n hin hin2 hfull f bufpos hlt
    have hdm := Nat.div_add_mod (offset + bufpos) cs
    have hmod := Nat.mod_lt (offset + bufpos) (show 0 < cs by omega)
    have hB := Nat.div_add_mod (offset + n - 1) cs
    have hBm := Nat.mod_lt (offset + n - 1) (show 0 < cs by omega)
    have hcomm : (offset + bufpos) / cs * cs = cs * ((offset + bufpos) / cs) := Nat.mul_comm _ _
    have hqB := Nat.mul_le_mul_left cs
      (show (offset + bufpos) / cs + 1 ≤ (offset + n - 1) / cs by omega)
    rw [Nat.mul_add, Nat.mul_one] at hqB
    have hBN : (offset + n - 1) / cs ≤ N := by
      by_contra hc
      have := Nat.mul_le_mul_left cs (show N + 1 ≤ (offset + n - 1) / cs by omega)
      rw [Nat.mul_add, Nat.mul_one, Nat.mul_comm cs N] at this
      omega
    have hlen : (files ((offset + bufpos) / cs)).length = cs := hfull _ (by omega)
    have hr2 : min (n - bufpos)
        ((files ((offset + bufpos) / cs)).length - (offset + bufpos) % cs) =
        cs - (offset + bufpos) % cs := by
      rw [hlen]
      apply Nat.min_eq_right
      omega
    have hvis : offset + n - max offset ((offset + bufpos) / cs * cs) = n - bufpos ∧
        max offset ((offset + bufpos) / cs * cs) - (offset + bufpos) / cs * cs =
          (offset + bufpos) % cs := by
      rw [hcomm]
      omega
    have hpos : offset + (bufpos + (cs - (offset + bufpos) % cs)) =
        cs * ((offset + bufpos) / cs + 1) := by
      rw [Nat.mul_add, Nat.mul_one]
      omega
    have hq : (offset + (bufpos + (cs - (offset + bufpos) % cs))) / cs =
        (offset + bufpos) / cs + 1 := by
      rw [hpos, Nat.mul_div_cancel_left _ (show 0 < cs by omega)]
    have hm : (offset + (bufpos + (cs - (offset + bufpos) % cs))) % cs = 0 := by
      rw [hpos, Nat.mul_mod_right]
    rw [hstep, hr2]
    obtain ⟨r, hr⟩ := ih f (bufpos + (cs - (offset + bufpos) % cs))
      (buf ++ slice (files ((offset + bufpos) / cs)) ((offset + bufpos) % cs) (n - bufpos))
      (calls ++ [UnChunkFS.Call.openChunk (UnChunkFS.chunk_name ((offset + bufpos) / cs)),
        UnChunkFS.Call.preadChunk (UnChunkFS.chunk_name ((offset + bufpos) / cs))
          (n - bufpos) ((offset + bufpos) % cs)])
      (by omega) (by omega) (Or.inr hm) (by rw [hq]; omega)
    rw [hr, hq]
    refine ⟨r, ?_⟩
    rw [spec_visits.eq_2 cs offset n ((offset + bufpos) / cs) (k + 1), hvis.1, hvis.2]
    simp only [List.append_assoc, List.cons_append, List.nil_append]

theorem opened_chunks_visits (cs offset n : Nat) : ∀ (k i : Nat),
    opened_chunks (spec_visits cs offset n i k) =
      (List.range' i k).map UnChunkFS.chunk_name := by
  intro k
  induction k with
  | zero => intro i; rfl
  | succ k ih =>
    intro i
    rw [spec_visits, opened_chunks, opened_chunks, ih, List.range'_succ, List.map_cons]

theorem pread_offsets_visits (cs offset n : Nat) : ∀ (k i : Nat),
    pread_offsets (spec_visits cs offset n i k) =
      (List.range' i k).map
        (fun j => (UnChunkFS.chunk_name j, max offset (j * cs) - j * cs)) := by
  intro k
  induction k with
  | zero => intro i; rfl
  | succ k ih =>
    intro i
    rw [spec_visits, pread_offsets, pread_offsets, ih, List.range'_succ, List.map_cons]

theorem files_dir_pread_full (files : List (List Nat)) (i : Nat) (hi : i < files.length)
    (hlen : files.length ≤ 2 ^ 64) (k pos : Nat) :
    (files_dir files).pread (UnChunkFS.chunk_name i) k pos =
      full_pread (files.getD i []) k pos := by
  have hl := lookup_chunk_eq i (by omega) files 0 (Nat.zero_le _) (by omega)
  rw [Nat.sub_zero] at hl
  have hget : files[i]? = some (files.getD i []) := by
    rw [List.getD_eq_getElem?_getD, List.getElem?_eq_getElem hi]
    rfl
  rw [files_dir_pread]
  simp only [hl, hget]

/-- The traced read of `/image` on chunk files that deliver all the bytes they
hold, for a read that ends within the first `N + 1` multiples of the chunk
size. -/
theorem unchunkfs_read_calls_visits (d : UnChunkFS.ChunkDir) (files : Nat → List Nat)
    (N cs : Nat) (hcs : 1 ≤ cs) (hN : N < 2 ^ 64)
    (hfull : ∀ i, i < N → (files i).length = cs)
    (hd : dir_holds d (chunks_upto files N))
    (hpread : ∀ i, i ≤ N → ∀ k pos,
      d.pread (UnChunkFS.chunk_name i) k pos = full_pread (files i) k pos)
    (done : Bool) (count offset n : Nat) (hcount : count ≤ INT_MAX)
    (hn : n = min count (N * cs + (files N).length - offset)) (hpos : 0 < n)
    (hin2 : offset + n ≤ (N + 1) * cs) :
    UnChunkFS.unchunkfs_read_calls { chunk_size := cs, image_size := N * cs + (files N).length }
      d done (bytes "/image") count offset =
      some (Res.ok (n, slice (concat_chunks files N) offset n),
        spec_visits cs offset n (offset / cs) ((offset + n - 1) / cs - offset / cs + 1)) := by
  obtain ⟨hl, hsl⟩ := concat_chunks_layout files cs N hfull
  have hin : offset + n ≤ N * cs + (files N).length := by omega
  have hnn : (min (count : Int)
      (max (((N * cs + (files N).length : Nat) : Int) - (offset : Int)) 0)).toNat = n := by
    generalize N * cs + (files N).length = is at *
    omega
  have hc1 : ¬ count > INT_MAX := by omega
  have hc2 : ¬ count > SSIZE_MAX := by
    unfold INT_MAX at hcount; unfold SSIZE_MAX; omega
  have hcwd : (UnChunkFS.ensure_chunkdir_is_cwd d done).1 = true := by
    unfold UnChunkFS.ensure_chunkdir_is_cwd
    cases done <;> simp [hd.1]
  have hres : UnChunkFS.resolve_path (bytes "/image") = Res.ok S_IFREG := by decide
  have hfiles : ∀ i, i ≤ N →
      d.openOk (UnChunkFS.chunk_name i) = true ∧ d.closeOk (UnChunkFS.chunk_name i) = true ∧
      pread_delivers (slice (concat_chunks files N) (i * cs)
        (if i = N then (files N).length else cs))
        (d.pread (UnChunkFS.chunk_name i)) := by
    intro i hi
    have h := hd.2 i (by omega)
    unfold chunks_upto at h
    rw [if_pos hi] at h
    have hsz : (if i = N then (files N).length else cs) = (files i).length := by
      split
      · rename_i he; rw [he]
      · rename_i hne; rw [hfull i (by omega)]
    rw [hsz, hsl i hi]
    exact ⟨h.2.1, h.2.2.1, h.2.2.2⟩
  have hres2 := unchunkfs_read_loop_within d (concat_chunks files N) cs N (files N).length hcs hl
    hfiles offset n (fun _ => ⟨by omega, hin2⟩) n 0 (Nat.zero_le _) (by omega)
  have hle : offset / cs ≤ (offset + n - 1) / cs := Nat.div_le_div_right (by omega)
  obtain ⟨r, hr⟩ := unchunkfs_read_loop_calls_visits d files N cs hcs hN hd hpread offset n
    hin hin2 hfull ((offset + n - 1) / cs - offset / cs) n 0 [] [] hpos (by omega) (Or.inl rfl)
    (by rw [Nat.add_zero]; omega)
  rw [Nat.add_zero, List.nil_append] at hr
  have hfst := unchunkfs_read_loop_calls_fst d cs offset n n 0 [] []
  have hs0 : slice (concat_chunks files N) offset 0 = [] := by simp [slice]
  rw [hs0] at hres2
  rw [hr, hres2] at hfst
  simp only [Option.map_some', Option.some.injEq] at hfst
  unfold UnChunkFS.unchunkfs_read_calls
  simp only [hcwd, not_true_eq_false, if_false, hres, S_ISDIR_reg, hc1, hc2,
    Bool.false_eq_true, hnn]
  rw [hr, hfst]

/-- C18, as amended: an iteration of the loop of `unchunkfs_read` that starts
with `bufpos` bytes consumed opens the chunk of index
`(offset + bufpos) / chunk_size` and, when the chunk could be opened, reads in it
at `(offset + bufpos) % chunk_size`. When the chunk directory holds the chunks
`0..N`, every chunk before the last of exactly `chunk_size` bytes, every `pread`
returns all the requested bytes the chunk file holds, and the last chunk holds at
most `chunk_size` bytes or the read ends within the first `N + 1` multiples of
`chunk_size`, a read of `/image` of effective length `n > 0` succeeds and opens
exactly the chunks `offset / chunk_size .. (offset + n - 1) / chunk_size`, each
once and in ascending order, and reads the first at `offset % chunk_size` and
the others at 0. -/
theorem C18_read_visits_chunks (d : UnChunkFS.ChunkDir) (chunk_size offset : Nat)
    (hcs : 1 ≤ chunk_size) :
    (∀ (count fuel bufpos : Nat) (buf : List Nat) (calls : List UnChunkFS.Call),
      bufpos < count → count - bufpos ≤ fuel →
      ∃ r ext,
        UnChunkFS.unchunkfs_read_loop_calls d chunk_size offset count fuel bufpos buf calls =
          some (r, calls ++
            UnChunkFS.Call.openChunk (UnChunkFS.chunk_name ((offset + bufpos) / chunk_size)) ::
              ext) ∧
        (d.openOk (UnChunkFS.chunk_name ((offset + bufpos) / chunk_size)) = true →
          ∃ ext', ext = UnChunkFS.Call.preadChunk
            (UnChunkFS.chunk_name ((offset + bufpos) / chunk_size)) (count - bufpos)
            ((offset + bufpos) % chunk_size) :: ext')) ∧
    (∀ (files : Nat → List Nat) (N : Nat) (done : Bool) (count n : Nat),
      N < 2 ^ 64 → (∀ i, i < N → (files i).length = chunk_size) →
      dir_holds d (chunks_upto files N) →
      (∀ i, i ≤ N → ∀ k pos,
        d.pread (UnChunkFS.chunk_name i) k pos = full_pread (files i) k pos) →
      count ≤ INT_MAX →
      n = min count (N * chunk_size + (files N).length - offset) → 0 < n →
      ((files N).length ≤ chunk_size ∨ offset + n ≤ (N + 1) * chunk_size) →
      ∃ t, UnChunkFS.unchunkfs_read_calls
          { chunk_size := chunk_size, image_size := N * chunk_size + (files N).length }
          d done (bytes "/image") count offset =
          some (Res.ok (n, slice (concat_chunks files N) offset n), t) ∧
        opened_chunks t =
          (List.range' (offset / chunk_size)
            ((offset + n - 1) / chunk_size - offset / chunk_size + 1)).map
            UnChunkFS.chunk_name ∧
        pread_offsets t =
          (List.range' (offset / chunk_size)
            ((offset + n - 1) / chunk_size - offset / chunk_size + 1)).map
            (fun i => (UnChunkFS.chunk_name i,
              if i = offset / chunk_size then offset % chunk_size else 0))) := by
  constructor
  · intro count fuel bufpos buf calls hlt hf
    exact unchunkfs_read_loop_calls_step d chunk_size offset count fuel bufpos buf calls hlt hf
  · intro files N done count n hN hfull hd hpread hcount hn hpos hlast
    have hmul : (N + 1) * chunk_size = N * chunk_size + chunk_size := by ring
    have hin2 : offset + n ≤ (N + 1) * chunk_size := by
      rcases hlast with h | h
      · rw [hmul]; omega
      · exact h
    refine ⟨_, unchunkfs_read_calls_visits d files N chunk_size hcs hN hfull hd hpread done
      count offset n hcount hn hpos hin2, opened_chunks_visits _ _ _ _ _, ?_⟩
    rw [pread_offsets_visits]
    apply List.map_congr_left
    intro j hj
    rw [List.mem_range'_1] at hj
    have hdm := Nat.div_add_mod offset chunk_size
    have hmod := Nat.mod_lt offset (show 0 < chunk_size by omega)
    by_cases hja : j = offset / chunk_size
    · rw [if_pos hja, hja, Nat.mul_comm]
      congr 1
      omega
    · rw [if_neg hja]
      have := Nat.mul_le_mul_left chunk_size (show offset / chunk_size + 1 ≤ j by omega)
      rw [Nat.mul_add, Nat.mul_one] at this
      rw [Nat.mul_comm j chunk_size]
      congr 1
      omega

theorem C18_read_visits_chunks_witness :
    (∃ t, UnChunkFS.unchunkfs_read_calls ⟨4, 8⟩ (files_dir [[1, 2, 3, 4], [5, 6, 7, 8]]) false
        (bytes "/image") 5 3 = some (Res.ok (5, [4, 5, 6, 7, 8]), t) ∧
      opened_chunks t = [UnChunkFS.chunk_name 0, UnChunkFS.chunk_name 1] ∧
      pread_offsets t = [(UnChunkFS.chunk_name 0, 3), (UnChunkFS.chunk_name 1, 0)]) ∧
    UnChunkFS.unchunkfs_read_calls ⟨4, 8⟩ (files_dir [[1, 2, 3, 4], [5, 6, 7, 8]]) false
      (bytes "/image") 5 3 =
      some (Res.ok (5, [4, 5, 6, 7, 8]),
        [UnChunkFS.Call.openChunk (UnChunkFS.chunk_name 0),
          UnChunkFS.Call.preadChunk (UnChunkFS.chunk_name 0) 5 3,
          UnChunkFS.Call.openChunk (UnChunkFS.chunk_name 1),
          UnChunkFS.Call.preadChunk (UnChunkFS.chunk_name 1) 4 0]) :=
  ⟨(C18_read_visits_chunks (files_dir [[1, 2, 3, 4], [5, 6, 7, 8]]) 4 3 (by decide)).2
    (fun i => [[1, 2, 3, 4], [5, 6, 7, 8]].getD i []) 1 false 5 5 (by norm_num)
    (fun i hi => by have : i = 0 := by omega
                    subst this; rfl)
    (files_dir_holds [[1, 2, 3, 4], [5, 6, 7, 8]] 1 rfl (by norm_num))
    (fun i hi k pos => by
      have h := files_dir_pread_full [[1, 2, 3, 4], [5, 6, 7, 8]] i
        (Nat.lt_succ_of_le hi) (by norm_num) k pos
      exact h)
    (by decide) (by decide) (by decide) (Or.inl (by decide)), by decide⟩

/-- C18 as stated fails when the last chunk is larger than `chunk_size`: with
chunk 0 of 4 bytes and chunk 1 of 8 bytes (`chunk_size = 4`, `image_size = 12`),
the read of 8 bytes at offset 4 opens chunk 1 only, which delivers the 8 bytes,
not the chunks `4 / 4 = 1 .. (4 + 8 - 1) / 4 = 2`. -/
theorem C18_counterexample :
    ¬ (∀ (d : UnChunkFS.ChunkDir) (chunk_size offset : Nat) (files : Nat → List Nat) (N : Nat)
        (done : Bool) (count n : Nat),
      1 ≤ chunk_size → N < 2 ^ 64 → (∀ i, i < N → (files i).length = chunk_size) →
      dir_holds d (chunks_upto files N) →
      (∀ i, i ≤ N → ∀ k pos,
        d.pread (UnChunkFS.chunk_name i) k pos = full_pread (files i) k pos) →
      count ≤ INT_MAX →
      n = min count (N * chunk_size + (files N).length - offset) → 0 < n →
      ∃ r t, UnChunkFS.unchunkfs_read_calls
          { chunk_size := chunk_size, image_size := N * chunk_size + (files N).length }
          d done (bytes "/image") count offset = some (r, t) ∧
        opened_chunks t =
          (List.range' (offset / chunk_size)
            ((offset + n - 1) / chunk_size - offset / chunk_size + 1)).map
            UnChunkFS.chunk_name) := by
  intro h
  have he : UnChunkFS.unchunkfs_read_calls ⟨4, 12⟩
      (files_dir [[1, 2, 3, 4], [5, 6, 7, 8, 9, 10, 11, 12]]) false (bytes "/image") 8 4 =
      some (Res.ok (8, [5, 6, 7, 8, 9, 10, 11, 12]),
        [UnChunkFS.Call.openChunk (UnChunkFS.chunk_name 1),
          UnChunkFS.Call.preadChunk (UnChunkFS.chunk_name 1) 8 0]) := by decide
  obtain ⟨r, t, ht, ho⟩ := h (files_dir [[1, 2, 3, 4], [5, 6, 7, 8, 9, 10, 11, 12]]) 4 4
    (fun i => [[1, 2, 3, 4], [5, 6, 7, 8, 9, 10, 11, 12]].getD i []) 1 false 8 8
    (by decide) (by norm_num)
    (fun i hi => by have : i = 0 := by omega
                    subst this; rfl)
    (files_dir_holds [[1, 2, 3, 4], [5, 6, 7, 8, 9, 10, 11, 12]] 1 rfl (by norm_num))
    (fun i hi k pos => by
      have h := files_dir_pread_full [[1, 2, 3, 4], [5, 6, 7, 8, 9, 10, 11, 12]] i
        (Nat.lt_succ_of_le hi) (by norm_num) k pos
      exact h)
    (by decide) (by decide) (by decide)
  have he2 : UnChunkFS.unchunkfs_read_calls
      { chunk_size := 4, image_size := 1 * 4 +
        ((fun i => [[1, 2, 3, 4], [5, 6, 7, 8, 9, 10, 11, 12]].getD i []) 1).length }
      (files_dir [[1, 2, 3, 4], [5, 6, 7, 8, 9, 10, 11, 12]]) false (bytes "/image") 8 4 =
      some (Res.ok (8, [5, 6, 7, 8, 9, 10, 11, 12]),
        [UnChunkFS.Call.openChunk (UnChunkFS.chunk_name 1),
          UnChunkFS.Call.preadChunk (UnChunkFS.chunk_name 1) 8 0]) := he
  rw [he2] at ht
  simp only [Option.some.injEq, Prod.mk.injEq] at ht
  obtain ⟨-, rfl⟩ := ht
  revert ho
  decide

end Chunkfs
